import Mathlib

/-! SpectralMorphingPedal: dynamics stage, envelope follower, pitch tracker and
phase-vocoder morph engine.

A shallow embedding of `Compressor.cpp`, `EnvelopeFollower.cpp`,
`PitchTracker.cpp`, `Morph.cpp` and the hop counter of `render.cpp`.

Single-precision arithmetic of the compressor, the envelope follower and the
morph engine is idealised as arithmetic over the real numbers: `powf` is
`Real.rpow`, `std::exp` is `Real.exp`, `std::fabs` is the absolute value.
Objects are records of their member variables; a member function that mutates
the object is a function returning the new record (and the returned sample, if
any).  Where underflow of a single-precision result decides a property, the
positivity of the compressor's linear threshold and knee width, the stored
value has a second definition that rounds a vanishing power to 0
(`Compressor.dBToLinearStored`).

The pitch tracker is embedded over exact rationals, with an explicit value
type for the non-finite results of a floating-point division by zero.
-/

noncomputable section

/-! ## Compressor (Compressor.h, Compressor.cpp) -/

/-- Member variables of `class Compressor`, in declaration order. -/
structure Compressor where
  threshold_ : ℝ
  ratio_ : ℝ
  attackTime_ : ℝ
  releaseTime_ : ℝ
  kneeWidth_ : ℝ
  makeupGain_ : ℝ
  envelope_ : ℝ
  gain_ : ℝ
  sampleRate_ : ℝ
  attackCoefficient_ : ℝ
  releaseCoefficient_ : ℝ

namespace Compressor

/-- The helper `Compressor::dBToLinear`: `powf(10.0f, dB / 20.0f)`, read over
the real numbers. -/
def dBToLinear (dB : ℝ) : ℝ :=
  Real.rpow 10 (dB / 20)

/-- The helper `Compressor::updateCoefficients`: both one-pole coefficients are
recomputed from the stored times and the sample rate. -/
def updateCoefficients (c : Compressor) : Compressor :=
  { c with
    attackCoefficient_ := 1 - Real.exp (-1 / (c.attackTime_ * c.sampleRate_))
    releaseCoefficient_ := 1 - Real.exp (-1 / (c.releaseTime_ * c.sampleRate_)) }

/-- The constructor `Compressor::Compressor`: the member initialiser list
followed by `updateCoefficients()`. -/
def new (threshold ratio attackTime releaseTime kneeWidth makeupGain sampleRate : ℝ) :
    Compressor :=
  updateCoefficients
    { threshold_ := dBToLinear threshold
      ratio_ := ratio
      attackTime_ := attackTime
      releaseTime_ := releaseTime
      kneeWidth_ := dBToLinear kneeWidth
      makeupGain_ := dBToLinear makeupGain
      envelope_ := 0
      gain_ := 1
      sampleRate_ := sampleRate
      attackCoefficient_ := 0
      releaseCoefficient_ := 0 }

/-- First block of `Compressor::process`: the envelope after the attack or
release update for the input sample. -/
def nextEnvelope (c : Compressor) (inputSample : ℝ) : ℝ :=
  let inputMagnitude := |inputSample|
  if inputMagnitude > c.envelope_ then
    c.envelope_ + c.attackCoefficient_ * (inputMagnitude - c.envelope_)
  else
    c.envelope_ + c.releaseCoefficient_ * (inputMagnitude - c.envelope_)

/-- Second block of `Compressor::process`: the local `desiredGain`, computed
from the envelope `e` that the first block has just stored. -/
def desiredGain (c : Compressor) (e : ℝ) : ℝ :=
  if e ≤ c.threshold_ - c.kneeWidth_ / 2 then
    1
  else if e > c.threshold_ + c.kneeWidth_ / 2 then
    Real.rpow (e / c.threshold_) (-c.ratio_)
  else
    let x := (e - c.threshold_ + c.kneeWidth_ / 2) / c.kneeWidth_
    Real.rpow (1 + (c.ratio_ - 1) * x * x) (-1)

/-- The member function `Compressor::process`: the object after the call and
the returned sample. -/
def process (c : Compressor) (inputSample : ℝ) : Compressor × ℝ :=
  let envelope := nextEnvelope c inputSample
  let desired := desiredGain c envelope
  let gain := desired + (c.attackCoefficient_ * (desired - c.gain_))
  ({ c with envelope_ := envelope, gain_ := gain }, inputSample * gain * c.makeupGain_)

/-- The setter `Compressor::setThreshold`. -/
def setThreshold (c : Compressor) (threshold : ℝ) : Compressor :=
  { c with threshold_ := dBToLinear threshold }

/-- The setter `Compressor::setRatio`. -/
def setRatio (c : Compressor) (ratio : ℝ) : Compressor :=
  { c with ratio_ := ratio }

/-- The setter `Compressor::setAttackTime`. -/
def setAttackTime (c : Compressor) (attackTime : ℝ) : Compressor :=
  updateCoefficients { c with attackTime_ := attackTime }

/-- The setter `Compressor::setReleaseTime`. -/
def setReleaseTime (c : Compressor) (releaseTime : ℝ) : Compressor :=
  updateCoefficients { c with releaseTime_ := releaseTime }

/-- The setter `Compressor::setKneeWidth`. -/
def setKneeWidth (c : Compressor) (kneeWidth : ℝ) : Compressor :=
  { c with kneeWidth_ := dBToLinear kneeWidth }

/-- The setter `Compressor::setMakeupGain`. -/
def setMakeupGain (c : Compressor) (makeupGain : ℝ) : Compressor :=
  { c with makeupGain_ := dBToLinear makeupGain }

/-- The object after `n` successive calls `process(u)` with the same sample. -/
def feed (c : Compressor) (u : ℝ) : ℕ → Compressor
  | 0 => c
  | n + 1 => (process (feed c u n) u).1

/-- The sample returned by call number `n + 1` of `process(u)`. -/
def output (c : Compressor) (u : ℝ) (n : ℕ) : ℝ :=
  (process (feed c u n) u).2

/-- The static gain curve as the specification words it: unity below the knee,
the power law above it, the reciprocal quadratic inside it. -/
def specGain (T K ratio e : ℝ) : ℝ :=
  if e ≤ T - K / 2 then 1
  else if e > T + K / 2 then Real.rpow (e / T) (-ratio)
  else 1 / (1 + (ratio - 1) * ((e - T + K / 2) / K) ^ 2)

/-- The value that `dBToLinear` leaves in a `float` member, as far as underflow
is concerned: `powf` rounds a power of at most `2^(-150)`, half the smallest
positive single-precision number, to 0; a larger power is kept as the real
number (rounding of the mantissa is not modelled). -/
def dBToLinearStored (dB : ℝ) : ℝ :=
  if Real.rpow 10 (dB / 20) ≤ 2 ^ (-150 : ℤ) then 0 else Real.rpow 10 (dB / 20)

/-- The constructor `Compressor::Compressor` with the single-precision store of
the three converted members. -/
def newStored (threshold ratio attackTime releaseTime kneeWidth makeupGain sampleRate : ℝ) :
    Compressor :=
  updateCoefficients
    { threshold_ := dBToLinearStored threshold
      ratio_ := ratio
      attackTime_ := attackTime
      releaseTime_ := releaseTime
      kneeWidth_ := dBToLinearStored kneeWidth
      makeupGain_ := dBToLinearStored makeupGain
      envelope_ := 0
      gain_ := 1
      sampleRate_ := sampleRate
      attackCoefficient_ := 0
      releaseCoefficient_ := 0 }

/-- The setter `Compressor::setThreshold` with the single-precision store. -/
def setThresholdStored (c : Compressor) (threshold : ℝ) : Compressor :=
  { c with threshold_ := dBToLinearStored threshold }

/-- The setter `Compressor::setKneeWidth` with the single-precision store. -/
def setKneeWidthStored (c : Compressor) (kneeWidth : ℝ) : Compressor :=
  { c with kneeWidth_ := dBToLinearStored kneeWidth }

/-- The setter `Compressor::setMakeupGain` with the single-precision store. -/
def setMakeupGainStored (c : Compressor) (makeupGain : ℝ) : Compressor :=
  { c with makeupGain_ := dBToLinearStored makeupGain }

/-- States a `Compressor` object can be in when every threshold and every knee
width it is given, in dB, is at least `lo`: the constructed object and whatever
the public member functions make of it. -/
inductive ReachableFrom (lo : ℝ) : Compressor → Prop
  | init (threshold ratio attackTime releaseTime kneeWidth makeupGain sampleRate : ℝ) :
      lo ≤ threshold → lo ≤ kneeWidth →
      ReachableFrom lo
        (newStored threshold ratio attackTime releaseTime kneeWidth makeupGain sampleRate)
  | threshold {c : Compressor} (t : ℝ) :
      lo ≤ t → ReachableFrom lo c → ReachableFrom lo (setThresholdStored c t)
  | ratio {c : Compressor} (t : ℝ) : ReachableFrom lo c → ReachableFrom lo (setRatio c t)
  | attack {c : Compressor} (t : ℝ) : ReachableFrom lo c → ReachableFrom lo (setAttackTime c t)
  | release {c : Compressor} (t : ℝ) :
      ReachableFrom lo c → ReachableFrom lo (setReleaseTime c t)
  | knee {c : Compressor} (t : ℝ) :
      lo ≤ t → ReachableFrom lo c → ReachableFrom lo (setKneeWidthStored c t)
  | makeup {c : Compressor} (t : ℝ) :
      ReachableFrom lo c → ReachableFrom lo (setMakeupGainStored c t)
  | step {c : Compressor} (x : ℝ) : ReachableFrom lo c → ReachableFrom lo (process c x).1

end Compressor

/-! ## EnvelopeFollower (EnvelopeFollower.h, EnvelopeFollower.cpp) -/

/-- Member variables of `class EnvelopeFollower`, in declaration order. -/
structure EnvelopeFollower where
  attackTime : ℝ
  releaseTime : ℝ
  smoothingTime : ℝ
  attackGain : ℝ
  releaseGain : ℝ
  smoothingGain : ℝ
  envelope : ℝ
  smoothedEnvelope : ℝ
  sampleRate : ℝ

namespace EnvelopeFollower

/-- The helper `EnvelopeFollower::calculateGainFactors`. -/
def calculateGainFactors (s : EnvelopeFollower) : EnvelopeFollower :=
  { s with
    attackGain := 1 - Real.exp (-1 / (s.sampleRate * s.attackTime * 0.001))
    releaseGain := 1 - Real.exp (-1 / (s.sampleRate * s.releaseTime * 0.001))
    smoothingGain := 1 - Real.exp (-1 / (s.sampleRate * s.smoothingTime * 0.001)) }

/-- The constructor `EnvelopeFollower::EnvelopeFollower`: initialiser list,
`calculateGainFactors()`, then both stages set to zero. -/
def new (attack release smoothing sr : ℝ) : EnvelopeFollower :=
  let s := calculateGainFactors
    { attackTime := attack
      releaseTime := release
      smoothingTime := smoothing
      attackGain := 0
      releaseGain := 0
      smoothingGain := 0
      envelope := 0
      smoothedEnvelope := 0
      sampleRate := sr }
  { s with envelope := 0, smoothedEnvelope := 0 }

/-- The setter `EnvelopeFollower::setAttackTime`. -/
def setAttackTime (s : EnvelopeFollower) (attack : ℝ) : EnvelopeFollower :=
  calculateGainFactors { s with attackTime := attack }

/-- The setter `EnvelopeFollower::setReleaseTime`. -/
def setReleaseTime (s : EnvelopeFollower) (release : ℝ) : EnvelopeFollower :=
  calculateGainFactors { s with releaseTime := release }

/-- The setter `EnvelopeFollower::setSmoothingTime`. -/
def setSmoothingTime (s : EnvelopeFollower) (smoothing : ℝ) : EnvelopeFollower :=
  calculateGainFactors { s with smoothingTime := smoothing }

/-- The member function `EnvelopeFollower::process`: the object after the call
and the returned smoothed envelope. -/
def process (s : EnvelopeFollower) (input : ℝ) : EnvelopeFollower × ℝ :=
  let absInput := |input|
  let envelope :=
    if absInput > s.envelope then
      s.attackGain * (absInput - s.envelope) + s.envelope
    else
      s.releaseGain * (absInput - s.envelope) + s.envelope
  let smoothedEnvelope := s.smoothingGain * (envelope - s.smoothedEnvelope) + s.smoothedEnvelope
  ({ s with envelope := envelope, smoothedEnvelope := smoothedEnvelope }, smoothedEnvelope)

/-- The object after `n` successive calls `process(u)` with the same sample. -/
def feed (s : EnvelopeFollower) (u : ℝ) : ℕ → EnvelopeFollower
  | 0 => s
  | n + 1 => (process (feed s u n) u).1

/-- The value returned by call number `n + 1` of `process(u)`. -/
def output (s : EnvelopeFollower) (u : ℝ) (n : ℕ) : ℝ :=
  (process (feed s u n) u).2

/-- The time-constant formula of the specification. -/
def specCoefficient (sampleRate time : ℝ) : ℝ :=
  1 - Real.exp (-1 / (sampleRate * time * 0.001))

/-- States an `EnvelopeFollower` object can be in: the constructed object and
whatever the public member functions make of it. -/
inductive Reachable : EnvelopeFollower → Prop
  | init (attack release smoothing sr : ℝ) : Reachable (new attack release smoothing sr)
  | attack {s : EnvelopeFollower} (t : ℝ) : Reachable s → Reachable (setAttackTime s t)
  | release {s : EnvelopeFollower} (t : ℝ) : Reachable s → Reachable (setReleaseTime s t)
  | smoothing {s : EnvelopeFollower} (t : ℝ) : Reachable s → Reachable (setSmoothingTime s t)
  | step {s : EnvelopeFollower} (x : ℝ) : Reachable s → Reachable (process s x).1

/-- The object after the calls `process(x)` for the samples `x` of a sequence,
in order. -/
def feedList (s : EnvelopeFollower) (xs : List ℝ) : EnvelopeFollower :=
  xs.foldl (fun st x => (process st x).1) s

/-- The largest `|input|` among the samples of a sequence, starting from the
bound `M` (0 for the largest `|input|` of the sequence itself). -/
def maxAbs (M : ℝ) (xs : List ℝ) : ℝ :=
  xs.foldl (fun acc x => max acc |x|) M

end EnvelopeFollower

end

/-! ## PitchTracker (PitchTracker.h, PitchTracker.cpp) -/

/-- A single-precision value as far as the pitch tracker can tell values apart:
a finite number (kept exact), an infinity, or not-a-number. -/
inductive FVal where
  | fin (q : ℚ)
  | pinf
  | ninf
  | nan
deriving DecidableEq

namespace FVal

/-- Floating-point division of two finite values.  A zero divisor gives an
infinity with the sign of the dividend, and `0 / 0` is not-a-number (the zero
divisors of this program are sums of squares, hence positive zeros). -/
def fdiv (a b : ℚ) : FVal :=
  if b ≠ 0 then fin (a / b)
  else if 0 < a then pinf
  else if a < 0 then ninf
  else nan

/-- The comparison `v < c` with a finite constant `c`: false for not-a-number. -/
def ltConst (v : FVal) (c : ℚ) : Bool :=
  match v with
  | fin q => decide (q < c)
  | ninf => true
  | pinf => false
  | nan => false

/-- The comparison `v >= c` with a finite constant `c`: false for not-a-number. -/
def geConst (v : FVal) (c : ℚ) : Bool :=
  match v with
  | fin q => decide (c ≤ q)
  | pinf => true
  | ninf => false
  | nan => false

/-- Floating-point negation. -/
def neg : FVal → FVal
  | fin q => fin (-q)
  | pinf => ninf
  | ninf => pinf
  | nan => nan

/-- Floating-point addition, rounding left out: not-a-number is contagious and
the sum of opposite infinities is not-a-number. -/
def add : FVal → FVal → FVal
  | fin a, fin b => fin (a + b)
  | fin _, pinf => pinf
  | fin _, ninf => ninf
  | pinf, fin _ => pinf
  | pinf, pinf => pinf
  | ninf, fin _ => ninf
  | ninf, ninf => ninf
  | pinf, ninf => nan
  | ninf, pinf => nan
  | nan, _ => nan
  | _, nan => nan

/-- Floating-point subtraction. -/
def sub (a b : FVal) : FVal :=
  add a (neg b)

/-- Floating-point multiplication, rounding left out: zero times an infinity is
not-a-number. -/
def mul : FVal → FVal → FVal
  | fin a, fin b => fin (a * b)
  | fin a, pinf => if 0 < a then pinf else if a < 0 then ninf else nan
  | fin a, ninf => if 0 < a then ninf else if a < 0 then pinf else nan
  | pinf, fin b => if 0 < b then pinf else if b < 0 then ninf else nan
  | ninf, fin b => if 0 < b then ninf else if b < 0 then pinf else nan
  | pinf, pinf => pinf
  | ninf, ninf => pinf
  | pinf, ninf => ninf
  | ninf, pinf => ninf
  | nan, _ => nan
  | _, nan => nan

/-- Floating-point division, rounding left out: a finite value over an infinity
is zero, an infinity over an infinity is not-a-number, and a zero divisor is a
positive zero as in `fdiv`. -/
def div : FVal → FVal → FVal
  | fin a, fin b => fdiv a b
  | fin _, pinf => fin 0
  | fin _, ninf => fin 0
  | pinf, fin b => if 0 ≤ b then pinf else ninf
  | ninf, fin b => if 0 ≤ b then ninf else pinf
  | pinf, pinf => nan
  | pinf, ninf => nan
  | ninf, pinf => nan
  | ninf, ninf => nan
  | nan, _ => nan
  | _, nan => nan

end FVal

/-- Member variables of `class PitchTracker`. -/
structure PitchTracker where
  sampleRate : ℚ
  bufferSize : ℕ
  gInputBuffer : List ℚ
  gCachedInputBufferPointer : ℤ

namespace PitchTracker

/-- The constructor `PitchTracker::PitchTracker`: a zero-filled capture block. -/
def new (sampleRate : ℚ) (bufferSize : ℕ) : PitchTracker :=
  { sampleRate := sampleRate
    bufferSize := bufferSize
    gInputBuffer := List.replicate bufferSize 0
    gCachedInputBufferPointer := 0 }

/-- The inline setter `setBufferValue` (for an index inside the block). -/
def setBufferValue (p : PitchTracker) (index : ℕ) (value : ℚ) : PitchTracker :=
  { p with gInputBuffer := p.gInputBuffer.set index value }

/-- The helper `PitchTracker::downsample`: the samples at indices `0`, `factor`,
`2 * factor`, ... of the signal (for `factor ≥ 1`, the only use). -/
def downsample : List ℚ → ℕ → List ℚ
  | [], _ => []
  | x :: xs, factor => x :: downsample (xs.drop (factor - 1)) factor
termination_by l => l.length
decreasing_by simp_wf; omega

/-- Entry `tau` of the array `diff` after the first loop nest of `process`:
entry 0 keeps its initial zero, entry `tau ≥ 1` accumulates `delta * delta`
for `i = 0 .. size - tau - 1`. -/
def diffAt (x : List ℚ) (tau : ℕ) : ℚ :=
  if tau = 0 then 0
  else (List.range (x.length - tau)).foldl
    (fun acc i => acc + (x.getD i 0 - x.getD (i + tau) 0) * (x.getD i 0 - x.getD (i + tau) 0)) 0

/-- The array `diff` of `process` for the downsampled signal `x`. -/
def diff (x : List ℚ) : List ℚ :=
  (List.range x.length).map (diffAt x)

/-- The call `std::accumulate(diff.begin(), diff.begin() + tau, 0.0)`: the sum
of the first `tau` entries of `diff`, the end iterator being exclusive. -/
def accumulate (d : List ℚ) (tau : ℕ) : ℚ :=
  (d.take tau).foldl (fun acc v => acc + v) 0

/-- Entry `tau` of the array `cumMeanNormalizedDiff` after the second loop of
`process`. -/
def cmndAt (x : List ℚ) (tau : ℕ) : FVal :=
  if tau = 0 then FVal.fin 1
  else FVal.fdiv ((diff x).getD tau 0) ((1 / (tau : ℚ)) * accumulate (diff x) tau)

/-- The array `cumMeanNormalizedDiff` of `process` for the downsampled signal. -/
def cumMeanNormalizedDiff (x : List ℚ) : List FVal :=
  (List.range x.length).map (cmndAt x)

/-- The arrays `process` computes from the capture block of the object: the
block is downsampled by the fixed factor 2 first. -/
def processCMND (p : PitchTracker) : List FVal :=
  cumMeanNormalizedDiff (downsample p.gInputBuffer 2)

/-- The threshold loop of `process`,
`for (tau = start; tau < size; tau++) if (cmnd[tau] < 0.1) { tauMin = tau; break; }`,
with `fuel` iterations left: the first lag below the threshold, or the initial
value 0 of `tauMin` when the loop runs to its end. -/
def scanTau (cmnd : List FVal) : ℕ → ℕ → ℕ
  | 0, _ => 0
  | fuel + 1, tau =>
    if (cmnd.getD tau FVal.nan).ltConst (1 / 10) then tau else scanTau cmnd fuel (tau + 1)

/-- The variable `tauMin` after the threshold loop, which runs over the lags
`1 .. size - 1`. -/
def tauMin (cmnd : List FVal) : ℕ :=
  scanTau cmnd (cmnd.length - 1) 1

/-- A read `cumMeanNormalizedDiff[i]`.  `std::vector::operator[]` does not
check its index: a read outside `[0, size)` yields whatever lies at that
address, given here by `oob`. -/
def readCMND (cmnd : List FVal) (oob : ℤ → FVal) (i : ℤ) : FVal :=
  if 0 ≤ i ∧ i < cmnd.length then cmnd.getD i.toNat FVal.nan else oob i

/-- The variable `betterTau` after the parabolic-interpolation block. -/
def betterTau (cmnd : List FVal) (oob : ℤ → FVal) (tauMin : ℤ) : FVal :=
  if tauMin < (cmnd.length : ℤ) - 1 then
    let s0 := readCMND cmnd oob (tauMin - 1)
    let s1 := readCMND cmnd oob tauMin
    let s2 := readCMND cmnd oob (tauMin + 1)
    (FVal.fin tauMin).add
      ((s2.sub s0).div ((FVal.fin 2).mul ((((FVal.fin 2).mul s1).sub s2).sub s0)))
  else
    FVal.fin tauMin

/-- The member function `PitchTracker::process`: the returned pitch.  `oob`
gives the content of the memory around the array `cumMeanNormalizedDiff`. -/
def process (p : PitchTracker) (oob : ℤ → FVal) : FVal :=
  let downsamplingFactor : ℕ := 2
  let downsampledSignal := downsample p.gInputBuffer downsamplingFactor
  let cmnd := cumMeanNormalizedDiff downsampledSignal
  let tauMin : ℤ := tauMin cmnd
  let betterTau := betterTau cmnd oob tauMin
  if (readCMND cmnd oob tauMin).geConst (1 / 10) then
    FVal.fin (-1)
  else
    (FVal.fin (p.sampleRate / downsamplingFactor)).div betterTau

/-- The indices at which `process` reads `cumMeanNormalizedDiff` after the
threshold loop: `tauMin - 1`, `tauMin`, `tauMin + 1` in the interpolation block
when `tauMin < size - 1`, then `tauMin` in the final test. -/
def cmndReadIndices (cmnd : List FVal) (tauMin : ℤ) : List ℤ :=
  (if tauMin < (cmnd.length : ℤ) - 1 then [tauMin - 1, tauMin, tauMin + 1] else [])
    ++ [tauMin]

/-- The indices at which `process` reads `cumMeanNormalizedDiff` after the
threshold loop, for the capture block of the object. -/
def processReadIndices (p : PitchTracker) : List ℤ :=
  cmndReadIndices (processCMND p) (tauMin (processCMND p))

/-- The difference function as the specification words it: the sum over the
overlapping region of the squared sample differences at lag `t`. -/
def specDiff (x : List ℚ) (t : ℕ) : ℚ :=
  ∑ i in Finset.range (x.length - t), (x.getD i 0 - x.getD (i + t) 0) ^ 2

/-- The normalized difference as the specification words it: `diff[t]` over the
mean of `diff[1], ..., diff[t]`, and 1 at lag 0. -/
def specCMND (x : List ℚ) (t : ℕ) : FVal :=
  if t = 0 then FVal.fin 1
  else FVal.fdiv (specDiff x t) ((1 / (t : ℚ)) * ∑ j in Finset.Icc 1 t, specDiff x j)

end PitchTracker


noncomputable section

/-! ## Morph (Morph.h, Morph.cpp) and the host loop (render.cpp)

Arithmetic is over the reals as for the compressor; `int` members are integers
and the C++ operators `%` and `/` on them are `Int.tmod` and `Int.tdiv`.  A
`std::vector<float>` is a function from indices to values (zero where nothing
was written yet).  The function-static arrays of `process_fft` and the
frequency- and time-domain arrays of the two `Fft` members are fields of the
record. -/

/-- The C library function `fmodf`: `x - y * trunc(x / y)`. -/
def fmodf (x y : ℝ) : ℝ :=
  x - y * (if 0 ≤ x / y then (⌊x / y⌋ : ℝ) else (⌈x / y⌉ : ℝ))

/-- The C library function `atan2f(y, x)`: the angle of the point `(x, y)`,
in `(-π, π]`. -/
def atan2f (y x : ℝ) : ℝ :=
  Complex.arg ⟨x, y⟩

/-- What `Morph` uses of the external class `Fft` (`libraries/Fft/Fft.h` of the
platform, not part of this repository): `fft` gives the real and imaginary
arrays `fdr`, `fdi` of the transform of a time-domain array of the given size,
`fda` the amplitude of a bin of the current frequency-domain arrays, and `ifft`
the time-domain array `td` of the current frequency-domain arrays. -/
structure FftLib where
  fft : ℤ → (ℤ → ℝ) → (ℤ → ℝ) × (ℤ → ℝ)
  fda : (ℤ → ℝ) → (ℤ → ℝ) → ℤ → ℝ
  ifft : ℤ → (ℤ → ℝ) → (ℤ → ℝ) → (ℤ → ℝ)

/-- A reference instance of the `Fft` interface: the discrete Fourier transform
written as its defining sums. -/
def FftLib.dft : FftLib where
  fft := fun size td =>
    (fun n => ∑ k in Finset.range size.toNat,
        td k * Real.cos (2 * Real.pi * k * n / size),
     fun n => -∑ k in Finset.range size.toNat,
        td k * Real.sin (2 * Real.pi * k * n / size))
  fda := fun fdr fdi n => Real.sqrt (fdr n * fdr n + fdi n * fdi n)
  ifft := fun size fdr fdi n =>
    (∑ k in Finset.range size.toNat,
        (fdr k * Real.cos (2 * Real.pi * k * n / size)
          - fdi k * Real.sin (2 * Real.pi * k * n / size))) / size

/-- Member variables of `class Morph`, the arrays of its two `Fft` members, and
the function-static arrays of `process_fft`. -/
structure Morph where
  gHopCounter : ℤ
  gHopSize : ℤ
  gInputBufferPointerGuitar : ℤ
  gInputBufferPointerSample : ℤ
  gCachedInputBufferPointerGuitar : ℤ
  gCachedInputBufferPointerSample : ℤ
  gAlpha : ℝ
  gFftGuitar_fdr : ℤ → ℝ
  gFftGuitar_fdi : ℤ → ℝ
  gFftGuitar_td : ℤ → ℝ
  gFftSample_fdr : ℤ → ℝ
  gFftSample_fdi : ℤ → ℝ
  gFftSize : ℤ
  gScaleFactor : ℝ
  gBufferSize : ℤ
  gInputBufferGuitar : ℤ → ℝ
  gInputBufferSample : ℤ → ℝ
  gOutputBuffer : ℤ → ℝ
  gOutputBufferWritePointer : ℤ
  gOutputBufferReadPointer : ℤ
  gAnalysisWindowBuffer : ℤ → ℝ
  gSynthesisWindowBuffer : ℤ → ℝ
  unwrappedBufferGuitar : ℤ → ℝ
  lastInputPhasesGuitar : ℤ → ℝ
  analysisMagnitudesGuitar : ℤ → ℝ
  analysisFrequenciesGuitar : ℤ → ℝ
  unwrappedBufferSample : ℤ → ℝ
  lastInputPhasesSample : ℤ → ℝ
  analysisMagnitudesSample : ℤ → ℝ
  analysisFrequenciesSample : ℤ → ℝ
  synthesisMagnitudes : ℤ → ℝ
  synthesisFrequencies : ℤ → ℝ
  lastOutputPhases : ℤ → ℝ

namespace Morph

/-- The constructor `Morph::Morph`. -/
def new (fftSize hopSize bufferSize : ℤ) : Morph :=
  { gHopCounter := 0
    gHopSize := hopSize
    gInputBufferPointerGuitar := 0
    gInputBufferPointerSample := 0
    gCachedInputBufferPointerGuitar := 0
    gCachedInputBufferPointerSample := 0
    gAlpha := 0.5
    gFftGuitar_fdr := fun _ => 0
    gFftGuitar_fdi := fun _ => 0
    gFftGuitar_td := fun _ => 0
    gFftSample_fdr := fun _ => 0
    gFftSample_fdi := fun _ => 0
    gFftSize := fftSize
    gScaleFactor := 0.5
    gBufferSize := bufferSize
    gInputBufferGuitar := fun _ => 0
    gInputBufferSample := fun _ => 0
    gOutputBuffer := fun _ => 0
    gOutputBufferWritePointer := fftSize + 2 * hopSize
    gOutputBufferReadPointer := 0
    gAnalysisWindowBuffer := fun _ => 0
    gSynthesisWindowBuffer := fun _ => 0
    unwrappedBufferGuitar := fun _ => 0
    lastInputPhasesGuitar := fun _ => 0
    analysisMagnitudesGuitar := fun _ => 0
    analysisFrequenciesGuitar := fun _ => 0
    unwrappedBufferSample := fun _ => 0
    lastInputPhasesSample := fun _ => 0
    analysisMagnitudesSample := fun _ => 0
    analysisFrequenciesSample := fun _ => 0
    synthesisMagnitudes := fun _ => 0
    synthesisFrequencies := fun _ => 0
    lastOutputPhases := fun _ => 0 }

/-- Entry `n` of the Hann window computed by `setup`. -/
def hannWindow (m : Morph) (n : ℤ) : ℝ :=
  if 0 ≤ n ∧ n < m.gFftSize then
    0.5 * (1.0 - Real.cos (2.0 * Real.pi * n / ((m.gFftSize - 1 : ℤ) : ℝ)))
  else 0

/-- The member function `Morph::setup`: zero-filled buffers of their sizes and
the two windows. -/
def setup (m : Morph) : Morph :=
  { m with
    gInputBufferGuitar := fun _ => 0
    gInputBufferSample := fun _ => 0
    gOutputBuffer := fun _ => 0
    gAnalysisWindowBuffer := hannWindow m
    gSynthesisWindowBuffer := hannWindow m }

/-- The member function `Morph::wrapPhase`. -/
def wrapPhase (phaseIn : ℝ) : ℝ :=
  if phaseIn ≥ 0 then
    fmodf (phaseIn + Real.pi) (2.0 * Real.pi) - Real.pi
  else
    fmodf (phaseIn - Real.pi) (-2.0 * Real.pi) + Real.pi

/-- The member function `Morph::render`: the object after the call and the
returned sample. -/
def render (m : Morph) (guitarInput sampleInput : ℝ) : Morph × ℝ :=
  let inputGuitar := Function.update m.gInputBufferGuitar m.gInputBufferPointerGuitar guitarInput
  let pointerGuitar :=
    if m.gInputBufferPointerGuitar + 1 ≥ m.gBufferSize then 0
    else m.gInputBufferPointerGuitar + 1
  let inputSample := Function.update m.gInputBufferSample m.gInputBufferPointerSample sampleInput
  let pointerSample :=
    if m.gInputBufferPointerSample + 1 ≥ m.gBufferSize then 0
    else m.gInputBufferPointerSample + 1
  let output := m.gOutputBuffer m.gOutputBufferReadPointer
  let outputBuffer := Function.update m.gOutputBuffer m.gOutputBufferReadPointer 0
  let output := output * m.gScaleFactor
  let readPointer :=
    if m.gOutputBufferReadPointer + 1 ≥ m.gBufferSize then 0
    else m.gOutputBufferReadPointer + 1
  ({ m with
      gInputBufferGuitar := inputGuitar
      gInputBufferPointerGuitar := pointerGuitar
      gInputBufferSample := inputSample
      gInputBufferPointerSample := pointerSample
      gOutputBuffer := outputBuffer
      gOutputBufferReadPointer := readPointer },
   output)

/-- The index expression
`(pointer + n - gFftSize + gBufferSize) % gBufferSize` of `process_fft`. -/
def circularBufferIndex (m : Morph) (pointer n : ℤ) : ℤ :=
  (pointer + n - m.gFftSize + m.gBufferSize).tmod m.gBufferSize

/-- Entry `n` of `unwrappedBufferGuitar` after the first loop of `process_fft`. -/
def windowedGuitar (m : Morph) (n : ℤ) : ℝ :=
  m.gInputBufferGuitar (circularBufferIndex m m.gInputBufferPointerGuitar n)
    * m.gAnalysisWindowBuffer n

/-- Entry `n` of `unwrappedBufferSample` after the first loop of `process_fft`. -/
def windowedSample (m : Morph) (n : ℤ) : ℝ :=
  m.gInputBufferSample (circularBufferIndex m m.gInputBufferPointerSample n)
    * m.gAnalysisWindowBuffer n

/-- First loop of `process_fft` (`n = 0 .. gFftSize - 1`): both windowed
inputs. -/
def windowing (m : Morph) : Morph :=
  { m with
    unwrappedBufferGuitar := fun n =>
      if 0 ≤ n ∧ n < m.gFftSize then windowedGuitar m n else m.unwrappedBufferGuitar n
    unwrappedBufferSample := fun n =>
      if 0 ≤ n ∧ n < m.gFftSize then windowedSample m n else m.unwrappedBufferSample n }

/-- The two forward transforms of `process_fft`. -/
def transform (lib : FftLib) (m : Morph) : Morph :=
  { m with
    gFftGuitar_fdr := (lib.fft m.gFftSize m.unwrappedBufferGuitar).1
    gFftGuitar_fdi := (lib.fft m.gFftSize m.unwrappedBufferGuitar).2
    gFftSample_fdr := (lib.fft m.gFftSize m.unwrappedBufferSample).1
    gFftSample_fdi := (lib.fft m.gFftSize m.unwrappedBufferSample).2 }

/-- The loop bound `gFftSize / 2` of the analysis and synthesis loops. -/
def halfSize (m : Morph) : ℤ :=
  m.gFftSize.tdiv 2

/-- The local `phaseGuitar` of the analysis loop at bin `n`. -/
def phaseGuitar (m : Morph) (n : ℤ) : ℝ :=
  atan2f (m.gFftGuitar_fdi n) (m.gFftGuitar_fdr n)

/-- The local `phaseSample` of the analysis loop at bin `n`. -/
def phaseSample (m : Morph) (n : ℤ) : ℝ :=
  atan2f (m.gFftSample_fdi n) (m.gFftSample_fdr n)

/-- The local `binCentreFrequency` at bin `n`. -/
def binCentreFrequency (m : Morph) (n : ℤ) : ℝ :=
  2.0 * Real.pi * (n : ℝ) / (m.gFftSize : ℝ)

/-- The local `phaseDiffGuitar` of the analysis loop after wrapping. -/
def phaseDiffGuitar (m : Morph) (n : ℤ) : ℝ :=
  wrapPhase ((phaseGuitar m n - m.lastInputPhasesGuitar n)
    - binCentreFrequency m n * (m.gHopSize : ℝ))

/-- The local `phaseDiffSample` of the analysis loop after wrapping. -/
def phaseDiffSample (m : Morph) (n : ℤ) : ℝ :=
  wrapPhase ((phaseSample m n - m.lastInputPhasesSample n)
    - binCentreFrequency m n * (m.gHopSize : ℝ))

/-- The local `binDeviationGuitar` of the analysis loop. -/
def binDeviationGuitar (m : Morph) (n : ℤ) : ℝ :=
  phaseDiffGuitar m n * (m.gFftSize : ℝ) / (m.gHopSize : ℝ) / (2.0 * Real.pi)

/-- The local `binDeviationSample` of the analysis loop; the source computes it
from `phaseDiffGuitar`. -/
def binDeviationSample (m : Morph) (n : ℤ) : ℝ :=
  phaseDiffGuitar m n * (m.gFftSize : ℝ) / (m.gHopSize : ℝ) / (2.0 * Real.pi)

/-- The analysis loop of `process_fft` (`n = 0 .. gFftSize / 2`).  An iteration
reads and writes only entry `n` of the arrays, so the loop is given entry by
entry. -/
def analysis (lib : FftLib) (m : Morph) : Morph :=
  { m with
    analysisFrequenciesGuitar := fun n =>
      if 0 ≤ n ∧ n ≤ halfSize m then (n : ℝ) + binDeviationGuitar m n
      else m.analysisFrequenciesGuitar n
    analysisFrequenciesSample := fun n =>
      if 0 ≤ n ∧ n ≤ halfSize m then (n : ℝ) + binDeviationSample m n
      else m.analysisFrequenciesSample n
    analysisMagnitudesGuitar := fun n =>
      if 0 ≤ n ∧ n ≤ halfSize m then lib.fda m.gFftGuitar_fdr m.gFftGuitar_fdi n
      else m.analysisMagnitudesGuitar n
    analysisMagnitudesSample := fun n =>
      if 0 ≤ n ∧ n ≤ halfSize m then lib.fda m.gFftSample_fdr m.gFftSample_fdi n
      else m.analysisMagnitudesSample n
    lastInputPhasesGuitar := fun n =>
      if 0 ≤ n ∧ n ≤ halfSize m then phaseGuitar m n else m.lastInputPhasesGuitar n
    lastInputPhasesSample := fun n =>
      if 0 ≤ n ∧ n ≤ halfSize m then phaseSample m n else m.lastInputPhasesSample n }

/-- The zeroing loop and the morphing loop of `process_fft`
(`n = 0 .. gFftSize / 2`): the interpolated synthesis frame. -/
def morphing (m : Morph) : Morph :=
  { m with
    synthesisFrequencies := fun n =>
      if 0 ≤ n ∧ n ≤ halfSize m then
        (1 - m.gAlpha) * m.analysisFrequenciesGuitar n + m.gAlpha * m.analysisFrequenciesSample n
      else m.synthesisFrequencies n
    synthesisMagnitudes := fun n =>
      if 0 ≤ n ∧ n ≤ halfSize m then
        (1 - m.gAlpha) * m.analysisMagnitudesGuitar n + m.gAlpha * m.analysisMagnitudesSample n
      else m.synthesisMagnitudes n }

/-- The local `outPhase` of the synthesis loop at bin `n`. -/
def outPhase (m : Morph) (n : ℤ) : ℝ :=
  let binDeviation := m.synthesisFrequencies n - (n : ℝ)
  let phaseDiff := binDeviation * 2.0 * Real.pi * (m.gHopSize : ℝ) / (m.gFftSize : ℝ)
  let phaseDiff := phaseDiff + binCentreFrequency m n * (m.gHopSize : ℝ)
  wrapPhase (m.lastOutputPhases n + phaseDiff)

/-- The synthesis loop of `process_fft` (`n = 0 .. gFftSize / 2`): bin `n` of
the guitar transform is rebuilt from magnitude and phase, and for
`0 < n < gFftSize / 2` its conjugate is stored at bin `gFftSize - n`. -/
def synthesis (m : Morph) : Morph :=
  { m with
    gFftGuitar_fdr := fun k =>
      if 0 ≤ k ∧ k ≤ halfSize m then m.synthesisMagnitudes k * Real.cos (outPhase m k)
      else if 0 < m.gFftSize - k ∧ m.gFftSize - k < halfSize m then
        m.synthesisMagnitudes (m.gFftSize - k) * Real.cos (outPhase m (m.gFftSize - k))
      else m.gFftGuitar_fdr k
    gFftGuitar_fdi := fun k =>
      if 0 ≤ k ∧ k ≤ halfSize m then m.synthesisMagnitudes k * Real.sin (outPhase m k)
      else if 0 < m.gFftSize - k ∧ m.gFftSize - k < halfSize m then
        -(m.synthesisMagnitudes (m.gFftSize - k) * Real.sin (outPhase m (m.gFftSize - k)))
      else m.gFftGuitar_fdi k
    lastOutputPhases := fun n =>
      if 0 ≤ n ∧ n ≤ halfSize m then outPhase m n else m.lastOutputPhases n }

/-- The inverse transform of `process_fft`. -/
def inverse (lib : FftLib) (m : Morph) : Morph :=
  { m with gFftGuitar_td := lib.ifft m.gFftSize m.gFftGuitar_fdr m.gFftGuitar_fdi }

/-- The overlap-add loop of `process_fft` (`n = 0 .. gFftSize - 1`, in order)
and the update of the write pointer. -/
def overlapAdd (m : Morph) : Morph :=
  { m with
    gOutputBuffer := (List.range m.gFftSize.toNat).foldl
      (fun buffer n =>
        Function.update buffer (circularBufferIndex m m.gOutputBufferWritePointer n)
          (buffer (circularBufferIndex m m.gOutputBufferWritePointer n)
            + m.gFftGuitar_td n * m.gSynthesisWindowBuffer n))
      m.gOutputBuffer
    gOutputBufferWritePointer := (m.gOutputBufferWritePointer + m.gHopSize).tmod m.gBufferSize }

/-- The member function `Morph::process_fft`. -/
def process_fft (lib : FftLib) (m : Morph) : Morph :=
  overlapAdd (inverse lib (synthesis (morphing (analysis lib (transform lib (windowing m))))))

/-- The hop counter block of the host loop (`render.cpp`): the counter is
advanced, and when it reaches the hop size it is reset, both write indices are
cached and the FFT task is scheduled (the returned flag). -/
def hopTick (m : Morph) : Morph × Bool :=
  if m.gHopCounter + 1 ≥ m.gHopSize then
    ({ m with
        gHopCounter := 0
        gCachedInputBufferPointerGuitar := m.gInputBufferPointerGuitar
        gCachedInputBufferPointerSample := m.gInputBufferPointerSample },
     true)
  else
    ({ m with gHopCounter := m.gHopCounter + 1 }, false)

/-- A call of one of the two member functions that run during playback. -/
inductive Call where
  | render (guitarInput sampleInput : ℝ)
  | process_fft

/-- The object after one call. -/
def step (lib : FftLib) (m : Morph) (c : Call) : Morph :=
  match c with
  | Call.render a b => (render m a b).1
  | Call.process_fft => process_fft lib m

/-- The object after a sequence of calls, first call first. -/
def run (lib : FftLib) (m : Morph) (calls : List Call) : Morph :=
  calls.foldl (step lib) m

/-- A call sequence in which `process_fft` executes exactly once after every
`hop`-th `render` call; `k` counts the `render` calls since the last pass. -/
def hopSchedule (hop : ℤ) : ℤ → List Call → Prop
  | _, [] => True
  | k, Call.render _ _ :: rest => k < hop ∧ hopSchedule hop (k + 1) rest
  | k, Call.process_fft :: rest => k = hop ∧ hopSchedule hop 0 rest

/-- The separation of the overlap-add pointers,
`(writePointer - readPointer) mod bufferSize`. -/
def separation (m : Morph) : ℤ :=
  (m.gOutputBufferWritePointer - m.gOutputBufferReadPointer) % m.gBufferSize

/-- The pointer invariant of a scheduled run: `k` calls of `render` after the
last pass the write pointer leads the read pointer by `fftSize + 2 * hop - k`,
up to one wrap of the buffer. -/
def PointerInv (F h B k : ℤ) (m : Morph) : Prop :=
  m.gFftSize = F ∧ m.gHopSize = h ∧ m.gBufferSize = B ∧
  0 ≤ m.gOutputBufferReadPointer ∧ m.gOutputBufferReadPointer < B ∧
  0 ≤ m.gOutputBufferWritePointer ∧ m.gOutputBufferWritePointer < B ∧
  0 ≤ k ∧ k ≤ h ∧
  (m.gOutputBufferWritePointer - m.gOutputBufferReadPointer = F + 2 * h - k ∨
   m.gOutputBufferWritePointer - m.gOutputBufferReadPointer = F + 2 * h - k - B)

/-- One iteration of the host loop as far as the morph engine is concerned: the
hop counter block, then `morph->render` (`render.cpp`). -/
def hostIteration (m : Morph) (guitarInput sampleInput : ℝ) : Morph :=
  (render (hopTick m).1 guitarInput sampleInput).1

/-- The object with FFT size 4, hop size 2 and buffer size 16 after `setup` and
four iterations of the host loop with the guitar samples 1, 2, 3, 4. -/
def afterFourSamples : Morph :=
  hostIteration (hostIteration (hostIteration (hostIteration (new 4 2 16).setup 1 0) 2 0) 3 0) 4 0

/-- The object with FFT size 4, hop size 2 and buffer size 16 after `setup` and
four iterations of the host loop in which the third iteration feeds the guitar
sample `g` and the sample-player sample `s`, the others silence. -/
def afterImpulse (g s : ℝ) : Morph :=
  hostIteration (hostIteration (hostIteration (hostIteration (new 4 2 16).setup 0 0) 0 0) g s) 0 0

/-- The assignment `morph->gAlpha = morphAmount` of the host (`render.cpp`). -/
def setAlpha (m : Morph) (morphAmount : ℝ) : Morph :=
  { m with gAlpha := morphAmount }

/-- An index into one of the three circular buffers is inside the buffer. -/
def InBuffer (m : Morph) (i : ℤ) : Prop :=
  0 ≤ i ∧ i < m.gBufferSize

/-- Conjugate symmetry of a spectrum of size `F` as the specification words
it: for every `k` with `0 < k < F` bin `F - k` is the complex conjugate of bin
`k`, and bin 0 has zero imaginary part. -/
def conjugateSymmetric (F : ℤ) (fdr fdi : ℤ → ℝ) : Prop :=
  (∀ k, 0 < k → k < F → fdr (F - k) = fdr k ∧ fdi (F - k) = -fdi k) ∧ fdi 0 = 0

/-- The output phase memory is in step with the guitar stream's input phase
memory: on every bin of the loop range the two differ by a whole number of
turns. -/
def PhaseSync (m : Morph) : Prop :=
  ∀ n, 0 ≤ n → n ≤ halfSize m →
    ∃ j : ℤ, m.lastOutputPhases n = m.lastInputPhasesGuitar n + j * (2 * Real.pi)

/-- The overlap-add gain at offset `n` as the specification words it for a hop
of half the FFT size: the scale factor times the sum, over the two frames that
overlap there, of analysis window times synthesis window. -/
def specOverlapGain (m : Morph) (n : ℤ) : ℝ :=
  m.gScaleFactor
    * (m.gAnalysisWindowBuffer n * m.gSynthesisWindowBuffer n
      + m.gAnalysisWindowBuffer (n + m.gFftSize.tdiv 2)
        * m.gSynthesisWindowBuffer (n + m.gFftSize.tdiv 2))

/-- The window of the capture buffer that the specification has the analysis
pass take for the guitar stream: the `gFftSize` samples ending at the cached
write index. -/
def specWindowedGuitar (m : Morph) (n : ℤ) : ℝ :=
  m.gInputBufferGuitar (circularBufferIndex m m.gCachedInputBufferPointerGuitar n)
    * m.gAnalysisWindowBuffer n

/-- The analysis frequency of the sample stream as the specification words it:
the bin plus the deviation from that stream's own wrapped residual. -/
def specAnalysisFrequencySample (m : Morph) (n : ℤ) : ℝ :=
  (n : ℝ) + phaseDiffSample m n * (m.gFftSize : ℝ) / (2 * Real.pi * (m.gHopSize : ℝ))

end Morph

end

/-! ## General lemmas -/

/-- The time-constant formula gives a coefficient strictly between 0 and 1 for
a positive time-rate product. -/
theorem one_sub_exp_mem (p : ℝ) (hp : 0 < p) :
    0 < 1 - Real.exp (-1 / p) ∧ 1 - Real.exp (-1 / p) < 1 := by
  have hneg : -1 / p < 0 := div_neg_of_neg_of_pos (by norm_num) hp
  have h1 : Real.exp (-1 / p) < 1 := Real.exp_lt_one_iff.mpr hneg
  have h0 : 0 < Real.exp (-1 / p) := Real.exp_pos _
  constructor <;> linarith

/-- A sequence driven by a contraction plus a vanishing perturbation vanishes. -/
theorem tendsto_zero_of_contraction (h d : ℕ → ℝ) (c : ℝ) (hc : |c| < 1)
    (hstep : ∀ n, h (n + 1) = c * h n + d n)
    (hd : Filter.Tendsto d Filter.atTop (nhds 0)) :
    Filter.Tendsto h Filter.atTop (nhds 0) := by
  rw [Metric.tendsto_atTop]
  intro ε hε
  have hk0 : 0 ≤ |c| := abs_nonneg c
  have hgap : 0 < ε * (1 - |c|) / 2 := by
    have : 0 < 1 - |c| := by linarith
    positivity
  obtain ⟨N1, hN1⟩ := (Metric.tendsto_atTop.mp hd) _ hgap
  have hbound : ∀ m, |h (N1 + m)| ≤ |c| ^ m * |h N1| + ε / 2 := by
    intro m
    induction m with
    | zero => simp; linarith
    | succ m ih =>
      have hdm : |d (N1 + m)| < ε * (1 - |c|) / 2 := by
        have := hN1 (N1 + m) (Nat.le_add_right _ _)
        simpa [Real.dist_eq] using this
      have hs : h (N1 + (m + 1)) = c * h (N1 + m) + d (N1 + m) := by
        rw [← hstep]; rfl
      calc |h (N1 + (m + 1))| = |c * h (N1 + m) + d (N1 + m)| := by rw [hs]
        _ ≤ |c * h (N1 + m)| + |d (N1 + m)| := abs_add _ _
        _ = |c| * |h (N1 + m)| + |d (N1 + m)| := by rw [abs_mul]
        _ ≤ |c| * (|c| ^ m * |h N1| + ε / 2) + ε * (1 - |c|) / 2 := by
          have := mul_le_mul_of_nonneg_left ih hk0
          linarith
        _ = |c| ^ (m + 1) * |h N1| + ε / 2 := by ring
  have hpow : Filter.Tendsto (fun m : ℕ => |c| ^ m * |h N1|) Filter.atTop (nhds 0) := by
    have := (tendsto_pow_atTop_nhds_zero_of_lt_one hk0 hc).mul_const (|h N1|)
    simpa using this
  obtain ⟨M, hM⟩ := (Metric.tendsto_atTop.mp hpow) (ε / 2) (by linarith)
  refine ⟨N1 + M, fun n hn => ?_⟩
  obtain ⟨m, rfl⟩ : ∃ m, n = N1 + m := ⟨n - N1, by omega⟩
  have hm : M ≤ m := by omega
  have h1 := hM m hm
  rw [Real.dist_eq, sub_zero, abs_of_nonneg (by positivity)] at h1
  rw [Real.dist_eq, sub_zero]
  linarith [hbound m]

/-- A one-pole tracker `e' = e + a * (u - e)` started at 0 has the closed form
`u * (1 - (1 - a)^n)`. -/
theorem onePole_closed_form (e : ℕ → ℝ) (a u : ℝ) (h0 : e 0 = 0)
    (hstep : ∀ n, e (n + 1) = e n + a * (u - e n)) (n : ℕ) :
    e n = u * (1 - (1 - a) ^ n) := by
  induction n with
  | zero => simp [h0]
  | succ n ih => rw [hstep, ih]; ring

/-- The closed form of a one-pole tracker converges to its target. -/
theorem tendsto_onePole (a u : ℝ) (ha0 : 0 < a) (ha1 : a < 1) :
    Filter.Tendsto (fun n : ℕ => u * (1 - (1 - a) ^ n)) Filter.atTop (nhds u) := by
  have hp : Filter.Tendsto (fun n : ℕ => (1 - a) ^ n) Filter.atTop (nhds 0) :=
    tendsto_pow_atTop_nhds_zero_of_lt_one (by linarith) (by linarith)
  have := (tendsto_const_nhds (x := (1 : ℝ))).sub hp
  have := this.const_mul u
  simpa using this

/-! ## Compressor: facts about repeated `process` calls -/

namespace Compressor

theorem process_params (c : Compressor) (u : ℝ) :
    (process c u).1.threshold_ = c.threshold_ ∧ (process c u).1.ratio_ = c.ratio_ ∧
    (process c u).1.kneeWidth_ = c.kneeWidth_ ∧ (process c u).1.makeupGain_ = c.makeupGain_ ∧
    (process c u).1.attackCoefficient_ = c.attackCoefficient_ ∧
    (process c u).1.releaseCoefficient_ = c.releaseCoefficient_ := by
  simp [process]

theorem feed_params (c : Compressor) (u : ℝ) (n : ℕ) :
    (feed c u n).threshold_ = c.threshold_ ∧ (feed c u n).ratio_ = c.ratio_ ∧
    (feed c u n).kneeWidth_ = c.kneeWidth_ ∧ (feed c u n).makeupGain_ = c.makeupGain_ ∧
    (feed c u n).attackCoefficient_ = c.attackCoefficient_ ∧
    (feed c u n).releaseCoefficient_ = c.releaseCoefficient_ := by
  induction n with
  | zero => simp [feed]
  | succ n ih =>
    obtain ⟨h1, h2, h3, h4, h5, h6⟩ := ih
    obtain ⟨p1, p2, p3, p4, p5, p6⟩ := process_params (feed c u n) u
    simp only [feed]
    exact ⟨p1.trans h1, p2.trans h2, p3.trans h3, p4.trans h4, p5.trans h5, p6.trans h6⟩

/-- The desired gain depends on the object only through threshold, knee width
and ratio. -/
theorem desiredGain_congr (c c' : Compressor) (e : ℝ) (hT : c'.threshold_ = c.threshold_)
    (hK : c'.kneeWidth_ = c.kneeWidth_) (hR : c'.ratio_ = c.ratio_) :
    desiredGain c' e = desiredGain c e := by
  simp [desiredGain, hT, hK, hR]

/-- Under a constant positive input, an envelope started at 0 stays below the
input, so every call takes the attack branch and the envelope has the
closed form of a one-pole tracker. -/
theorem feed_envelope (c : Compressor) (u : ℝ) (hu : 0 < u) (he : c.envelope_ = 0)
    (ha1 : c.attackCoefficient_ < 1) (n : ℕ) :
    (feed c u n).envelope_ = u * (1 - (1 - c.attackCoefficient_) ^ n) := by
  have hlt : ∀ n, (feed c u n).envelope_ = u * (1 - (1 - c.attackCoefficient_) ^ n) := by
    intro n
    induction n with
    | zero => simp [feed, he]
    | succ n ih =>
      have hpos : 0 < (1 - c.attackCoefficient_) ^ n := pow_pos (by linarith) n
      have hbelow : (feed c u n).envelope_ < u := by
        rw [ih]; nlinarith
      have hA := (feed_params c u n).2.2.2.2.1
      simp only [feed, process, nextEnvelope, abs_of_pos hu]
      rw [if_pos hbelow, hA, ih]
      ring
  exact hlt n

theorem tendsto_feed_envelope (c : Compressor) (u : ℝ) (hu : 0 < u) (he : c.envelope_ = 0)
    (ha0 : 0 < c.attackCoefficient_) (ha1 : c.attackCoefficient_ < 1) :
    Filter.Tendsto (fun n => (feed c u n).envelope_) Filter.atTop (nhds u) := by
  have h := tendsto_onePole c.attackCoefficient_ u ha0 ha1
  refine h.congr (fun n => ?_)
  rw [feed_envelope c u hu he ha1 n]

/-- The gain recurrence of `process` along a run of equal inputs. -/
theorem feed_gain_succ (c : Compressor) (u : ℝ) (n : ℕ) :
    (feed c u (n + 1)).gain_ =
      desiredGain c (feed c u (n + 1)).envelope_ +
        c.attackCoefficient_ * (desiredGain c (feed c u (n + 1)).envelope_ - (feed c u n).gain_) := by
  obtain ⟨h1, h2, h3, _, h5, _⟩ := feed_params c u n
  have hd : ∀ e, desiredGain (feed c u n) e = desiredGain c e :=
    fun e => desiredGain_congr c _ e h1 h3 h2
  simp only [feed, process, hd, h5]

/-- Under a constant positive input the smoothed gain converges to the desired
gain at that input level, provided the gain curve is continuous there. -/
theorem tendsto_feed_gain (c : Compressor) (u : ℝ) (hu : 0 < u) (he : c.envelope_ = 0)
    (ha0 : 0 < c.attackCoefficient_) (ha1 : c.attackCoefficient_ < 1)
    (hcont : ContinuousAt (desiredGain c) u) :
    Filter.Tendsto (fun n => (feed c u n).gain_) Filter.atTop (nhds (desiredGain c u)) := by
  set a := c.attackCoefficient_ with ha
  set L := desiredGain c u with hL
  have henv := tendsto_feed_envelope c u hu he ha0 ha1
  have hdes : Filter.Tendsto (fun n => desiredGain c (feed c u (n + 1)).envelope_)
      Filter.atTop (nhds L) :=
    (hcont.tendsto.comp henv).comp (Filter.tendsto_add_atTop_nat 1)
  have hpert : Filter.Tendsto
      (fun n => (1 + a) * (desiredGain c (feed c u (n + 1)).envelope_ - L))
      Filter.atTop (nhds 0) := by
    have := (hdes.sub_const L).const_mul (1 + a)
    simpa using this
  have hzero : Filter.Tendsto (fun n => (feed c u n).gain_ - L) Filter.atTop (nhds 0) := by
    refine tendsto_zero_of_contraction _ _ (-a) ?_ (fun n => ?_) hpert
    · rw [abs_neg, abs_of_pos ha0]; exact ha1
    · rw [feed_gain_succ]; ring
  have := hzero.add_const L
  simpa using this

/-- The returned samples converge along with the gain. -/
theorem tendsto_output (c : Compressor) (u L : ℝ)
    (hg : Filter.Tendsto (fun n => (feed c u n).gain_) Filter.atTop (nhds L)) :
    Filter.Tendsto (output c u) Filter.atTop (nhds (u * L * c.makeupGain_)) := by
  have h1 : Filter.Tendsto (fun n => (feed c u (n + 1)).gain_) Filter.atTop (nhds L) :=
    hg.comp (Filter.tendsto_add_atTop_nat 1)
  have h2 := (h1.const_mul u).mul_const c.makeupGain_
  refine h2.congr (fun n => ?_)
  have hm := (feed_params c u n).2.2.2.1
  simp only [output, feed, process, hm]

theorem dBToLinear_zero : dBToLinear 0 = 1 := by
  simp [dBToLinear]

theorem dBToLinear_neg_twenty : dBToLinear (-20) = 1 / 10 := by
  have h : ((-20 : ℝ) / 20) = -1 := by norm_num
  simp only [dBToLinear, h]
  show (10 : ℝ) ^ (-1 : ℝ) = 1 / 10
  rw [Real.rpow_neg_one]; norm_num

/-- The object built by the constructor for the configuration of the two
convergence properties: threshold -20 dB, ratio 4, knee 0 dB, makeup 0 dB. -/
theorem new_fields (attack release sr : ℝ) :
    (new (-20) 4 attack release 0 0 sr).threshold_ = 1 / 10 ∧
    (new (-20) 4 attack release 0 0 sr).ratio_ = 4 ∧
    (new (-20) 4 attack release 0 0 sr).kneeWidth_ = 1 ∧
    (new (-20) 4 attack release 0 0 sr).makeupGain_ = 1 ∧
    (new (-20) 4 attack release 0 0 sr).envelope_ = 0 ∧
    (new (-20) 4 attack release 0 0 sr).gain_ = 1 ∧
    (new (-20) 4 attack release 0 0 sr).attackCoefficient_ =
      1 - Real.exp (-1 / (attack * sr)) := by
  simp [new, updateCoefficients, dBToLinear_zero, dBToLinear_neg_twenty]

/-- In that configuration the knee region is `(-0.4, 0.6]`: an envelope there
gets the knee formula. -/
theorem desiredGain_knee (attack release sr e : ℝ) (h1 : -(2 / 5) < e) (h2 : e ≤ 3 / 5) :
    desiredGain (new (-20) 4 attack release 0 0 sr) e = (1 + 3 * (e + 2 / 5) ^ 2)⁻¹ := by
  obtain ⟨hT, hR, hK, _⟩ := new_fields attack release sr
  have hn1 : ¬ e ≤ 1 / 10 - 1 / 2 := by norm_num; linarith
  have hn2 : ¬ e > 1 / 10 + 1 / 2 := by norm_num; linarith
  simp only [desiredGain, hT, hR, hK, if_neg hn1, if_neg hn2]
  show (1 + (4 - 1) * ((e - 1 / 10 + 1 / 2) / 1) * ((e - 1 / 10 + 1 / 2) / 1)) ^ (-1 : ℝ) = _
  rw [Real.rpow_neg_one]
  congr 1
  ring

/-- In that configuration an envelope above 0.6 gets the power law. -/
theorem desiredGain_above (attack release sr e : ℝ) (h : 3 / 5 < e) :
    desiredGain (new (-20) 4 attack release 0 0 sr) e = ((10 * e) ^ 4)⁻¹ := by
  obtain ⟨hT, hR, hK, _⟩ := new_fields attack release sr
  have hn1 : ¬ e ≤ 1 / 10 - 1 / 2 := by norm_num; linarith
  have hp : e > 1 / 10 + 1 / 2 := by norm_num; linarith
  simp only [desiredGain, hT, hR, hK, if_neg hn1, if_pos hp]
  show (e / (1 / 10)) ^ (-(4 : ℝ)) = _
  have he : e / (1 / 10) = 10 * e := by ring
  rw [he, Real.rpow_neg (by linarith)]
  congr 1
  exact_mod_cast Real.rpow_natCast (10 * e) 4

theorem continuousAt_desiredGain_knee (attack release sr e : ℝ) (h1 : -(2 / 5) < e)
    (h2 : e < 3 / 5) :
    ContinuousAt (desiredGain (new (-20) 4 attack release 0 0 sr)) e := by
  have hc : ContinuousAt (fun x : ℝ => (1 + 3 * (x + 2 / 5) ^ 2)⁻¹) e := by
    have hne : (1 + 3 * (e + 2 / 5) ^ 2) ≠ 0 := by positivity
    exact ContinuousAt.inv₀ (by fun_prop) hne
  refine hc.congr ?_
  have hmem : Set.Ioo (-(2 / 5) : ℝ) (3 / 5) ∈ nhds e := Ioo_mem_nhds h1 h2
  filter_upwards [hmem] with x hx
  exact (desiredGain_knee attack release sr x hx.1 hx.2.le).symm

theorem continuousAt_desiredGain_above (attack release sr e : ℝ) (h : 3 / 5 < e) :
    ContinuousAt (desiredGain (new (-20) 4 attack release 0 0 sr)) e := by
  have hc : ContinuousAt (fun x : ℝ => ((10 * x) ^ 4)⁻¹) e := by
    have hne : (10 * e) ^ 4 ≠ 0 := by
      have : 0 < 10 * e := by linarith
      positivity
    exact ContinuousAt.inv₀ (by fun_prop) hne
  refine hc.congr ?_
  have hmem : Set.Ioi (3 / 5 : ℝ) ∈ nhds e := Ioi_mem_nhds h
  filter_upwards [hmem] with x hx
  exact (desiredGain_above attack release sr x hx).symm

/-- In that configuration, for any positive times and sample rate, the gain
under a constant input `u` inside the knee region or above it converges to the
desired gain at `u`. -/
theorem tendsto_gain_new (attack release sr u : ℝ) (hat : 0 < attack) (hsr : 0 < sr)
    (hu : 0 < u) (hne : u ≠ 3 / 5) :
    Filter.Tendsto (fun n => (feed (new (-20) 4 attack release 0 0 sr) u n).gain_)
      Filter.atTop (nhds (desiredGain (new (-20) 4 attack release 0 0 sr) u)) := by
  obtain ⟨_, _, _, _, hE, _, hA⟩ := new_fields attack release sr
  have ha := one_sub_exp_mem (attack * sr) (mul_pos hat hsr)
  rw [← hA] at ha
  refine tendsto_feed_gain _ u hu hE ha.1 ha.2 ?_
  rcases lt_or_gt_of_ne hne with h | h
  · exact continuousAt_desiredGain_knee attack release sr u (by linarith) h
  · exact continuousAt_desiredGain_above attack release sr u h

end Compressor

/-! ## Compressor: the claims -/

/-- The gain stored by one call of `process`. -/
theorem Compressor.process_gain_eq (c : Compressor) (u : ℝ) :
    (Compressor.process c u).1.gain_ =
      Compressor.desiredGain c (Compressor.process c u).1.envelope_ +
        c.attackCoefficient_ *
          (Compressor.desiredGain c (Compressor.process c u).1.envelope_ - c.gain_) := by
  simp only [Compressor.process]


/-- C1, the code at the failing input.  Threshold -20 dB, ratio 4, knee 0 dB,
makeup 0 dB, attack 0.01, release 0.1, sample rate 44100, constant input 0.05:
the 0 dB knee is stored as the linear width 1, the envelope 0.05 therefore sits
inside the knee region `(-0.4, 0.6]`, and the applied gain converges to
`1 / (1 + 3 * 0.45^2) = 400/643`, not to 1; the output converges to
`0.05 * 400/643 = 20/643`, not to 0.05. -/
theorem Compressor.gain_below_threshold_limit :
    Filter.Tendsto
      (fun n => (Compressor.feed (Compressor.new (-20) 4 (1 / 100) (1 / 10) 0 0 44100) (1 / 20) n).gain_)
      Filter.atTop (nhds (400 / 643)) ∧
    Filter.Tendsto
      (Compressor.output (Compressor.new (-20) 4 (1 / 100) (1 / 10) 0 0 44100) (1 / 20))
      Filter.atTop (nhds (20 / 643)) ∧
    ¬ Filter.Tendsto
      (fun n => (Compressor.feed (Compressor.new (-20) 4 (1 / 100) (1 / 10) 0 0 44100) (1 / 20) n).gain_)
      Filter.atTop (nhds 1) := by
  have hL : Compressor.desiredGain (Compressor.new (-20) 4 (1 / 100) (1 / 10) 0 0 44100) (1 / 20)
      = 400 / 643 := by
    rw [Compressor.desiredGain_knee _ _ _ _ (by norm_num) (by norm_num)]; norm_num
  have hg := Compressor.tendsto_gain_new (1 / 100) (1 / 10) 44100 (1 / 20)
    (by norm_num) (by norm_num) (by norm_num) (by norm_num)
  rw [hL] at hg
  refine ⟨hg, ?_, fun h1 => ?_⟩
  · have ho := Compressor.tendsto_output _ _ _ hg
    rw [(Compressor.new_fields (1 / 100) (1 / 10) 44100).2.2.2.1] at ho
    have he : (1 / 20 : ℝ) * (400 / 643) * 1 = 20 / 643 := by norm_num
    rwa [he] at ho
  · have := tendsto_nhds_unique hg h1
    norm_num at this

/-- C2: threshold -20 dB, ratio 4, knee 0 dB, makeup 0 dB, any positive attack
time, release time and sample rate, fresh object, constant input 1.0: the
applied gain and the output both converge to `(1.0/0.1)^(-4) = 0.0001`. -/
theorem Compressor.gain_above_threshold_converges (attack release sr : ℝ)
    (hat : 0 < attack) (_hrt : 0 < release) (hsr : 0 < sr) :
    Filter.Tendsto
      (fun n => (Compressor.feed (Compressor.new (-20) 4 attack release 0 0 sr) 1 n).gain_)
      Filter.atTop (nhds (1 / 10000)) ∧
    Filter.Tendsto (Compressor.output (Compressor.new (-20) 4 attack release 0 0 sr) 1)
      Filter.atTop (nhds (1 / 10000)) ∧
    Real.rpow (1 / (1 / 10)) (-4) = 1 / 10000 := by
  have hL : Compressor.desiredGain (Compressor.new (-20) 4 attack release 0 0 sr) 1
      = 1 / 10000 := by
    rw [Compressor.desiredGain_above _ _ _ _ (by norm_num)]; norm_num
  have hg := Compressor.tendsto_gain_new attack release sr 1 hat hsr (by norm_num) (by norm_num)
  rw [hL] at hg
  refine ⟨hg, ?_, ?_⟩
  · have ho := Compressor.tendsto_output _ _ _ hg
    rw [(Compressor.new_fields attack release sr).2.2.2.1] at ho
    have he : (1 : ℝ) * (1 / 10000) * 1 = 1 / 10000 := by norm_num
    rwa [he] at ho
  · show ((1 : ℝ) / (1 / 10)) ^ (-(4 : ℝ)) = 1 / 10000
    rw [Real.rpow_neg (by norm_num)]
    have h4 : ((1 : ℝ) / (1 / 10)) ^ (4 : ℝ) = 10000 := by
      have h := Real.rpow_natCast ((1 : ℝ) / (1 / 10)) 4
      rw [show ((4 : ℕ) : ℝ) = 4 by norm_num] at h
      rw [h]; norm_num
    rw [h4]; norm_num

/-- Witness of C2 at attack 0.01, release 0.1 and sample rate 44100. -/
theorem Compressor.gain_above_threshold_converges_witness :
    (0 : ℝ) < 1 / 100 ∧ (0 : ℝ) < 1 / 10 ∧ (0 : ℝ) < 44100 ∧
    Filter.Tendsto
      (fun n => (Compressor.feed (Compressor.new (-20) 4 (1 / 100) (1 / 10) 0 0 44100) 1 n).gain_)
      Filter.atTop (nhds (1 / 10000)) :=
  ⟨by norm_num, by norm_num, by norm_num,
    (Compressor.gain_above_threshold_converges (1 / 100) (1 / 10) 44100
      (by norm_num) (by norm_num) (by norm_num)).1⟩

/-- C3: in every call of `process` the desired gain is the stated function of
the just-updated envelope `e`, the linear threshold `T`, the linear knee width
`K` and the ratio (1 for `e ≤ T - K/2`, `(e/T)^(-ratio)` for `e > T + K/2`,
`1 / (1 + (ratio-1) x^2)` with `x = (e - T + K/2)/K` otherwise), and it is this
value that enters the gain stored by the call. -/
theorem Compressor.desiredGain_eq_specGain (c : Compressor) (u e : ℝ) :
    Compressor.desiredGain c e = Compressor.specGain c.threshold_ c.kneeWidth_ c.ratio_ e ∧
    (Compressor.process c u).1.envelope_ = Compressor.nextEnvelope c u ∧
    (Compressor.process c u).1.gain_ =
      Compressor.specGain c.threshold_ c.kneeWidth_ c.ratio_ (Compressor.process c u).1.envelope_ +
        c.attackCoefficient_ *
          (Compressor.specGain c.threshold_ c.kneeWidth_ c.ratio_ (Compressor.process c u).1.envelope_
            - c.gain_) := by
  have key : ∀ e, Compressor.desiredGain c e
      = Compressor.specGain c.threshold_ c.kneeWidth_ c.ratio_ e := by
    intro e
    unfold Compressor.desiredGain Compressor.specGain
    split_ifs with h1 h2
    · rfl
    · rfl
    · show (1 + (c.ratio_ - 1) * ((e - c.threshold_ + c.kneeWidth_ / 2) / c.kneeWidth_) *
        ((e - c.threshold_ + c.kneeWidth_ / 2) / c.kneeWidth_)) ^ (-1 : ℝ) = _
      rw [Real.rpow_neg_one, one_div]
      congr 1
      ring
  refine ⟨key e, rfl, ?_⟩
  simp only [Compressor.process, key]

/-- At the lower knee boundary `e = T - K/2` the knee formula of `process`
gives 1, the below-knee value, for every threshold, knee width and ratio. -/
theorem Compressor.knee_lower_boundary (T K ratio : ℝ) :
    Real.rpow (1 + (ratio - 1) * ((T - K / 2 - T + K / 2) / K) * ((T - K / 2 - T + K / 2) / K))
      (-1) = 1 := by
  have h : T - K / 2 - T + K / 2 = 0 := by ring
  rw [h]
  show (1 + (ratio - 1) * (0 / K) * (0 / K)) ^ (-1 : ℝ) = 1
  simp

/-- C4, the code at the failing input.  Threshold -20 dB (linear 0.1), knee
0 dB (linear 1), ratio 4: at the upper knee boundary `e = T + K/2 = 0.6` the
code is still in the knee branch and its desired gain is `1/ratio = 1/4`, while
the above-knee formula `(e/T)^(-ratio)` is `6^(-4) = 1/1296` there; just above
the boundary, at `e = 0.7`, the desired gain is already `7^(-4) = 1/2401`. -/
theorem Compressor.knee_upper_boundary_jump :
    Compressor.desiredGain (Compressor.new (-20) 4 (1 / 100) (1 / 10) 0 0 44100) (3 / 5) = 1 / 4 ∧
    Real.rpow ((3 / 5) / (Compressor.new (-20) 4 (1 / 100) (1 / 10) 0 0 44100).threshold_)
      (-(Compressor.new (-20) 4 (1 / 100) (1 / 10) 0 0 44100).ratio_) = 1 / 1296 ∧
    Compressor.desiredGain (Compressor.new (-20) 4 (1 / 100) (1 / 10) 0 0 44100) (7 / 10)
      = 1 / 2401 := by
  obtain ⟨hT, hR, _⟩ := Compressor.new_fields (1 / 100) (1 / 10) 44100
  refine ⟨?_, ?_, ?_⟩
  · rw [Compressor.desiredGain_knee _ _ _ _ (by norm_num) (by norm_num)]; norm_num
  · rw [hT, hR]
    show (((3 : ℝ) / 5) / (1 / 10)) ^ (-(4 : ℝ)) = 1 / 1296
    rw [Real.rpow_neg (by norm_num)]
    have h := Real.rpow_natCast (((3 : ℝ) / 5) / (1 / 10)) 4
    rw [show ((4 : ℕ) : ℝ) = 4 by norm_num] at h
    rw [h]; norm_num
  · rw [Compressor.desiredGain_above _ _ _ _ (by norm_num)]; norm_num

/-- C5, the code at the failing input.  Fresh object (threshold -20 dB, ratio
4, attack 0.01, release 0.1, knee 0 dB, makeup 0 dB, sample rate 44100), one
call `process(0)`: the old gain is 1, the desired gain is `25/37`, the attack
coefficient is `a = 1 - e^(-1/441)`, and the stored gain is
`desired + a * (desired - old) = 25/37 - (12/37) a`.  It lies below both the
old and the desired gain, and it is not `old + a * (desired - old)`. -/
theorem Compressor.gain_update_overshoots :
    (Compressor.new (-20) 4 (1 / 100) (1 / 10) 0 0 44100).gain_ = 1 ∧
    Compressor.desiredGain (Compressor.new (-20) 4 (1 / 100) (1 / 10) 0 0 44100)
      (Compressor.process (Compressor.new (-20) 4 (1 / 100) (1 / 10) 0 0 44100) 0).1.envelope_
      = 25 / 37 ∧
    (Compressor.process (Compressor.new (-20) 4 (1 / 100) (1 / 10) 0 0 44100) 0).1.gain_
      = 25 / 37 - 12 / 37 * (1 - Real.exp (-1 / 441)) ∧
    (Compressor.process (Compressor.new (-20) 4 (1 / 100) (1 / 10) 0 0 44100) 0).1.gain_
      < 25 / 37 ∧
    (Compressor.process (Compressor.new (-20) 4 (1 / 100) (1 / 10) 0 0 44100) 0).1.gain_
      ≠ 1 + (1 - Real.exp (-1 / 441)) * (25 / 37 - 1) := by
  obtain ⟨_, _, _, _, hE, hG, hA⟩ := Compressor.new_fields (1 / 100) (1 / 10) 44100
  have hA' : (Compressor.new (-20) 4 (1 / 100) (1 / 10) 0 0 44100).attackCoefficient_
      = 1 - Real.exp (-1 / 441) := by
    rw [hA]; norm_num
  have ha := one_sub_exp_mem 441 (by norm_num)
  have henv : (Compressor.process (Compressor.new (-20) 4 (1 / 100) (1 / 10) 0 0 44100) 0).1.envelope_
      = 0 := by
    show Compressor.nextEnvelope _ 0 = 0
    unfold Compressor.nextEnvelope
    rw [hE]
    simp
  have hd : Compressor.desiredGain (Compressor.new (-20) 4 (1 / 100) (1 / 10) 0 0 44100) 0
      = 25 / 37 := by
    rw [Compressor.desiredGain_knee _ _ _ _ (by norm_num) (by norm_num)]; norm_num
  have hgain : (Compressor.process (Compressor.new (-20) 4 (1 / 100) (1 / 10) 0 0 44100) 0).1.gain_
      = 25 / 37 - 12 / 37 * (1 - Real.exp (-1 / 441)) := by
    have h := (Compressor.process_gain_eq
      (Compressor.new (-20) 4 (1 / 100) (1 / 10) 0 0 44100) 0)
    rw [henv, hd, hG, hA'] at h
    rw [h]; ring
  refine ⟨hG, by rw [henv, hd], hgain, ?_, ?_⟩
  · rw [hgain]; nlinarith [ha.1]
  · rw [hgain]; intro h; nlinarith [ha.1]

/-- C6: `process` returns `input * g * makeup` with `g` the gain stored by the
same call; the makeup factor is `10^(dB/20)` after the constructor and after
`setMakeupGain`, and no other member function changes it; with 0 dB makeup the
output is `input * g`, and the output is 0 for input 0. -/
theorem Compressor.process_output (c : Compressor) (x dB : ℝ)
    (threshold ratio attackTime releaseTime kneeWidth sampleRate t : ℝ) :
    (Compressor.process c x).2 = x * (Compressor.process c x).1.gain_ * c.makeupGain_ ∧
    (Compressor.setMakeupGain c dB).makeupGain_ = Real.rpow 10 (dB / 20) ∧
    (Compressor.new threshold ratio attackTime releaseTime kneeWidth dB sampleRate).makeupGain_
      = Real.rpow 10 (dB / 20) ∧
    (Compressor.process (Compressor.setMakeupGain c dB) x).2
      = x * (Compressor.process (Compressor.setMakeupGain c dB) x).1.gain_
          * Real.rpow 10 (dB / 20) ∧
    (Compressor.process (Compressor.setMakeupGain c 0) x).2
      = x * (Compressor.process (Compressor.setMakeupGain c 0) x).1.gain_ ∧
    (Compressor.process c 0).2 = 0 ∧
    (Compressor.process c x).1.makeupGain_ = c.makeupGain_ ∧
    (Compressor.setThreshold c t).makeupGain_ = c.makeupGain_ ∧
    (Compressor.setRatio c t).makeupGain_ = c.makeupGain_ ∧
    (Compressor.setAttackTime c t).makeupGain_ = c.makeupGain_ ∧
    (Compressor.setReleaseTime c t).makeupGain_ = c.makeupGain_ ∧
    (Compressor.setKneeWidth c t).makeupGain_ = c.makeupGain_ := by
  refine ⟨rfl, rfl, rfl, rfl, ?_, ?_, rfl, rfl, rfl, rfl, rfl, rfl⟩
  · simp [Compressor.process, Compressor.setMakeupGain, Compressor.dBToLinear_zero]
  · simp [Compressor.process]

/-- C7: `EnvelopeFollower::process(x)` moves stage 1 by
`envelope + c * (|x| - envelope)` with `c` the attack coefficient when
`|x| > envelope` and the release coefficient otherwise, then moves stage 2 by
`smoothed + smoothingGain * (envelope' - smoothed)`, and returns the new
stage-2 value. -/
theorem EnvelopeFollower.process_two_stage (s : EnvelopeFollower) (x : ℝ) :
    (EnvelopeFollower.process s x).1.envelope
      = s.envelope + (if |x| > s.envelope then s.attackGain else s.releaseGain)
          * (|x| - s.envelope) ∧
    (EnvelopeFollower.process s x).1.smoothedEnvelope
      = s.smoothedEnvelope
          + s.smoothingGain * ((EnvelopeFollower.process s x).1.envelope - s.smoothedEnvelope) ∧
    (EnvelopeFollower.process s x).2 = (EnvelopeFollower.process s x).1.smoothedEnvelope := by
  refine ⟨?_, ?_, rfl⟩
  · simp only [EnvelopeFollower.process]
    split_ifs <;> ring
  · simp only [EnvelopeFollower.process]
    ring

/-! ## EnvelopeFollower: coefficients and setters -/

namespace EnvelopeFollower

/-- Every object the member functions can produce has its three coefficients
in step with its stored times and sample rate. -/
theorem reachable_coefficients (s : EnvelopeFollower) (h : Reachable s) :
    s.attackGain = specCoefficient s.sampleRate s.attackTime ∧
    s.releaseGain = specCoefficient s.sampleRate s.releaseTime ∧
    s.smoothingGain = specCoefficient s.sampleRate s.smoothingTime := by
  induction h with
  | init attack release smoothing sr => exact ⟨rfl, rfl, rfl⟩
  | attack t _ _ => exact ⟨rfl, rfl, rfl⟩
  | release t _ _ => exact ⟨rfl, rfl, rfl⟩
  | smoothing t _ _ => exact ⟨rfl, rfl, rfl⟩
  | step x _ ih => exact ih

theorem process_gains (s : EnvelopeFollower) (u : ℝ) :
    (process s u).1.attackGain = s.attackGain ∧ (process s u).1.releaseGain = s.releaseGain ∧
    (process s u).1.smoothingGain = s.smoothingGain := ⟨rfl, rfl, rfl⟩

theorem feed_gains (s : EnvelopeFollower) (u : ℝ) (n : ℕ) :
    (feed s u n).attackGain = s.attackGain ∧ (feed s u n).releaseGain = s.releaseGain ∧
    (feed s u n).smoothingGain = s.smoothingGain := by
  induction n with
  | zero => exact ⟨rfl, rfl, rfl⟩
  | succ n ih =>
    obtain ⟨h1, h2, h3⟩ := ih
    exact ⟨h1, h2, h3⟩

/-- Stage 1 under the constant input 1 from envelope 0: always the attack
branch, with the closed form `1 - (1 - attackGain)^n`. -/
theorem feed_envelope_one (s : EnvelopeFollower) (he : s.envelope = 0)
    (ha1 : s.attackGain < 1) (n : ℕ) :
    (feed s 1 n).envelope = 1 - (1 - s.attackGain) ^ n := by
  induction n with
  | zero => simp [feed, he]
  | succ n ih =>
    have hpos : 0 < (1 - s.attackGain) ^ n := pow_pos (by linarith) n
    have hbelow : |(1 : ℝ)| > (feed s 1 n).envelope := by
      rw [ih, abs_one]; linarith
    have hA := (feed_gains s 1 n).1
    simp only [feed, process]
    rw [if_pos hbelow, hA, ih, abs_one]
    ring

/-- Stage 2 along a run of equal inputs. -/
theorem feed_smoothed_succ (s : EnvelopeFollower) (u : ℝ) (n : ℕ) :
    (feed s u (n + 1)).smoothedEnvelope =
      s.smoothingGain * ((feed s u (n + 1)).envelope - (feed s u n).smoothedEnvelope)
        + (feed s u n).smoothedEnvelope := by
  have hS := (feed_gains s u n).2.2
  simp only [feed, process, hS]

theorem output_eq (s : EnvelopeFollower) (u : ℝ) (n : ℕ) :
    output s u n = (feed s u (n + 1)).smoothedEnvelope := rfl

/-- Under the constant input 1 from the all-zero state, stage 2 never
overtakes stage 1. -/
theorem feed_smoothed_le (s : EnvelopeFollower) (he : s.envelope = 0)
    (hs : s.smoothedEnvelope = 0) (ha0 : 0 < s.attackGain) (ha1 : s.attackGain < 1)
    (hg1 : s.smoothingGain < 1) (n : ℕ) :
    (feed s 1 n).smoothedEnvelope ≤ (feed s 1 n).envelope := by
  induction n with
  | zero => simp [feed, he, hs]
  | succ n ih =>
    have hpos : 0 < (1 - s.attackGain) ^ n := pow_pos (by linarith) n
    have hmono : (feed s 1 n).envelope ≤ (feed s 1 (n + 1)).envelope := by
      rw [feed_envelope_one s he ha1, feed_envelope_one s he ha1, pow_succ]
      nlinarith
    rw [feed_smoothed_succ]
    nlinarith

end EnvelopeFollower

/-- C8: in every state reachable from the constructor through the setters and
`process`, each coefficient is `1 - e^(-1/(sampleRate*time*0.001))` for its own
stored time; each setter stores its argument as its own time, recomputes its
own coefficient from it, leaves the two other coefficients with their values,
and leaves the other times, the sample rate and both envelope stages as they
were. -/
theorem EnvelopeFollower.setters_frame (s : EnvelopeFollower)
    (h : EnvelopeFollower.Reachable s) (t : ℝ) :
    (s.attackGain = 1 - Real.exp (-1 / (s.sampleRate * s.attackTime * 0.001)) ∧
     s.releaseGain = 1 - Real.exp (-1 / (s.sampleRate * s.releaseTime * 0.001)) ∧
     s.smoothingGain = 1 - Real.exp (-1 / (s.sampleRate * s.smoothingTime * 0.001))) ∧
    ((EnvelopeFollower.setAttackTime s t).attackTime = t ∧
     (EnvelopeFollower.setAttackTime s t).attackGain
        = 1 - Real.exp (-1 / (s.sampleRate * t * 0.001)) ∧
     (EnvelopeFollower.setAttackTime s t).releaseGain = s.releaseGain ∧
     (EnvelopeFollower.setAttackTime s t).smoothingGain = s.smoothingGain ∧
     (EnvelopeFollower.setAttackTime s t).releaseTime = s.releaseTime ∧
     (EnvelopeFollower.setAttackTime s t).smoothingTime = s.smoothingTime ∧
     (EnvelopeFollower.setAttackTime s t).sampleRate = s.sampleRate ∧
     (EnvelopeFollower.setAttackTime s t).envelope = s.envelope ∧
     (EnvelopeFollower.setAttackTime s t).smoothedEnvelope = s.smoothedEnvelope) ∧
    ((EnvelopeFollower.setReleaseTime s t).releaseTime = t ∧
     (EnvelopeFollower.setReleaseTime s t).releaseGain
        = 1 - Real.exp (-1 / (s.sampleRate * t * 0.001)) ∧
     (EnvelopeFollower.setReleaseTime s t).attackGain = s.attackGain ∧
     (EnvelopeFollower.setReleaseTime s t).smoothingGain = s.smoothingGain ∧
     (EnvelopeFollower.setReleaseTime s t).attackTime = s.attackTime ∧
     (EnvelopeFollower.setReleaseTime s t).smoothingTime = s.smoothingTime ∧
     (EnvelopeFollower.setReleaseTime s t).sampleRate = s.sampleRate ∧
     (EnvelopeFollower.setReleaseTime s t).envelope = s.envelope ∧
     (EnvelopeFollower.setReleaseTime s t).smoothedEnvelope = s.smoothedEnvelope) ∧
    ((EnvelopeFollower.setSmoothingTime s t).smoothingTime = t ∧
     (EnvelopeFollower.setSmoothingTime s t).smoothingGain
        = 1 - Real.exp (-1 / (s.sampleRate * t * 0.001)) ∧
     (EnvelopeFollower.setSmoothingTime s t).attackGain = s.attackGain ∧
     (EnvelopeFollower.setSmoothingTime s t).releaseGain = s.releaseGain ∧
     (EnvelopeFollower.setSmoothingTime s t).attackTime = s.attackTime ∧
     (EnvelopeFollower.setSmoothingTime s t).releaseTime = s.releaseTime ∧
     (EnvelopeFollower.setSmoothingTime s t).sampleRate = s.sampleRate ∧
     (EnvelopeFollower.setSmoothingTime s t).envelope = s.envelope ∧
     (EnvelopeFollower.setSmoothingTime s t).smoothedEnvelope = s.smoothedEnvelope) := by
  obtain ⟨hA, hR, hS⟩ := EnvelopeFollower.reachable_coefficients s h
  refine ⟨⟨hA, hR, hS⟩, ⟨rfl, rfl, ?_, ?_, rfl, rfl, rfl, rfl, rfl⟩,
    ⟨rfl, rfl, ?_, ?_, rfl, rfl, rfl, rfl, rfl⟩, ⟨rfl, rfl, ?_, ?_, rfl, rfl, rfl, rfl, rfl⟩⟩
  · exact hR.symm
  · exact hS.symm
  · exact hA.symm
  · exact hS.symm
  · exact hA.symm
  · exact hR.symm

/-- Witness of C8: the object constructed with attack 10 ms, release 100 ms,
smoothing 20 ms at 44100 Hz, and `setAttackTime(5)` on it. -/
theorem EnvelopeFollower.setters_frame_witness :
    EnvelopeFollower.Reachable (EnvelopeFollower.new 10 100 20 44100) ∧
    (EnvelopeFollower.setAttackTime (EnvelopeFollower.new 10 100 20 44100) 5).releaseGain
      = (EnvelopeFollower.new 10 100 20 44100).releaseGain ∧
    (EnvelopeFollower.setAttackTime (EnvelopeFollower.new 10 100 20 44100) 5).attackGain
      = 1 - Real.exp (-1 / ((EnvelopeFollower.new 10 100 20 44100).sampleRate * 5 * 0.001)) :=
  ⟨EnvelopeFollower.Reachable.init 10 100 20 44100,
    (EnvelopeFollower.setters_frame (EnvelopeFollower.new 10 100 20 44100)
      (EnvelopeFollower.Reachable.init 10 100 20 44100) 5).2.1.2.2.1,
    (EnvelopeFollower.setters_frame (EnvelopeFollower.new 10 100 20 44100)
      (EnvelopeFollower.Reachable.init 10 100 20 44100) 5).2.1.2.1⟩

/-- C9: an `EnvelopeFollower` constructed with positive attack, release and
smoothing times and positive sample rate, fed the constant input 1 from the
constructed state: the values returned by `process` are non-decreasing, never
exceed 1, and converge to 1. -/
theorem EnvelopeFollower.step_response (attack release smoothing sr : ℝ)
    (hat : 0 < attack) (_hrt : 0 < release) (hst : 0 < smoothing) (hsr : 0 < sr) :
    (∀ n, EnvelopeFollower.output (EnvelopeFollower.new attack release smoothing sr) 1 n
        ≤ EnvelopeFollower.output (EnvelopeFollower.new attack release smoothing sr) 1 (n + 1)) ∧
    (∀ n, EnvelopeFollower.output (EnvelopeFollower.new attack release smoothing sr) 1 n ≤ 1) ∧
    Filter.Tendsto (EnvelopeFollower.output (EnvelopeFollower.new attack release smoothing sr) 1)
      Filter.atTop (nhds 1) := by
  set s := EnvelopeFollower.new attack release smoothing sr with hs
  have he : s.envelope = 0 := rfl
  have hsm : s.smoothedEnvelope = 0 := rfl
  have ha : 0 < s.attackGain ∧ s.attackGain < 1 :=
    one_sub_exp_mem (sr * attack * 0.001) (by positivity)
  have hg : 0 < s.smoothingGain ∧ s.smoothingGain < 1 :=
    one_sub_exp_mem (sr * smoothing * 0.001) (by positivity)
  have henv := EnvelopeFollower.feed_envelope_one s he ha.2
  have hle := EnvelopeFollower.feed_smoothed_le s he hsm ha.1 ha.2 hg.2
  have hlt1 : ∀ n, (EnvelopeFollower.feed s 1 n).envelope < 1 := by
    intro n
    have hpos : 0 < (1 - s.attackGain) ^ n := pow_pos (by linarith) n
    rw [henv]; linarith
  have hmono : ∀ n, (EnvelopeFollower.feed s 1 n).envelope
      ≤ (EnvelopeFollower.feed s 1 (n + 1)).envelope := by
    intro n
    have hpos : 0 < (1 - s.attackGain) ^ n := pow_pos (by linarith) n
    rw [henv, henv, pow_succ]
    nlinarith [ha.1]
  have hstep : ∀ n, (EnvelopeFollower.feed s 1 n).smoothedEnvelope
      ≤ (EnvelopeFollower.feed s 1 (n + 1)).smoothedEnvelope := by
    intro n
    rw [EnvelopeFollower.feed_smoothed_succ s 1 n]
    have h1 := hle n
    have h2 := hmono n
    nlinarith [hg.1]
  refine ⟨fun n => ?_, fun n => ?_, ?_⟩
  · rw [EnvelopeFollower.output_eq, EnvelopeFollower.output_eq]
    exact hstep (n + 1)
  · rw [EnvelopeFollower.output_eq]
    exact le_trans (hle (n + 1)) (hlt1 (n + 1)).le
  · have htend1 : Filter.Tendsto (fun n => (EnvelopeFollower.feed s 1 n).envelope)
        Filter.atTop (nhds 1) := by
      have h := tendsto_onePole s.attackGain 1 ha.1 ha.2
      refine h.congr (fun n => ?_)
      rw [henv]; ring
    have hpert : Filter.Tendsto
        (fun n => s.smoothingGain * ((EnvelopeFollower.feed s 1 (n + 1)).envelope - 1))
        Filter.atTop (nhds 0) := by
      have h := ((htend1.comp (Filter.tendsto_add_atTop_nat 1)).sub_const 1).const_mul
        s.smoothingGain
      simpa using h
    have hzero : Filter.Tendsto (fun n => (EnvelopeFollower.feed s 1 n).smoothedEnvelope - 1)
        Filter.atTop (nhds 0) := by
      refine tendsto_zero_of_contraction _ _ (1 - s.smoothingGain) ?_ (fun n => ?_) hpert
      · rw [abs_of_pos (by linarith [hg.2])]; linarith [hg.1]
      · rw [EnvelopeFollower.feed_smoothed_succ]; ring
    have hsm1 : Filter.Tendsto (fun n => (EnvelopeFollower.feed s 1 n).smoothedEnvelope)
        Filter.atTop (nhds 1) := by
      have h := hzero.add_const 1
      simpa using h
    exact hsm1.comp (Filter.tendsto_add_atTop_nat 1)

/-- Witness of C9 at attack 10 ms, release 100 ms, smoothing 20 ms, 44100 Hz. -/
theorem EnvelopeFollower.step_response_witness :
    (0 : ℝ) < 10 ∧ (0 : ℝ) < 100 ∧ (0 : ℝ) < 20 ∧ (0 : ℝ) < 44100 ∧
    Filter.Tendsto (EnvelopeFollower.output (EnvelopeFollower.new 10 100 20 44100) 1)
      Filter.atTop (nhds 1) :=
  ⟨by norm_num, by norm_num, by norm_num, by norm_num,
    (EnvelopeFollower.step_response 10 100 20 44100
      (by norm_num) (by norm_num) (by norm_num) (by norm_num)).2.2⟩

/-! ## PitchTracker: difference function and normalized difference -/

namespace PitchTracker

theorem foldl_range_eq_sum (f : ℕ → ℚ) (n : ℕ) :
    (List.range n).foldl (fun acc i => acc + f i) 0 = ∑ i in Finset.range n, f i := by
  induction n with
  | zero => simp
  | succ n ih => rw [List.range_succ, List.foldl_append, ih, Finset.sum_range_succ]; rfl

theorem foldl_map_range_eq_sum (f : ℕ → ℚ) (n : ℕ) :
    ((List.range n).map f).foldl (fun acc v => acc + v) 0 = ∑ i in Finset.range n, f i := by
  induction n with
  | zero => simp
  | succ n ih =>
    rw [List.range_succ, List.map_append, List.foldl_append, ih, Finset.sum_range_succ]; rfl

/-- The first loop nest computes the difference function of the specification
at every lag from 1 on. -/
theorem diffAt_eq_specDiff (x : List ℚ) (tau : ℕ) (h : 1 ≤ tau) :
    diffAt x tau = specDiff x tau := by
  have h0 : tau ≠ 0 := by omega
  simp only [diffAt, specDiff, if_neg h0]
  rw [foldl_range_eq_sum]
  exact Finset.sum_congr rfl (fun i _ => by ring)

theorem diff_getD (x : List ℚ) (tau : ℕ) (h : tau < x.length) :
    (diff x).getD tau 0 = diffAt x tau := by
  simp [diff, List.getD_eq_getElem?_getD, h]

/-- The `std::accumulate` call of the second loop adds `diff[0], ..., diff[tau-1]`
and stops before `diff[tau]`. -/
theorem accumulate_diff (x : List ℚ) (tau : ℕ) (h : tau ≤ x.length) :
    accumulate (diff x) tau = ∑ j in Finset.range tau, diffAt x j := by
  simp only [accumulate, diff]
  rw [← List.map_take, List.take_range, min_eq_left h, foldl_map_range_eq_sum]

/-- What the second loop stores at a lag `tau` in `1 .. size-1`: `diff[tau]`
over the mean-style term built from `diff[0], ..., diff[tau-1]`. -/
theorem cmndAt_eq (x : List ℚ) (tau : ℕ) (h1 : 1 ≤ tau) (h2 : tau < x.length) :
    cmndAt x tau =
      FVal.fdiv (specDiff x tau) ((1 / (tau : ℚ)) * ∑ j in Finset.range tau, diffAt x j) := by
  have h0 : tau ≠ 0 := by omega
  simp only [cmndAt, if_neg h0]
  rw [diff_getD x tau h2, accumulate_diff x tau h2.le, diffAt_eq_specDiff x tau h1]

end PitchTracker

/-- C10, the code at the failing input.  Capture block `[0, 0, 1, 0, 2, 0]`
(buffer size 6, written through `setBufferValue`), downsampled to `[0, 1, 2]`:
`diff = [0, 2, 4]`, and `process` stores `CMND = [1, +inf, 4]`, because the
running sum stops at `diff[tau-1]`: `CMND[1] = 2 / (1 * 0)` and
`CMND[2] = 4 / ((1/2) * (0 + 2)) = 4`.  With the running sum including
`diff[tau]` the values are `CMND[1] = 2 / (1 * 2) = 1` and
`CMND[2] = 4 / ((1/2) * (2 + 4)) = 4/3`. -/
theorem PitchTracker.cmnd_running_sum_off_by_one :
    PitchTracker.downsample
      (((PitchTracker.new 44100 6).setBufferValue 2 1).setBufferValue 4 2).gInputBuffer 2
      = [0, 1, 2] ∧
    PitchTracker.diff [0, 1, 2] = [0, 2, 4] ∧
    PitchTracker.processCMND (((PitchTracker.new 44100 6).setBufferValue 2 1).setBufferValue 4 2)
      = [FVal.fin 1, FVal.pinf, FVal.fin 4] ∧
    PitchTracker.specCMND [0, 1, 2] 1 = FVal.fin 1 ∧
    PitchTracker.specCMND [0, 1, 2] 2 = FVal.fin (4 / 3) := by
  have hd : PitchTracker.downsample
      (((PitchTracker.new 44100 6).setBufferValue 2 1).setBufferValue 4 2).gInputBuffer 2
      = [0, 1, 2] := by
    simp [PitchTracker.new, PitchTracker.setBufferValue, PitchTracker.downsample,
      List.replicate]
  refine ⟨hd, ?_, ?_, ?_, ?_⟩
  · simp [PitchTracker.diff, PitchTracker.diffAt, List.range_succ]
    norm_num
  · rw [PitchTracker.processCMND, hd]
    simp [PitchTracker.cumMeanNormalizedDiff, PitchTracker.cmndAt, PitchTracker.diff,
      PitchTracker.diffAt, PitchTracker.accumulate, FVal.fdiv, List.range_succ]
    norm_num
  · simp [PitchTracker.specCMND, PitchTracker.specDiff, FVal.fdiv, Finset.sum_range_succ]
    norm_num
  · simp [PitchTracker.specCMND, PitchTracker.specDiff, FVal.fdiv, Finset.sum_range_succ,
      Finset.sum_Icc_succ_top]
    norm_num

/-! ## PitchTracker: threshold scan, interpolation and the returned pitch -/

namespace PitchTracker

theorem cmnd_length (x : List ℚ) : (cumMeanNormalizedDiff x).length = x.length := by
  simp [cumMeanNormalizedDiff]

theorem cmnd_getD (x : List ℚ) (tau : ℕ) (h : tau < x.length) :
    (cumMeanNormalizedDiff x).getD tau FVal.nan = cmndAt x tau := by
  simp [cumMeanNormalizedDiff, List.getD_eq_getElem?_getD, h]

/-- The threshold loop ends with 0 when no lag it visits is below the threshold. -/
theorem scanTau_none (cmnd : List FVal) (fuel start : ℕ)
    (h : ∀ j, start ≤ j → j < start + fuel →
      (cmnd.getD j FVal.nan).ltConst (1 / 10) = false) :
    scanTau cmnd fuel start = 0 := by
  induction fuel generalizing start with
  | zero => rfl
  | succ fuel ih =>
    have h0 := h start (le_refl _) (by omega)
    simp only [scanTau, h0]
    exact ih (start + 1) (fun j hj1 hj2 => h j (by omega) (by omega))

/-- The threshold loop stops at the first lag below the threshold. -/
theorem scanTau_first (cmnd : List FVal) (fuel start t : ℕ) (h1 : start ≤ t)
    (h2 : t < start + fuel) (ht : (cmnd.getD t FVal.nan).ltConst (1 / 10) = true)
    (hbefore : ∀ j, start ≤ j → j < t → (cmnd.getD j FVal.nan).ltConst (1 / 10) = false) :
    scanTau cmnd fuel start = t := by
  induction fuel generalizing start with
  | zero => omega
  | succ fuel ih =>
    rcases Nat.eq_or_lt_of_le h1 with heq | hlt
    · subst heq
      show (if _ then _ else _) = _
      rw [if_pos ht]
    · have h0 := hbefore start (le_refl _) hlt
      simp only [scanTau, h0]
      exact ih (start + 1) (by omega) (by omega)
        (fun j hj1 hj2 => hbefore j (by omega) hj2)

theorem tauMin_none (cmnd : List FVal)
    (h : ∀ j, 1 ≤ j → j < cmnd.length → (cmnd.getD j FVal.nan).ltConst (1 / 10) = false) :
    tauMin cmnd = 0 :=
  scanTau_none cmnd _ 1 (fun j hj1 hj2 => h j hj1 (by omega))

theorem tauMin_first (cmnd : List FVal) (t : ℕ) (h1 : 1 ≤ t) (h2 : t < cmnd.length)
    (ht : (cmnd.getD t FVal.nan).ltConst (1 / 10) = true)
    (hbefore : ∀ j, 1 ≤ j → j < t → (cmnd.getD j FVal.nan).ltConst (1 / 10) = false) :
    tauMin cmnd = t :=
  scanTau_first cmnd _ 1 t h1 (by omega) ht hbefore

theorem readCMND_inside (cmnd : List FVal) (oob : ℤ → FVal) (t : ℕ) (h : t < cmnd.length) :
    readCMND cmnd oob (t : ℤ) = cmnd.getD t FVal.nan := by
  have h' : (0 : ℤ) ≤ (t : ℤ) ∧ (t : ℤ) < (cmnd.length : ℤ) := ⟨by omega, by omega⟩
  simp only [readCMND, if_pos h', Int.toNat_ofNat]

/-- A value below the threshold is not at or above it. -/
theorem geConst_of_ltConst (v : FVal) (c : ℚ) (h : v.ltConst c = true) :
    v.geConst c = false := by
  cases v with
  | fin q =>
    simp only [FVal.ltConst, decide_eq_true_eq] at h
    simp only [FVal.geConst, decide_eq_false_iff_not, not_le]
    exact h
  | pinf => simp [FVal.ltConst] at h
  | ninf => rfl
  | nan => simp [FVal.ltConst] at h

/-- Downsampling keeps a non-empty block non-empty. -/
theorem downsample_ne_nil (l : List ℚ) (factor : ℕ) (h : l ≠ []) : downsample l factor ≠ [] := by
  cases l with
  | nil => exact absurd rfl h
  | cons x xs => simp [downsample]

/-- Downsampling an all-zero block gives an all-zero block. -/
theorem downsample_zero (factor : ℕ) :
    ∀ (n : ℕ) (l : List ℚ), l.length ≤ n → (∀ v ∈ l, v = 0) →
      ∀ v ∈ downsample l factor, v = 0 := by
  intro n
  induction n with
  | zero =>
    intro l hl _ v hv
    have : l = [] := List.length_eq_zero.mp (by omega)
    subst this
    simp [downsample] at hv
  | succ n ih =>
    intro l hl hz v hv
    cases l with
    | nil => simp [downsample] at hv
    | cons x xs =>
      rw [downsample] at hv
      rcases List.mem_cons.mp hv with hx | hrest
      · rw [hx]; exact hz x (List.mem_cons_self _ _)
      · refine ih (xs.drop (factor - 1)) ?_ ?_ v hrest
        · have := List.length_drop (factor - 1) xs
          simp only [List.length_cons] at hl
          omega
        · intro w hw
          exact hz w (List.mem_cons_of_mem _ (List.mem_of_mem_drop hw))

theorem getD_zero_of_all_zero (x : List ℚ) (hz : ∀ v ∈ x, v = 0) (i : ℕ) : x.getD i 0 = 0 := by
  by_cases h : i < x.length
  · rw [List.getD_eq_getElem _ _ h]
    exact hz _ (List.getElem_mem _)
  · rw [List.getD_eq_default _ _ (by omega)]

/-- On an all-zero block every normalized difference from lag 1 on is `0 / 0`. -/
theorem cmndAt_zero_block (x : List ℚ) (hz : ∀ v ∈ x, v = 0) (tau : ℕ) (h1 : 1 ≤ tau)
    (h2 : tau < x.length) : cmndAt x tau = FVal.nan := by
  have hd : ∀ j, diffAt x j = 0 := by
    intro j
    by_cases hj : j = 0
    · simp [diffAt, hj]
    · simp only [diffAt, if_neg hj]
      rw [foldl_range_eq_sum]
      refine Finset.sum_eq_zero (fun i _ => ?_)
      rw [getD_zero_of_all_zero x hz, getD_zero_of_all_zero x hz]
      ring
  rw [cmndAt_eq x tau h1 h2, ← diffAt_eq_specDiff x tau h1, hd tau]
  have hs : ∑ j in Finset.range tau, diffAt x j = 0 :=
    Finset.sum_eq_zero (fun j _ => hd j)
  rw [hs]
  simp [FVal.fdiv]

/-- When the threshold loop stops at a lag `t` below the threshold, `process`
returns the downsampled rate over `betterTau`. -/
theorem process_of_crossing (p : PitchTracker) (oob : ℤ → FVal) (t : ℕ)
    (htau : tauMin (processCMND p) = t) (hlt : t < (processCMND p).length)
    (ht : ((processCMND p).getD t FVal.nan).ltConst (1 / 10) = true) :
    process p oob =
      (FVal.fin (p.sampleRate / 2)).div (betterTau (processCMND p) oob (t : ℤ)) := by
  have hge := geConst_of_ltConst _ _ ht
  rw [← readCMND_inside _ oob t hlt] at hge
  simp only [processCMND] at htau hge ⊢
  simp only [process, htau]
  rw [if_neg (by rw [hge]; simp)]
  norm_num

/-- At the final lag there is no interpolation: `betterTau` is the lag. -/
theorem betterTau_last (cmnd : List FVal) (oob : ℤ → FVal) (t : ℕ)
    (hlast : t + 1 = cmnd.length) : betterTau cmnd oob (t : ℤ) = FVal.fin t := by
  have h : ¬ ((t : ℤ) < (cmnd.length : ℤ) - 1) := by omega
  simp only [betterTau, if_neg h]
  norm_num

/-- Before the final lag `betterTau` is the parabolic refinement over the three
normalized differences around the lag. -/
theorem betterTau_inner (cmnd : List FVal) (oob : ℤ → FVal) (t : ℕ) (h1 : 1 ≤ t)
    (h2 : t + 1 < cmnd.length) :
    betterTau cmnd oob (t : ℤ) =
      (FVal.fin t).add
        ((((cmnd.getD (t + 1) FVal.nan).sub (cmnd.getD (t - 1) FVal.nan))).div
          ((FVal.fin 2).mul
            ((((FVal.fin 2).mul (cmnd.getD t FVal.nan)).sub (cmnd.getD (t + 1) FVal.nan)).sub
              (cmnd.getD (t - 1) FVal.nan)))) := by
  have h : (t : ℤ) < (cmnd.length : ℤ) - 1 := by omega
  have e0 : (t : ℤ) - 1 = ((t - 1 : ℕ) : ℤ) := by omega
  have e2 : (t : ℤ) + 1 = ((t + 1 : ℕ) : ℤ) := by omega
  simp only [betterTau, if_pos h]
  rw [e0, e2, readCMND_inside _ _ (t - 1) (by omega), readCMND_inside _ _ t (by omega),
    readCMND_inside _ _ (t + 1) h2]
  norm_num

end PitchTracker

/-- The normalized differences of the block with downsampled signal `[0, 1, 2]`. -/
theorem PitchTracker.cmnd_ramp3 :
    PitchTracker.processCMND (((PitchTracker.new 44100 6).setBufferValue 2 1).setBufferValue 4 2)
      = [FVal.fin 1, FVal.pinf, FVal.fin 4] := by
  have hd : PitchTracker.downsample
      (((PitchTracker.new 44100 6).setBufferValue 2 1).setBufferValue 4 2).gInputBuffer 2
      = [0, 1, 2] := by
    simp [PitchTracker.new, PitchTracker.setBufferValue, PitchTracker.downsample,
      List.replicate]
  rw [PitchTracker.processCMND, hd]
  simp [PitchTracker.cumMeanNormalizedDiff, PitchTracker.cmndAt, PitchTracker.diff,
    PitchTracker.diffAt, PitchTracker.accumulate, FVal.fdiv, List.range_succ]
  norm_num

/-- The normalized differences of the block with downsampled signal
`[0, 1, 2, 0]`: the only lag below 0.1 is the last one. -/
theorem PitchTracker.cmnd_period3_short :
    PitchTracker.processCMND (((PitchTracker.new 44100 8).setBufferValue 2 1).setBufferValue 4 2)
      = [FVal.fin 1, FVal.pinf, FVal.fin (5 / 3), FVal.fin 0] := by
  have hd : PitchTracker.downsample
      (((PitchTracker.new 44100 8).setBufferValue 2 1).setBufferValue 4 2).gInputBuffer 2
      = [0, 1, 2, 0] := by
    simp [PitchTracker.new, PitchTracker.setBufferValue, PitchTracker.downsample,
      List.replicate]
  rw [PitchTracker.processCMND, hd]
  simp [PitchTracker.cumMeanNormalizedDiff, PitchTracker.cmndAt, PitchTracker.diff,
    PitchTracker.diffAt, PitchTracker.accumulate, FVal.fdiv, List.range_succ]
  norm_num

/-- When the threshold loop leaves `tauMin` at 0, the final test reads
`CMND[0] = 1` and the sentinel is returned, whatever the interpolation block
computed. -/
theorem PitchTracker.process_of_tauMin_zero (p : PitchTracker) (oob : ℤ → FVal)
    (hne : p.gInputBuffer ≠ [])
    (htau : PitchTracker.tauMin (PitchTracker.processCMND p) = 0) :
    PitchTracker.process p oob = FVal.fin (-1) := by
  have hx : PitchTracker.downsample p.gInputBuffer 2 ≠ [] :=
    PitchTracker.downsample_ne_nil _ _ hne
  have hlen : 0 < (PitchTracker.downsample p.gInputBuffer 2).length :=
    List.length_pos.mpr hx
  have hread : PitchTracker.readCMND
      (PitchTracker.cumMeanNormalizedDiff (PitchTracker.downsample p.gInputBuffer 2)) oob
      ((0 : ℕ) : ℤ) = FVal.fin 1 := by
    rw [PitchTracker.readCMND_inside _ _ 0 (by rw [PitchTracker.cmnd_length]; exact hlen),
      PitchTracker.cmnd_getD _ 0 hlen]
    rfl
  have hge : (FVal.fin 1).geConst (1 / 10) = true := by
    simp only [FVal.geConst, decide_eq_true_eq]; norm_num
  rw [PitchTracker.processCMND] at htau
  simp only [PitchTracker.process, htau, hread]
  rw [if_pos hge]

/-- C11: for every (non-empty) capture block, if no lag `t` in `1 .. size-1` of
the downsampled block has `CMND[t] < 0.1`, `process` returns the unvoiced
sentinel -1, whatever the out-of-range read of the interpolation block finds. -/
theorem PitchTracker.process_unvoiced (p : PitchTracker) (oob : ℤ → FVal)
    (hne : p.gInputBuffer ≠ [])
    (hno : ∀ t, 1 ≤ t → t < (PitchTracker.processCMND p).length →
      ((PitchTracker.processCMND p).getD t FVal.nan).ltConst (1 / 10) = false) :
    PitchTracker.process p oob = FVal.fin (-1) := by
  have htau : PitchTracker.tauMin (PitchTracker.processCMND p) = 0 :=
    PitchTracker.tauMin_none _ hno
  exact PitchTracker.process_of_tauMin_zero p oob hne htau

/-- Witness of C11: the capture block `[0, 0, 1, 0, 2, 0]`, whose normalized
differences are `[1, +inf, 4]`. -/
theorem PitchTracker.process_unvoiced_witness :
    PitchTracker.process (((PitchTracker.new 44100 6).setBufferValue 2 1).setBufferValue 4 2)
      (fun _ => FVal.nan) = FVal.fin (-1) := by
  refine PitchTracker.process_unvoiced _ _ ?_ ?_
  · simp [PitchTracker.new, PitchTracker.setBufferValue, List.replicate]
  · intro t h1 h2
    rw [PitchTracker.cmnd_ramp3] at h2 ⊢
    simp only [List.length_cons, List.length_nil] at h2
    interval_cases t
    · rfl
    · simp [FVal.ltConst]; norm_num

/-- C12, counterexample.  Capture block `[0, 0, 1, 0, 2, 0, 0, 0]` at 44100 Hz:
the downsampled block is `[0, 1, 2, 0]`, `CMND = [1, +inf, 5/3, 0]`, the first
lag below 0.1 is the final lag 3, and `process` returns the frequency
`(44100/2)/3 = 7350`, not the sentinel -1. -/
theorem PitchTracker.last_lag_returns_frequency :
    PitchTracker.tauMin
      (PitchTracker.processCMND
        (((PitchTracker.new 44100 8).setBufferValue 2 1).setBufferValue 4 2)) = 3 ∧
    (PitchTracker.processCMND
        (((PitchTracker.new 44100 8).setBufferValue 2 1).setBufferValue 4 2)).length - 1 = 3 ∧
    PitchTracker.process (((PitchTracker.new 44100 8).setBufferValue 2 1).setBufferValue 4 2)
      (fun _ => FVal.nan) = FVal.fin 7350 ∧
    PitchTracker.process (((PitchTracker.new 44100 8).setBufferValue 2 1).setBufferValue 4 2)
      (fun _ => FVal.nan) ≠ FVal.fin (-1) := by
  have hc := PitchTracker.cmnd_period3_short
  have htau : PitchTracker.tauMin
      (PitchTracker.processCMND
        (((PitchTracker.new 44100 8).setBufferValue 2 1).setBufferValue 4 2)) = 3 := by
    rw [hc]
    simp [PitchTracker.tauMin, PitchTracker.scanTau, FVal.ltConst]
    norm_num
  have hp : PitchTracker.process
      (((PitchTracker.new 44100 8).setBufferValue 2 1).setBufferValue 4 2)
      (fun _ => FVal.nan) = FVal.fin 7350 := by
    rw [PitchTracker.process_of_crossing _ _ 3 htau (by rw [hc]; simp)
        (by rw [hc]; simp [FVal.ltConst]),
      PitchTracker.betterTau_last _ _ 3 (by rw [hc]; rfl)]
    simp [FVal.div, FVal.fdiv, PitchTracker.new, PitchTracker.setBufferValue]
    norm_num
  refine ⟨htau, ?_, hp, ?_⟩
  · rw [hc]; rfl
  · rw [hp]; intro h; injection h with h; norm_num at h

/-- C12 as amended: if the first lag `t` with `CMND[t] < 0.1` is the final lag
`size - 1` of the downsampled block, `process` skips the interpolation and
returns the frequency of the lag itself, `(sampleRate/2) / t`. -/
theorem PitchTracker.last_lag_uninterpolated (p : PitchTracker) (oob : ℤ → FVal) (t : ℕ)
    (h1 : 1 ≤ t) (hlast : t + 1 = (PitchTracker.processCMND p).length)
    (ht : ((PitchTracker.processCMND p).getD t FVal.nan).ltConst (1 / 10) = true)
    (hbefore : ∀ j, 1 ≤ j → j < t →
      ((PitchTracker.processCMND p).getD j FVal.nan).ltConst (1 / 10) = false) :
    PitchTracker.process p oob = FVal.fin (p.sampleRate / 2 / t) := by
  have htau := PitchTracker.tauMin_first _ t h1 (by omega) ht hbefore
  rw [PitchTracker.process_of_crossing p oob t htau (by omega) ht,
    PitchTracker.betterTau_last _ _ t hlast]
  have hne : (t : ℚ) ≠ 0 := by
    have : 0 < t := h1
    exact_mod_cast this.ne'
  simp [FVal.div, FVal.fdiv, hne]

/-- Witness of the amended C12: the capture block `[0, 0, 1, 0, 2, 0, 0, 0]`
at 44100 Hz, first crossing at the final lag 3. -/
theorem PitchTracker.last_lag_uninterpolated_witness :
    PitchTracker.process (((PitchTracker.new 44100 8).setBufferValue 2 1).setBufferValue 4 2)
      (fun _ => FVal.nan)
      = FVal.fin ((((PitchTracker.new 44100 8).setBufferValue 2 1).setBufferValue 4 2).sampleRate
          / 2 / (3 : ℕ)) := by
  refine PitchTracker.last_lag_uninterpolated _ _ 3 (by norm_num) ?_ ?_ ?_
  · rw [PitchTracker.cmnd_period3_short]; rfl
  · rw [PitchTracker.cmnd_period3_short]; simp [FVal.ltConst]
  · intro j hj1 hj2
    rw [PitchTracker.cmnd_period3_short]
    interval_cases j
    · rfl
    · simp [FVal.ltConst]; norm_num

/-- The normalized differences of the block with downsampled signal
`[0, 1, 2, 0, 1, 2, 0]` (period 3). -/
theorem PitchTracker.cmnd_period3_long :
    PitchTracker.processCMND
      (((((PitchTracker.new 44100 13).setBufferValue 2 1).setBufferValue 4 2).setBufferValue
        8 1).setBufferValue 10 2)
      = [FVal.fin 1, FVal.pinf, FVal.fin (11 / 6), FVal.fin 0, FVal.fin (24 / 23),
          FVal.fin (25 / 29), FVal.fin 0] := by
  have hd : PitchTracker.downsample
      (((((PitchTracker.new 44100 13).setBufferValue 2 1).setBufferValue 4 2).setBufferValue
        8 1).setBufferValue 10 2).gInputBuffer 2
      = [0, 1, 2, 0, 1, 2, 0] := by
    simp [PitchTracker.new, PitchTracker.setBufferValue, PitchTracker.downsample,
      List.replicate]
  rw [PitchTracker.processCMND, hd]
  simp [PitchTracker.cumMeanNormalizedDiff, PitchTracker.cmndAt, PitchTracker.diff,
    PitchTracker.diffAt, PitchTracker.accumulate, FVal.fdiv, List.range_succ]
  norm_num

/-- C13: if `t` is the smallest lag in `1 .. size-1` with `CMND[t] < 0.1` and
`t < size - 1`, `process` returns
`(sampleRate/2) / (t + (s2 - s0) / (2 * (2*s1 - s2 - s0)))` with
`s0, s1, s2 = CMND[t-1], CMND[t], CMND[t+1]`, in floating-point arithmetic;
when the three values are finite and no divisor vanishes this is the rational
number of that formula.  Nothing is assumed about the lags after `t`. -/
theorem PitchTracker.process_interpolated (p : PitchTracker) (oob : ℤ → FVal) (t : ℕ)
    (h1 : 1 ≤ t) (h2 : t + 1 < (PitchTracker.processCMND p).length)
    (ht : ((PitchTracker.processCMND p).getD t FVal.nan).ltConst (1 / 10) = true)
    (hbefore : ∀ j, 1 ≤ j → j < t →
      ((PitchTracker.processCMND p).getD j FVal.nan).ltConst (1 / 10) = false) :
    PitchTracker.process p oob =
      (FVal.fin (p.sampleRate / 2)).div
        ((FVal.fin t).add
          (((((PitchTracker.processCMND p).getD (t + 1) FVal.nan).sub
              ((PitchTracker.processCMND p).getD (t - 1) FVal.nan))).div
            ((FVal.fin 2).mul
              ((((FVal.fin 2).mul ((PitchTracker.processCMND p).getD t FVal.nan)).sub
                  ((PitchTracker.processCMND p).getD (t + 1) FVal.nan)).sub
                ((PitchTracker.processCMND p).getD (t - 1) FVal.nan))))) ∧
    ∀ q0 q1 q2 : ℚ,
      (PitchTracker.processCMND p).getD (t - 1) FVal.nan = FVal.fin q0 →
      (PitchTracker.processCMND p).getD t FVal.nan = FVal.fin q1 →
      (PitchTracker.processCMND p).getD (t + 1) FVal.nan = FVal.fin q2 →
      2 * (2 * q1 - q2 - q0) ≠ 0 →
      (t : ℚ) + (q2 - q0) / (2 * (2 * q1 - q2 - q0)) ≠ 0 →
      PitchTracker.process p oob =
        FVal.fin (p.sampleRate / 2 / ((t : ℚ) + (q2 - q0) / (2 * (2 * q1 - q2 - q0)))) := by
  have htau := PitchTracker.tauMin_first _ t h1 (by omega) ht hbefore
  have hmain := PitchTracker.process_of_crossing p oob t htau (by omega) ht
  rw [PitchTracker.betterTau_inner _ _ t h1 h2] at hmain
  refine ⟨hmain, ?_⟩
  intro q0 q1 q2 e0 e1 e2 hden hsum
  rw [hmain, e0, e1, e2]
  have hden' : 2 * (2 * q1 + -q2 + -q0) ≠ 0 := by
    intro h; apply hden; rw [← h]; ring
  have hsum' : (t : ℚ) + (q2 + -q0) / (2 * (2 * q1 + -q2 + -q0)) ≠ 0 := by
    intro h; apply hsum; rw [← h]; ring
  simp only [FVal.sub, FVal.neg, FVal.add, FVal.mul, FVal.div, FVal.fdiv, if_pos hden',
    if_pos hsum', ne_eq, not_false_eq_true]
  congr 1
  ring

/-- Witness of C13: the capture block `[0,0,1,0,2,0,0,0,1,0,2,0,0]` at 44100 Hz.
The downsampled block has period 3, the first lag below 0.1 is 3, the
neighbours are `11/6`, `0`, `24/23`, and the returned pitch is
`22050 / (3 + 109/794) = 17507700/2491`. -/
theorem PitchTracker.process_interpolated_witness :
    PitchTracker.process
      (((((PitchTracker.new 44100 13).setBufferValue 2 1).setBufferValue 4 2).setBufferValue
        8 1).setBufferValue 10 2) (fun _ => FVal.nan)
      = FVal.fin (17507700 / 2491) := by
  have hc := PitchTracker.cmnd_period3_long
  have h := (PitchTracker.process_interpolated
    (((((PitchTracker.new 44100 13).setBufferValue 2 1).setBufferValue 4 2).setBufferValue
        8 1).setBufferValue 10 2) (fun _ => FVal.nan) 3 (by norm_num)
    (by rw [hc]; simp) (by rw [hc]; simp [FVal.ltConst])
    (by
      intro j hj1 hj2
      rw [hc]
      interval_cases j
      · rfl
      · simp [FVal.ltConst]; norm_num)).2 (11 / 6) 0 (24 / 23)
    (by rw [hc]; rfl) (by rw [hc]; rfl) (by rw [hc]; rfl) (by norm_num) (by norm_num)
  rw [h]
  simp [PitchTracker.new, PitchTracker.setBufferValue]
  norm_num

/-- C14: on a silent capture block of any length from 2 on (the block a fresh
object holds) every normalized difference from lag 1 on is the not-a-number
`0 / 0`, which is not below the threshold, and `process` returns -1. -/
theorem PitchTracker.process_silence (sampleRate : ℚ) (n : ℕ) (oob : ℤ → FVal) (hn : 2 ≤ n) :
    (∀ t, 1 ≤ t → t < (PitchTracker.processCMND (PitchTracker.new sampleRate n)).length →
      (PitchTracker.processCMND (PitchTracker.new sampleRate n)).getD t FVal.nan = FVal.nan) ∧
    FVal.nan.ltConst (1 / 10) = false ∧
    PitchTracker.process (PitchTracker.new sampleRate n) oob = FVal.fin (-1) := by
  have hz : ∀ v ∈ PitchTracker.downsample (PitchTracker.new sampleRate n).gInputBuffer 2,
      v = 0 := by
    refine PitchTracker.downsample_zero 2 _ _ (le_refl _) ?_
    intro v hv
    exact List.eq_of_mem_replicate hv
  have hnan : ∀ t, 1 ≤ t →
      t < (PitchTracker.processCMND (PitchTracker.new sampleRate n)).length →
      (PitchTracker.processCMND (PitchTracker.new sampleRate n)).getD t FVal.nan = FVal.nan := by
    intro t h1 h2
    rw [PitchTracker.processCMND, PitchTracker.cmnd_length] at h2
    rw [PitchTracker.processCMND, PitchTracker.cmnd_getD _ t h2]
    exact PitchTracker.cmndAt_zero_block _ hz t h1 h2
  refine ⟨hnan, rfl, ?_⟩
  refine PitchTracker.process_of_tauMin_zero _ oob ?_ (PitchTracker.tauMin_none _ ?_)
  · intro h
    have hl : (PitchTracker.new sampleRate n).gInputBuffer.length = n := by
      simp [PitchTracker.new]
    rw [h] at hl
    simp at hl
    omega
  · intro t h1 h2
    rw [hnan t h1 h2]
    rfl

/-- Witness of C14: the silent block of length 512 used by the host. -/
theorem PitchTracker.process_silence_witness :
    (2 : ℕ) ≤ 512 ∧
    PitchTracker.process (PitchTracker.new 44100 512) (fun _ => FVal.nan) = FVal.fin (-1) :=
  ⟨by norm_num, (PitchTracker.process_silence 44100 512 (fun _ => FVal.nan) (by norm_num)).2.2⟩

/-! ## Morph: pointers -/

namespace Morph

/-- Advancing an index inside `[0, size)` with the wrap test of `render` is
advancing it by one modulo `size`. -/
theorem wrap_succ (pointer size : ℤ) (h0 : 0 ≤ pointer) (h1 : pointer < size) :
    (if pointer + 1 ≥ size then 0 else pointer + 1) = (pointer + 1) % size := by
  split_ifs with h
  · have : pointer + 1 = size := by omega
    rw [this, Int.emod_self]
  · rw [Int.emod_eq_of_lt (by omega) (by omega)]

/-- The C++ remainder of a sum of an index inside `[0, size)` and a step inside
`[0, size]` is the sum, reduced by `size` once if needed. -/
theorem tmod_wrap (pointer step size : ℤ) (h0 : 0 ≤ pointer) (h1 : pointer < size)
    (hs0 : 0 ≤ step) (hs1 : step ≤ size) :
    (pointer + step).tmod size
      = if pointer + step < size then pointer + step else pointer + step - size := by
  rw [Int.tmod_eq_emod (by omega) (by omega)]
  split_ifs with h
  · have h0' : 0 ≤ pointer + step := by omega
    exact Int.emod_eq_of_lt h0' h
  · have e : (pointer + step) % size = (pointer + step - size) % size := by
      have h2 := Int.add_mul_emod_self (a := pointer + step - size) (b := 1) (c := size)
      rw [← h2]; congr 1; ring
    have h0' : 0 ≤ pointer + step - size := by omega
    have h1' : pointer + step - size < size := by omega
    rw [e]
    exact Int.emod_eq_of_lt h0' h1'

theorem render_pointers (m : Morph) (a b : ℝ) :
    (render m a b).1.gOutputBufferWritePointer = m.gOutputBufferWritePointer ∧
    (render m a b).1.gOutputBufferReadPointer
      = (if m.gOutputBufferReadPointer + 1 ≥ m.gBufferSize then 0
          else m.gOutputBufferReadPointer + 1) ∧
    (render m a b).1.gFftSize = m.gFftSize ∧ (render m a b).1.gHopSize = m.gHopSize ∧
    (render m a b).1.gBufferSize = m.gBufferSize := ⟨rfl, rfl, rfl, rfl, rfl⟩

theorem process_fft_pointers (lib : FftLib) (m : Morph) :
    (process_fft lib m).gOutputBufferWritePointer
      = (m.gOutputBufferWritePointer + m.gHopSize).tmod m.gBufferSize ∧
    (process_fft lib m).gOutputBufferReadPointer = m.gOutputBufferReadPointer ∧
    (process_fft lib m).gFftSize = m.gFftSize ∧ (process_fft lib m).gHopSize = m.gHopSize ∧
    (process_fft lib m).gBufferSize = m.gBufferSize := by
  simp only [process_fft, overlapAdd, inverse, synthesis, morphing, analysis, transform,
    windowing, and_self]

theorem run_render (lib : FftLib) (m : Morph) (a b : ℝ) (rest : List Call) :
    run lib m (Call.render a b :: rest) = run lib (render m a b).1 rest := by
  simp only [run, List.foldl_cons, step]

theorem run_process_fft (lib : FftLib) (m : Morph) (rest : List Call) :
    run lib m (Call.process_fft :: rest) = run lib (process_fft lib m) rest := by
  simp only [run, List.foldl_cons, step]

theorem pointerInv_run (lib : FftLib) (F h B : ℤ) (hF : 0 ≤ F) (hh : 1 ≤ h)
    (hB : F + 2 * h < B) (calls : List Call) :
    ∀ (k : ℤ) (m : Morph), PointerInv F h B k m → hopSchedule h k calls →
      ∃ k', PointerInv F h B k' (run lib m calls) := by
  induction calls with
  | nil => exact fun k m hinv _ => ⟨k, hinv⟩
  | cons c rest ih =>
    intro k m hinv hs
    obtain ⟨e1, e2, e3, r0, r1, w0, w1, k0, k1, hsep⟩ := hinv
    cases c with
    | render a b =>
      obtain ⟨hk, hrest⟩ := hs
      obtain ⟨p1, p2, p3, p4, p5⟩ := render_pointers m a b
      rw [run_render]
      refine ih (k + 1) (render m a b).1 ?_ hrest
      refine ⟨p3.trans e1, p4.trans e2, p5.trans e3, ?_, ?_, ?_, ?_, by omega, by omega, ?_⟩
      · rw [p2, e3]; split_ifs <;> omega
      · rw [p2, e3]; split_ifs <;> omega
      · rw [p1]; exact w0
      · rw [p1]; exact w1
      · rw [p1, p2, e3]; split_ifs <;> omega
    | process_fft =>
      obtain ⟨hk, hrest⟩ := hs
      have hp := process_fft_pointers lib m
      have p1 := hp.1
      have p2 := hp.2.1
      have p3 := hp.2.2.1
      have p4 := hp.2.2.2.1
      have p5 := hp.2.2.2.2
      have hw := tmod_wrap m.gOutputBufferWritePointer h B w0 w1 (by omega) (by omega)
      rw [run_process_fft]
      refine ih 0 (process_fft lib m) ?_ hrest
      refine ⟨p3.trans e1, p4.trans e2, p5.trans e3, ?_, ?_, ?_, ?_, le_refl _, by omega, ?_⟩
      · rw [p2]; exact r0
      · rw [p2]; exact r1
      · rw [p1, e2, e3, hw]; split_ifs <;> omega
      · rw [p1, e2, e3, hw]; split_ifs <;> omega
      · rw [p1, p2, e2, e3, hw]; split_ifs <;> omega

theorem separation_of_pointerInv (F h B k : ℤ) (m : Morph) (hF : 0 ≤ F) (hh : 1 ≤ h)
    (hB : F + 2 * h < B) (hinv : PointerInv F h B k m) :
    separation m = F + 2 * h - k := by
  obtain ⟨_, _, e3, _, _, _, _, k0, k1, hsep⟩ := hinv
  unfold separation
  rw [e3]
  rcases hsep with hs | hs
  · have h0' : 0 ≤ F + 2 * h - k := by omega
    have h1' : F + 2 * h - k < B := by omega
    rw [hs]; exact Int.emod_eq_of_lt h0' h1'
  · have e : m.gOutputBufferWritePointer - m.gOutputBufferReadPointer
        = (F + 2 * h - k) + (-1) * B := by rw [hs]; ring
    have h0' : 0 ≤ F + 2 * h - k := by omega
    have h1' : F + 2 * h - k < B := by omega
    rw [e, Int.add_mul_emod_self]
    exact Int.emod_eq_of_lt h0' h1'

end Morph

/-- C15: for every Morph state whose pointers lie in `[0, bufferSize)`,
`render(a, b)` stores `a` and `b` at the write indices of the guitar and sample
capture buffers and advances both indices by one modulo `bufferSize`; it
returns the output-buffer cell at the read pointer times the scale factor
(0.5 from the constructor on, no member function changes it), sets that cell to
0, advances the read pointer by one modulo `bufferSize`, and leaves every other
output-buffer cell, the output write pointer and alpha unchanged. -/
theorem Morph.render_effect (m : Morph) (a b : ℝ) (lib : FftLib) (F h B : ℤ)
    (hG : 0 ≤ m.gInputBufferPointerGuitar ∧ m.gInputBufferPointerGuitar < m.gBufferSize)
    (hS : 0 ≤ m.gInputBufferPointerSample ∧ m.gInputBufferPointerSample < m.gBufferSize)
    (hR : 0 ≤ m.gOutputBufferReadPointer ∧ m.gOutputBufferReadPointer < m.gBufferSize) :
    (Morph.render m a b).1.gInputBufferGuitar
      = Function.update m.gInputBufferGuitar m.gInputBufferPointerGuitar a ∧
    (Morph.render m a b).1.gInputBufferSample
      = Function.update m.gInputBufferSample m.gInputBufferPointerSample b ∧
    (Morph.render m a b).1.gInputBufferPointerGuitar
      = (m.gInputBufferPointerGuitar + 1) % m.gBufferSize ∧
    (Morph.render m a b).1.gInputBufferPointerSample
      = (m.gInputBufferPointerSample + 1) % m.gBufferSize ∧
    (Morph.render m a b).2 = m.gOutputBuffer m.gOutputBufferReadPointer * m.gScaleFactor ∧
    (Morph.render m a b).1.gOutputBuffer m.gOutputBufferReadPointer = 0 ∧
    (∀ i, i ≠ m.gOutputBufferReadPointer →
      (Morph.render m a b).1.gOutputBuffer i = m.gOutputBuffer i) ∧
    (Morph.render m a b).1.gOutputBufferReadPointer
      = (m.gOutputBufferReadPointer + 1) % m.gBufferSize ∧
    (Morph.render m a b).1.gOutputBufferWritePointer = m.gOutputBufferWritePointer ∧
    (Morph.render m a b).1.gAlpha = m.gAlpha ∧
    (Morph.new F h B).gScaleFactor = 0.5 ∧
    (Morph.setup m).gScaleFactor = m.gScaleFactor ∧
    (Morph.render m a b).1.gScaleFactor = m.gScaleFactor ∧
    (Morph.process_fft lib m).gScaleFactor = m.gScaleFactor := by
  refine ⟨rfl, rfl, ?_, ?_, rfl, ?_, ?_, ?_, rfl, rfl, rfl, rfl, rfl, ?_⟩
  · exact Morph.wrap_succ _ _ hG.1 hG.2
  · exact Morph.wrap_succ _ _ hS.1 hS.2
  · simp [Morph.render]
  · intro i hi
    simp [Morph.render, Function.update_noteq hi]
  · exact Morph.wrap_succ _ _ hR.1 hR.2
  · simp only [Morph.process_fft, Morph.overlapAdd, Morph.inverse, Morph.synthesis,
      Morph.morphing, Morph.analysis, Morph.transform, Morph.windowing]

/-- Witness of C15: the first `render` call on the object set up with FFT size
4, hop size 2 and buffer size 16. -/
theorem Morph.render_effect_witness :
    (Morph.render (Morph.new 4 2 16).setup 1 2).1.gInputBufferPointerGuitar
      = ((Morph.new 4 2 16).setup.gInputBufferPointerGuitar + 1)
          % (Morph.new 4 2 16).setup.gBufferSize ∧
    (Morph.render (Morph.new 4 2 16).setup 1 2).2
      = (Morph.new 4 2 16).setup.gOutputBuffer (Morph.new 4 2 16).setup.gOutputBufferReadPointer
          * (Morph.new 4 2 16).setup.gScaleFactor :=
  ⟨(Morph.render_effect (Morph.new 4 2 16).setup 1 2 FftLib.dft 4 2 16
      ⟨le_refl _, by decide⟩ ⟨le_refl _, by decide⟩ ⟨le_refl _, by decide⟩).2.2.1,
   (Morph.render_effect (Morph.new 4 2 16).setup 1 2 FftLib.dft 4 2 16
      ⟨le_refl _, by decide⟩ ⟨le_refl _, by decide⟩ ⟨le_refl _, by decide⟩).2.2.2.2.1⟩

/-- C16: for every configuration with `fftSize ≥ 0`, `hopSize ≥ 1` and
`bufferSize > fftSize + 2 * hopSize`, after every call sequence from the
constructed object (set up or not) in which `process_fft` executes exactly
once after every `hopSize`-th `render` call, the separation
`(writePointer - readPointer) mod bufferSize` lies in
`[fftSize + hopSize, fftSize + 2 * hopSize]` and the write pointer differs from
the read pointer.  Every prefix of such a sequence is such a sequence, so this
holds at every moment of a run. -/
theorem Morph.separation_bounds (lib : FftLib) (F h B : ℤ) (calls : List Morph.Call)
    (hF : 0 ≤ F) (hh : 1 ≤ h) (hB : F + 2 * h < B) (hs : Morph.hopSchedule h 0 calls) :
    (F + h ≤ Morph.separation (Morph.run lib (Morph.new F h B) calls) ∧
     Morph.separation (Morph.run lib (Morph.new F h B) calls) ≤ F + 2 * h ∧
     (Morph.run lib (Morph.new F h B) calls).gOutputBufferWritePointer
       ≠ (Morph.run lib (Morph.new F h B) calls).gOutputBufferReadPointer) ∧
    (F + h ≤ Morph.separation (Morph.run lib (Morph.new F h B).setup calls) ∧
     Morph.separation (Morph.run lib (Morph.new F h B).setup calls) ≤ F + 2 * h ∧
     (Morph.run lib (Morph.new F h B).setup calls).gOutputBufferWritePointer
       ≠ (Morph.run lib (Morph.new F h B).setup calls).gOutputBufferReadPointer) := by
  have key : ∀ m0 : Morph, Morph.PointerInv F h B 0 m0 →
      F + h ≤ Morph.separation (Morph.run lib m0 calls) ∧
      Morph.separation (Morph.run lib m0 calls) ≤ F + 2 * h ∧
      (Morph.run lib m0 calls).gOutputBufferWritePointer
        ≠ (Morph.run lib m0 calls).gOutputBufferReadPointer := by
    intro m0 h0
    obtain ⟨k', hinv⟩ := Morph.pointerInv_run lib F h B hF hh hB calls 0 m0 h0 hs
    have hsep := Morph.separation_of_pointerInv F h B k' _ hF hh hB hinv
    obtain ⟨_, _, _, _, _, _, _, k0, k1, hd⟩ := hinv
    refine ⟨by omega, by omega, ?_⟩
    intro heq
    rcases hd with hd | hd <;> omega
  have hnew : Morph.PointerInv F h B 0 (Morph.new F h B) := by
    refine ⟨rfl, rfl, rfl, ?_, ?_, ?_, ?_, le_refl _, by omega, Or.inl ?_⟩
    all_goals simp only [Morph.new]
    all_goals omega
  have hsetup : Morph.PointerInv F h B 0 (Morph.new F h B).setup := by
    refine ⟨rfl, rfl, rfl, ?_, ?_, ?_, ?_, le_refl _, by omega, Or.inl ?_⟩
    all_goals simp only [Morph.new, Morph.setup]
    all_goals omega
  exact ⟨key _ hnew, key _ hsetup⟩

/-- Witness of C16: FFT size 4, hop size 2, buffer size 16, and the calls
`render, render, process_fft, render`. -/
theorem Morph.separation_bounds_witness :
    (0 : ℤ) ≤ 4 ∧ (1 : ℤ) ≤ 2 ∧ (4 : ℤ) + 2 * 2 < 16 ∧
    Morph.hopSchedule 2 0
      [Morph.Call.render 1 0, Morph.Call.render 2 0, Morph.Call.process_fft,
        Morph.Call.render 3 0] ∧
    (4 : ℤ) + 2 ≤ Morph.separation (Morph.run FftLib.dft (Morph.new 4 2 16).setup
      [Morph.Call.render 1 0, Morph.Call.render 2 0, Morph.Call.process_fft,
        Morph.Call.render 3 0]) :=
  ⟨by norm_num, by norm_num, by norm_num, by simp [Morph.hopSchedule],
    (Morph.separation_bounds FftLib.dft 4 2 16
      [Morph.Call.render 1 0, Morph.Call.render 2 0, Morph.Call.process_fft,
        Morph.Call.render 3 0]
      (by norm_num) (by norm_num) (by norm_num) (by simp [Morph.hopSchedule])).2.1⟩

/-! ## Morph: phases, analysis and morphing -/

namespace Morph

theorem fmodf_small (x y : ℝ) (h0 : 0 ≤ x / y) (h1 : x / y < 1) : fmodf x y = x := by
  have hfl : ⌊x / y⌋ = 0 := Int.floor_eq_zero_iff.mpr ⟨h0, h1⟩
  simp [fmodf, if_pos h0, hfl]

theorem fmodf_self (y : ℝ) (hy : y ≠ 0) : fmodf y y = 0 := by
  have h1 : y / y = 1 := div_self hy
  simp [fmodf, h1]

theorem wrapPhase_zero : wrapPhase 0 = 0 := by
  have hpi := Real.pi_pos
  have h : fmodf (0 + Real.pi) (2.0 * Real.pi) = 0 + Real.pi := by
    refine fmodf_small _ _ ?_ ?_
    · positivity
    · rw [div_lt_one (by positivity)]; norm_num; linarith
  simp only [wrapPhase, ge_iff_le, le_refl, if_true, h]
  ring

theorem wrapPhase_pi : wrapPhase Real.pi = -Real.pi := by
  have hpi := Real.pi_pos
  have e : Real.pi + Real.pi = 2.0 * Real.pi := by norm_num; ring
  have hge : Real.pi ≥ 0 := hpi.le
  simp only [wrapPhase, if_pos hge, e]
  rw [fmodf_self _ (by positivity)]
  ring

theorem atan2f_zero_of_pos (x : ℝ) (hx : 0 < x) : atan2f 0 x = 0 := by
  have h : (⟨x, 0⟩ : ℂ) = (x : ℂ) := rfl
  rw [atan2f, h, Complex.arg_ofReal_of_nonneg hx.le]

theorem atan2f_zero_of_neg (x : ℝ) (hx : x < 0) : atan2f 0 x = Real.pi := by
  have h : (⟨x, 0⟩ : ℂ) = (x : ℂ) := rfl
  rw [atan2f, h, Complex.arg_ofReal_of_neg hx]

/-- The analysis frame after `process_fft` is the one its analysis loop
computed from the state after the two forward transforms. -/
theorem process_fft_analysis (lib : FftLib) (m : Morph) :
    (process_fft lib m).analysisFrequenciesGuitar
      = (analysis lib (transform lib (windowing m))).analysisFrequenciesGuitar ∧
    (process_fft lib m).analysisFrequenciesSample
      = (analysis lib (transform lib (windowing m))).analysisFrequenciesSample ∧
    (process_fft lib m).analysisMagnitudesGuitar
      = (analysis lib (transform lib (windowing m))).analysisMagnitudesGuitar ∧
    (process_fft lib m).analysisMagnitudesSample
      = (analysis lib (transform lib (windowing m))).analysisMagnitudesSample := by
  simp only [process_fft, overlapAdd, inverse, synthesis, morphing, and_self]

/-- The synthesis frame after `process_fft` is the one its morphing loop
computed from the analysis frame. -/
theorem process_fft_morphing (lib : FftLib) (m : Morph) :
    (process_fft lib m).synthesisFrequencies
      = (morphing (analysis lib (transform lib (windowing m)))).synthesisFrequencies ∧
    (process_fft lib m).synthesisMagnitudes
      = (morphing (analysis lib (transform lib (windowing m)))).synthesisMagnitudes := by
  simp only [process_fft, overlapAdd, inverse, synthesis, and_self]

theorem halfSize_stages (lib : FftLib) (m : Morph) :
    halfSize (transform lib (windowing m)) = halfSize m ∧
    halfSize (analysis lib (transform lib (windowing m))) = halfSize m :=
  ⟨rfl, rfl⟩

theorem stage_params (lib : FftLib) (m : Morph) :
    (transform lib (windowing m)).gFftSize = m.gFftSize ∧
    (transform lib (windowing m)).gHopSize = m.gHopSize ∧
    (transform lib (windowing m)).lastInputPhasesGuitar = m.lastInputPhasesGuitar ∧
    (transform lib (windowing m)).lastInputPhasesSample = m.lastInputPhasesSample ∧
    (analysis lib (transform lib (windowing m))).gAlpha = m.gAlpha :=
  ⟨rfl, rfl, rfl, rfl, rfl⟩

end Morph

/-- Entry 2 of the Hann window of size 4 computed by `setup`. -/
theorem Morph.hann_four_two : (Morph.new 4 2 16).setup.gAnalysisWindowBuffer 2 = 3 / 4 := by
  have hc : Real.cos (4 * Real.pi / 3) = -(1 / 2) := by
    have e : 4 * Real.pi / 3 = Real.pi / 3 + Real.pi := by ring
    rw [e, Real.cos_add_pi, Real.cos_pi_div_three]
  simp only [Morph.setup, Morph.hannWindow, Morph.new]
  norm_num
  rw [show (2 : ℝ) * Real.pi * 2 / 3 = 4 * Real.pi / 3 by ring, hc]; norm_num

namespace Morph

theorem afterImpulse_fields (g s : ℝ) :
    (afterImpulse g s).gInputBufferGuitar 0 = 0 ∧ (afterImpulse g s).gInputBufferGuitar 1 = 0 ∧
    (afterImpulse g s).gInputBufferGuitar 2 = g ∧ (afterImpulse g s).gInputBufferGuitar 3 = 0 ∧
    (afterImpulse g s).gInputBufferSample 0 = 0 ∧ (afterImpulse g s).gInputBufferSample 1 = 0 ∧
    (afterImpulse g s).gInputBufferSample 2 = s ∧ (afterImpulse g s).gInputBufferSample 3 = 0 ∧
    (afterImpulse g s).gInputBufferPointerGuitar = 4 ∧
    (afterImpulse g s).gInputBufferPointerSample = 4 ∧
    (afterImpulse g s).gFftSize = 4 ∧ (afterImpulse g s).gBufferSize = 16 ∧
    (afterImpulse g s).gHopSize = 2 ∧
    (afterImpulse g s).lastInputPhasesGuitar = (fun _ => 0) ∧
    (afterImpulse g s).lastInputPhasesSample = (fun _ => 0) ∧
    (afterImpulse g s).gAnalysisWindowBuffer = (new 4 2 16).setup.gAnalysisWindowBuffer := by
  simp [afterImpulse, hostIteration, hopTick, render, setup, new, Function.update]

/-- The windowed inputs of the pass after the impulse: only entry 2 can be
non-zero. -/
theorem afterImpulse_unwrapped (g s : ℝ) :
    (windowing (afterImpulse g s)).unwrappedBufferGuitar 0 = 0 ∧
    (windowing (afterImpulse g s)).unwrappedBufferGuitar 1 = 0 ∧
    (windowing (afterImpulse g s)).unwrappedBufferGuitar 2 = 3 / 4 * g ∧
    (windowing (afterImpulse g s)).unwrappedBufferGuitar 3 = 0 ∧
    (windowing (afterImpulse g s)).unwrappedBufferSample 0 = 0 ∧
    (windowing (afterImpulse g s)).unwrappedBufferSample 1 = 0 ∧
    (windowing (afterImpulse g s)).unwrappedBufferSample 2 = 3 / 4 * s ∧
    (windowing (afterImpulse g s)).unwrappedBufferSample 3 = 0 := by
  obtain ⟨g0, g1, g2, g3, s0, s1, s2, s3, pG, pS, hF, hB, hH, lG, lS, hw⟩ :=
    afterImpulse_fields g s
  have i0 : ((4 : ℤ) + 0 - 4 + 16).tmod 16 = 0 := by decide
  have i1 : ((4 : ℤ) + 1 - 4 + 16).tmod 16 = 1 := by decide
  have i2 : ((4 : ℤ) + 2 - 4 + 16).tmod 16 = 2 := by decide
  have i3 : ((4 : ℤ) + 3 - 4 + 16).tmod 16 = 3 := by decide
  have w2 : (afterImpulse g s).gAnalysisWindowBuffer 2 = 3 / 4 := by
    rw [hw]; exact hann_four_two
  simp only [windowing, windowedGuitar, windowedSample, circularBufferIndex, pG, pS, hF, hB,
    i0, i1, i2, i3, g0, g1, g2, g3, s0, s1, s2, s3, w2]
  norm_num
  constructor <;> ring

/-- Bins 0 and 2 of the two forward transforms (reference DFT) of the pass
after the impulse. -/
theorem afterImpulse_transform (g s : ℝ) :
    (transform FftLib.dft (windowing (afterImpulse g s))).gFftGuitar_fdr 0 = 3 / 4 * g ∧
    (transform FftLib.dft (windowing (afterImpulse g s))).gFftGuitar_fdi 0 = 0 ∧
    (transform FftLib.dft (windowing (afterImpulse g s))).gFftSample_fdr 0 = 3 / 4 * s ∧
    (transform FftLib.dft (windowing (afterImpulse g s))).gFftSample_fdi 0 = 0 ∧
    (transform FftLib.dft (windowing (afterImpulse g s))).gFftGuitar_fdr 2 = 3 / 4 * g ∧
    (transform FftLib.dft (windowing (afterImpulse g s))).gFftGuitar_fdi 2 = 0 ∧
    (transform FftLib.dft (windowing (afterImpulse g s))).gFftSample_fdr 2 = 3 / 4 * s ∧
    (transform FftLib.dft (windowing (afterImpulse g s))).gFftSample_fdi 2 = 0 := by
  obtain ⟨u0, u1, u2, u3, v0, v1, v2, v3⟩ := afterImpulse_unwrapped g s
  have hF : (windowing (afterImpulse g s)).gFftSize = 4 :=
    (afterImpulse_fields g s).2.2.2.2.2.2.2.2.2.2.1
  have hc : Real.cos (2 * Real.pi * 2 * 2 / 4) = 1 := by
    rw [show (2 : ℝ) * Real.pi * 2 * 2 / 4 = 2 * Real.pi by ring, Real.cos_two_pi]
  have hs : Real.sin (2 * Real.pi * 2 * 2 / 4) = 0 := by
    rw [show (2 : ℝ) * Real.pi * 2 * 2 / 4 = 2 * Real.pi by ring, Real.sin_two_pi]
  simp only [transform, FftLib.dft, hF]
  simp [Finset.sum_range_succ, u0, u1, u2, u3, v0, v1, v2, v3, hc, hs]

/-- Sizes and previous phases of the state the analysis loop sees after the
impulse. -/
theorem afterImpulse_stage (g s : ℝ) :
    ((transform FftLib.dft (windowing (afterImpulse g s))).gFftSize : ℝ) = 4 ∧
    ((transform FftLib.dft (windowing (afterImpulse g s))).gHopSize : ℝ) = 2 ∧
    (∀ n, (transform FftLib.dft (windowing (afterImpulse g s))).lastInputPhasesGuitar n = 0) ∧
    (∀ n, (transform FftLib.dft (windowing (afterImpulse g s))).lastInputPhasesSample n = 0) ∧
    halfSize (afterImpulse g s) = 2 := by
  obtain ⟨_, _, _, _, _, _, _, _, _, _, hF, _, hH, lG, lS, _⟩ := afterImpulse_fields g s
  have e1 : (transform FftLib.dft (windowing (afterImpulse g s))).gFftSize = 4 := hF
  have e2 : (transform FftLib.dft (windowing (afterImpulse g s))).gHopSize = 2 := hH
  have e3 : (transform FftLib.dft (windowing (afterImpulse g s))).lastInputPhasesGuitar
      = fun _ => 0 := lG
  have e4 : (transform FftLib.dft (windowing (afterImpulse g s))).lastInputPhasesSample
      = fun _ => 0 := lS
  refine ⟨by rw [e1]; norm_num, by rw [e2]; norm_num, fun n => by rw [e3], fun n => by rw [e4], ?_⟩
  rw [halfSize, hF]; rfl

/-- The recorded analysis frequencies of `process_fft` at a bin of the loop
range, in terms of the guitar stream's wrapped residual. -/
theorem process_fft_frequencies (lib : FftLib) (m : Morph) (k : ℤ) (hk0 : 0 ≤ k)
    (hk1 : k ≤ halfSize m) :
    (process_fft lib m).analysisFrequenciesGuitar k
      = (k : ℝ) + phaseDiffGuitar (transform lib (windowing m)) k
          * ((transform lib (windowing m)).gFftSize : ℝ)
          / ((transform lib (windowing m)).gHopSize : ℝ) / (2.0 * Real.pi) ∧
    (process_fft lib m).analysisFrequenciesSample k
      = (k : ℝ) + phaseDiffGuitar (transform lib (windowing m)) k
          * ((transform lib (windowing m)).gFftSize : ℝ)
          / ((transform lib (windowing m)).gHopSize : ℝ) / (2.0 * Real.pi) := by
  obtain ⟨a1, a2, _, _⟩ := process_fft_analysis lib m
  have hin : 0 ≤ k ∧ k ≤ halfSize (transform lib (windowing m)) := ⟨hk0, hk1⟩
  rw [a1, a2]
  constructor
  · simp only [analysis, if_pos hin, binDeviationGuitar]
  · simp only [analysis, if_pos hin, binDeviationSample]

end Morph

/-- C17, the code at the failing input.  FFT size 4, hop size 2, buffer size 16,
first pass after four host iterations whose third feeds the guitar sample 1 and
the sample-player sample -1 (reference DFT): bin 0 of the guitar transform is
`3/4` (phase 0), bin 0 of the sample transform is `-3/4` (phase π), previous
phases are 0.  The sample stream's own wrapped residual is `wrapPhase(π) = -π`,
for which the claimed analysis frequency is `0 + (-π) * 4 / (2π * 2) = -1`; the
analysis loop computes `binDeviationSample` from `phaseDiffGuitar = 0` and
records 0, the guitar stream's value. -/
theorem Morph.sample_deviation_from_guitar :
    Morph.phaseDiffGuitar
      (Morph.transform FftLib.dft (Morph.windowing (Morph.afterImpulse 1 (-1)))) 0 = 0 ∧
    Morph.phaseDiffSample
      (Morph.transform FftLib.dft (Morph.windowing (Morph.afterImpulse 1 (-1)))) 0
      = -Real.pi ∧
    (Morph.process_fft FftLib.dft (Morph.afterImpulse 1 (-1))).analysisFrequenciesSample 0
      = 0 ∧
    (Morph.process_fft FftLib.dft (Morph.afterImpulse 1 (-1))).analysisFrequenciesGuitar 0
      = 0 ∧
    Morph.specAnalysisFrequencySample
      (Morph.transform FftLib.dft (Morph.windowing (Morph.afterImpulse 1 (-1)))) 0 = -1 := by
  have hpi := Real.pi_pos
  obtain ⟨gr0, gi0, sr0, si0, _, _, _, _⟩ := Morph.afterImpulse_transform 1 (-1)
  obtain ⟨hF, hH, lG, lS, hhalf⟩ := Morph.afterImpulse_stage 1 (-1)
  have hG : Morph.phaseDiffGuitar
      (Morph.transform FftLib.dft (Morph.windowing (Morph.afterImpulse 1 (-1)))) 0 = 0 := by
    rw [Morph.phaseDiffGuitar, Morph.phaseGuitar, gr0, gi0, lG,
      Morph.atan2f_zero_of_pos _ (by norm_num), Morph.binCentreFrequency]
    norm_num
    exact Morph.wrapPhase_zero
  have hS : Morph.phaseDiffSample
      (Morph.transform FftLib.dft (Morph.windowing (Morph.afterImpulse 1 (-1)))) 0
      = -Real.pi := by
    rw [Morph.phaseDiffSample, Morph.phaseSample, sr0, si0, lS,
      Morph.atan2f_zero_of_neg _ (by norm_num), Morph.binCentreFrequency]
    norm_num
    exact Morph.wrapPhase_pi
  obtain ⟨fg, fs⟩ := Morph.process_fft_frequencies FftLib.dft (Morph.afterImpulse 1 (-1)) 0
    (le_refl _) (by rw [hhalf]; norm_num)
  refine ⟨hG, hS, ?_, ?_, ?_⟩
  · rw [fs, hG]; norm_num
  · rw [fg, hG]; norm_num
  · rw [Morph.specAnalysisFrequencySample, hS, hF, hH]
    field_simp
    ring

/-- C19: in every pass and for every bin `n` in `0 .. fftSize/2` the synthesis
magnitude is `(1 - alpha) * magA[n] + alpha * magB[n]` and the synthesis
frequency is `(1 - alpha) * freqA[n] + alpha * freqB[n]`, A and B being the
analysis frames of the guitar and the sample stream recorded by the pass;
with `alpha = 0` the synthesis frame is stream A's analysis frame and with
`alpha = 1` it is stream B's. -/
theorem Morph.synthesis_frame (lib : FftLib) (m : Morph) (n : ℤ)
    (h0 : 0 ≤ n) (h1 : n ≤ Morph.halfSize m) :
    (Morph.process_fft lib m).synthesisMagnitudes n
      = (1 - m.gAlpha) * (Morph.process_fft lib m).analysisMagnitudesGuitar n
        + m.gAlpha * (Morph.process_fft lib m).analysisMagnitudesSample n ∧
    (Morph.process_fft lib m).synthesisFrequencies n
      = (1 - m.gAlpha) * (Morph.process_fft lib m).analysisFrequenciesGuitar n
        + m.gAlpha * (Morph.process_fft lib m).analysisFrequenciesSample n ∧
    (m.gAlpha = 0 →
      (Morph.process_fft lib m).synthesisMagnitudes n
        = (Morph.process_fft lib m).analysisMagnitudesGuitar n ∧
      (Morph.process_fft lib m).synthesisFrequencies n
        = (Morph.process_fft lib m).analysisFrequenciesGuitar n) ∧
    (m.gAlpha = 1 →
      (Morph.process_fft lib m).synthesisMagnitudes n
        = (Morph.process_fft lib m).analysisMagnitudesSample n ∧
      (Morph.process_fft lib m).synthesisFrequencies n
        = (Morph.process_fft lib m).analysisFrequenciesSample n) := by
  obtain ⟨a1, a2, a3, a4⟩ := Morph.process_fft_analysis lib m
  obtain ⟨s1, s2⟩ := Morph.process_fft_morphing lib m
  have hin : 0 ≤ n ∧ n ≤ Morph.halfSize
      (Morph.analysis lib (Morph.transform lib (Morph.windowing m))) := ⟨h0, h1⟩
  have hα : (Morph.analysis lib (Morph.transform lib (Morph.windowing m))).gAlpha
      = m.gAlpha := rfl
  have hmag : (Morph.process_fft lib m).synthesisMagnitudes n
      = (1 - m.gAlpha) * (Morph.process_fft lib m).analysisMagnitudesGuitar n
        + m.gAlpha * (Morph.process_fft lib m).analysisMagnitudesSample n := by
    rw [s2, a3, a4]
    simp only [Morph.morphing, if_pos hin, hα]
  have hfreq : (Morph.process_fft lib m).synthesisFrequencies n
      = (1 - m.gAlpha) * (Morph.process_fft lib m).analysisFrequenciesGuitar n
        + m.gAlpha * (Morph.process_fft lib m).analysisFrequenciesSample n := by
    rw [s1, a1, a2]
    simp only [Morph.morphing, if_pos hin, hα]
  refine ⟨hmag, hfreq, ?_, ?_⟩
  · intro hz
    rw [hmag, hfreq, hz]
    constructor <;> ring
  · intro hone
    rw [hmag, hfreq, hone]
    constructor <;> ring

/-- Witness of C19: bin 1 of the first pass on the object set up with FFT size
4, hop size 2 and buffer size 16 (alpha 0.5 from the constructor). -/
theorem Morph.synthesis_frame_witness :
    (0 : ℤ) ≤ 1 ∧ (1 : ℤ) ≤ Morph.halfSize (Morph.new 4 2 16).setup ∧
    (Morph.process_fft FftLib.dft (Morph.new 4 2 16).setup).synthesisMagnitudes 1
      = (1 - (Morph.new 4 2 16).setup.gAlpha)
          * (Morph.process_fft FftLib.dft (Morph.new 4 2 16).setup).analysisMagnitudesGuitar 1
        + (Morph.new 4 2 16).setup.gAlpha
          * (Morph.process_fft FftLib.dft (Morph.new 4 2 16).setup).analysisMagnitudesSample 1 :=
  ⟨by norm_num, by simp [Morph.halfSize, Morph.setup, Morph.new]; decide,
    (Morph.synthesis_frame FftLib.dft (Morph.new 4 2 16).setup 1 (by norm_num)
      (by simp [Morph.halfSize, Morph.setup, Morph.new]; decide)).1⟩

/-- Entry 1 of the Hann window of size 4 computed by `setup`. -/
theorem Morph.hann_four_one : (Morph.new 4 2 16).setup.gAnalysisWindowBuffer 1 = 3 / 4 := by
  have hc : Real.cos (2 * Real.pi / 3) = -(1 / 2) := by
    have e : 2 * Real.pi / 3 = Real.pi - Real.pi / 3 := by ring
    rw [e, Real.cos_pi_sub, Real.cos_pi_div_three]
  simp only [Morph.setup, Morph.hannWindow, Morph.new]
  norm_num
  rw [hc]; norm_num

/-- The object after four host iterations with the guitar samples 1, 2, 3, 4. -/
theorem Morph.afterFourSamples_fields :
    Morph.afterFourSamples.gInputBufferGuitar 0 = 1 ∧
    Morph.afterFourSamples.gInputBufferGuitar 1 = 2 ∧
    Morph.afterFourSamples.gInputBufferPointerGuitar = 4 ∧
    Morph.afterFourSamples.gCachedInputBufferPointerGuitar = 3 ∧
    Morph.afterFourSamples.gFftSize = 4 ∧ Morph.afterFourSamples.gBufferSize = 16 ∧
    Morph.afterFourSamples.gAnalysisWindowBuffer
      = (Morph.new 4 2 16).setup.gAnalysisWindowBuffer := by
  simp [Morph.afterFourSamples, Morph.hostIteration, Morph.hopTick, Morph.render, Morph.setup,
    Morph.new, Function.update]

/-- C20, the code at the failing input.  FFT size 4, hop size 2, buffer size 16,
four host iterations with the guitar samples 1, 2, 3, 4: the host cached the
write index 3 at the hop boundary and `render` then advanced the live index to
4.  The first loop of `process_fft` reads the window ending at the live index:
entry 1 of the windowed guitar input is `buffer[1] * w[1] = 2 * 3/4 = 3/2`.  The
window ending at the cached index gives `buffer[0] * w[1] = 3/4`, and so does
the code on the state that differs only in having its live indices at 3. -/
theorem Morph.window_follows_live_pointer :
    Morph.afterFourSamples.gCachedInputBufferPointerGuitar = 3 ∧
    Morph.afterFourSamples.gInputBufferPointerGuitar = 4 ∧
    (Morph.windowing Morph.afterFourSamples).unwrappedBufferGuitar 1 = 3 / 2 ∧
    Morph.specWindowedGuitar Morph.afterFourSamples 1 = 3 / 4 ∧
    (Morph.windowing
      { Morph.afterFourSamples with
        gInputBufferPointerGuitar := 3
        gInputBufferPointerSample := 3 }).unwrappedBufferGuitar 1 = 3 / 4 := by
  obtain ⟨b0, b1, hp, hc, hF, hB, hw⟩ := Morph.afterFourSamples_fields
  have hw1 : Morph.afterFourSamples.gAnalysisWindowBuffer 1 = 3 / 4 := by
    rw [hw]; exact Morph.hann_four_one
  have hin : (0 : ℤ) ≤ 1 ∧ (1 : ℤ) < Morph.afterFourSamples.gFftSize := by
    rw [hF]; exact ⟨by norm_num, by norm_num⟩
  have i1 : ((4 : ℤ) + 1 - 4 + 16).tmod 16 = 1 := by decide
  have i0 : ((3 : ℤ) + 1 - 4 + 16).tmod 16 = 0 := by decide
  refine ⟨hc, hp, ?_, ?_, ?_⟩
  · simp only [Morph.windowing, if_pos hin, Morph.windowedGuitar, Morph.circularBufferIndex,
      hp, hF, hB, i1, b1, hw1]
    norm_num
  · simp only [Morph.specWindowedGuitar, Morph.circularBufferIndex, hc, hF, hB, i0, b0, hw1]
    norm_num
  · simp only [Morph.windowing, if_pos hin, Morph.windowedGuitar, Morph.circularBufferIndex,
      hF, hB, i0, b0, hw1]
    norm_num

/-! ## Morph: the phase wrap -/

namespace Morph

/-- Shape of `fmodf` for a positive divisor and a non-negative dividend: the
dividend minus a whole number of divisors, left in `[0, y)`. -/
theorem fmodf_pos (x y : ℝ) (hy : 0 < y) (hx : 0 ≤ x) :
    ∃ j : ℤ, fmodf x y = x - y * j ∧ 0 ≤ x - y * j ∧ x - y * j < y := by
  have hq : 0 ≤ x / y := div_nonneg hx hy.le
  refine ⟨⌊x / y⌋, ?_, ?_, ?_⟩
  · simp only [fmodf, if_pos hq]
  · have h1 := Int.floor_le (x / y)
    have h2 : (⌊x / y⌋ : ℝ) * y ≤ x := (le_div_iff₀ hy).mp h1
    linarith
  · have h1 := Int.lt_floor_add_one (x / y)
    have h2 : x < ((⌊x / y⌋ : ℝ) + 1) * y := (div_lt_iff₀ hy).mp h1
    linarith

/-- Shape of `fmodf` for a negative divisor and a non-positive dividend: the
dividend minus a whole number of divisors, left in `(y, 0]`. -/
theorem fmodf_neg (x y : ℝ) (hy : y < 0) (hx : x ≤ 0) :
    ∃ j : ℤ, fmodf x y = x - y * j ∧ x - y * j ≤ 0 ∧ y < x - y * j := by
  have hq : 0 ≤ x / y := div_nonneg_of_nonpos hx hy.le
  refine ⟨⌊x / y⌋, ?_, ?_, ?_⟩
  · simp only [fmodf, if_pos hq]
  · have h1 := Int.floor_le (x / y)
    have h2 : x ≤ (⌊x / y⌋ : ℝ) * y := (le_div_iff_of_neg hy).mp h1
    linarith
  · have h1 := Int.lt_floor_add_one (x / y)
    have h2 : ((⌊x / y⌋ : ℝ) + 1) * y < x := (div_lt_iff_of_neg hy).mp h1
    linarith

/-- The wrapped phase is the phase shifted by a whole number of turns and lies
in `[-π, π]`. -/
theorem wrapPhase_shift (p : ℝ) :
    ∃ j : ℤ, wrapPhase p = p + j * (2 * Real.pi) ∧ -Real.pi ≤ wrapPhase p ∧
      wrapPhase p ≤ Real.pi := by
  have hpi := Real.pi_pos
  by_cases hp : p ≥ 0
  · obtain ⟨j, e, l, u⟩ := fmodf_pos (p + Real.pi) (2.0 * Real.pi) (by positivity) (by linarith)
    have hw : wrapPhase p = p + Real.pi - 2.0 * Real.pi * j - Real.pi := by
      simp only [wrapPhase, if_pos hp, e]
    refine ⟨-j, ?_, ?_, ?_⟩
    · rw [hw]; push_cast; norm_num; ring
    · rw [hw]; linarith
    · rw [hw]; norm_num at u ⊢; linarith
  · have hp' : p < 0 := not_le.mp hp
    obtain ⟨j, e, u, l⟩ := fmodf_neg (p - Real.pi) (-2.0 * Real.pi)
      (by norm_num; exact hpi) (by linarith)
    have hw : wrapPhase p = p - Real.pi - -2.0 * Real.pi * j + Real.pi := by
      simp only [wrapPhase, if_neg hp, e]
    refine ⟨j, ?_, ?_, ?_⟩
    · rw [hw]; norm_num; ring
    · rw [hw]; norm_num at l ⊢; linarith
    · rw [hw]; linarith

/-- A phase strictly inside `(-π, π)` is returned unchanged. -/
theorem wrapPhase_inside (p : ℝ) (h1 : -Real.pi < p) (h2 : p < Real.pi) : wrapPhase p = p := by
  have hpi := Real.pi_pos
  by_cases hp : p ≥ 0
  · have h : fmodf (p + Real.pi) (2.0 * Real.pi) = p + Real.pi := by
      refine fmodf_small _ _ (by positivity) ?_
      rw [div_lt_one (by positivity)]; norm_num; linarith
    simp only [wrapPhase, if_pos hp, h]; ring
  · have hp' : p < 0 := not_le.mp hp
    have hy : (-2.0 * Real.pi) < 0 := by norm_num; exact hpi
    have h : fmodf (p - Real.pi) (-2.0 * Real.pi) = p - Real.pi := by
      refine fmodf_small _ _ (div_nonneg_of_nonpos (by linarith) hy.le) ?_
      rw [div_lt_one_of_neg hy]; norm_num; linarith
    simp only [wrapPhase, if_neg hp, h]; ring

end Morph

/-- C22: for every real phase `p`, `wrapPhase(p)` lies in `[-π, π]` and differs
from `p` by an integer multiple of `2π`; it returns `p` unchanged whenever
`-π < p < π`. -/
theorem Morph.wrapPhase_spec (p : ℝ) :
    -Real.pi ≤ Morph.wrapPhase p ∧ Morph.wrapPhase p ≤ Real.pi ∧
    (∃ j : ℤ, Morph.wrapPhase p - p = j * (2 * Real.pi)) ∧
    (-Real.pi < p → p < Real.pi → Morph.wrapPhase p = p) := by
  obtain ⟨j, e, l, u⟩ := Morph.wrapPhase_shift p
  exact ⟨l, u, ⟨j, by rw [e]; ring⟩, Morph.wrapPhase_inside p⟩

/-- Witness of C22 at the phase 1, which lies inside `(-π, π)`. -/
theorem Morph.wrapPhase_spec_witness :
    -Real.pi < 1 ∧ (1 : ℝ) < Real.pi ∧ Morph.wrapPhase 1 = 1 :=
  ⟨by linarith [Real.pi_pos], by linarith [Real.pi_gt_three],
    (Morph.wrapPhase_spec 1).2.2.2 (by linarith [Real.pi_pos]) (by linarith [Real.pi_gt_three])⟩

/-! ## EnvelopeFollower: time constant and range -/

namespace EnvelopeFollower

/-- One call of `process` keeps both stages between 0 and the larger of the
previous bound and the new `|input|`, when the three coefficients lie in
`[0, 1]`. -/
theorem process_range (s : EnvelopeFollower) (x M : ℝ)
    (ha : 0 ≤ s.attackGain ∧ s.attackGain ≤ 1) (hr : 0 ≤ s.releaseGain ∧ s.releaseGain ≤ 1)
    (hg : 0 ≤ s.smoothingGain ∧ s.smoothingGain ≤ 1)
    (he : 0 ≤ s.envelope ∧ s.envelope ≤ M) (hs : 0 ≤ s.smoothedEnvelope ∧ s.smoothedEnvelope ≤ M) :
    (0 ≤ (process s x).1.envelope ∧ (process s x).1.envelope ≤ max M |x|) ∧
    (0 ≤ (process s x).1.smoothedEnvelope ∧ (process s x).1.smoothedEnvelope ≤ max M |x|) ∧
    (process s x).2 = (process s x).1.smoothedEnvelope := by
  have hx : 0 ≤ |x| := abs_nonneg x
  have hM1 : M ≤ max M |x| := le_max_left _ _
  have hM2 : |x| ≤ max M |x| := le_max_right _ _
  have henv : 0 ≤ (process s x).1.envelope ∧ (process s x).1.envelope ≤ max M |x| := by
    simp only [process]
    split_ifs with h
    · constructor <;> nlinarith [ha.1, ha.2, he.1, he.2]
    · constructor <;> nlinarith [hr.1, hr.2, he.1, he.2]
  refine ⟨henv, ?_, rfl⟩
  have hsm : (process s x).1.smoothedEnvelope
      = s.smoothingGain * ((process s x).1.envelope - s.smoothedEnvelope)
        + s.smoothedEnvelope := rfl
  rw [hsm]
  constructor <;> nlinarith [hg.1, hg.2, hs.1, hs.2, henv.1, henv.2]

theorem process_coefficients (s : EnvelopeFollower) (x : ℝ) :
    (process s x).1.attackGain = s.attackGain ∧ (process s x).1.releaseGain = s.releaseGain ∧
    (process s x).1.smoothingGain = s.smoothingGain := ⟨rfl, rfl, rfl⟩

/-- Along any input sequence both stages stay between 0 and the largest
`|input|` seen so far. -/
theorem feedList_range (xs : List ℝ) :
    ∀ (s : EnvelopeFollower) (M : ℝ),
      (0 ≤ s.attackGain ∧ s.attackGain ≤ 1) → (0 ≤ s.releaseGain ∧ s.releaseGain ≤ 1) →
      (0 ≤ s.smoothingGain ∧ s.smoothingGain ≤ 1) →
      (0 ≤ s.envelope ∧ s.envelope ≤ M) → (0 ≤ s.smoothedEnvelope ∧ s.smoothedEnvelope ≤ M) →
      (0 ≤ (feedList s xs).envelope ∧ (feedList s xs).envelope ≤ maxAbs M xs) ∧
      (0 ≤ (feedList s xs).smoothedEnvelope ∧ (feedList s xs).smoothedEnvelope ≤ maxAbs M xs) := by
  induction xs with
  | nil => exact fun s M _ _ _ he hs => ⟨he, hs⟩
  | cons x rest ih =>
    intro s M ha hr hg he hs
    obtain ⟨h1, h2, _⟩ := process_range s x M ha hr hg he hs
    obtain ⟨c1, c2, c3⟩ := process_coefficients s x
    have := ih (process s x).1 (max M |x|) (by rw [c1]; exact ha) (by rw [c2]; exact hr)
      (by rw [c3]; exact hg) h1 h2
    simpa only [feedList, maxAbs, List.foldl_cons] using this

theorem new_coefficients (attack release smoothing sr : ℝ) (hat : 0 < attack)
    (hrt : 0 < release) (hst : 0 < smoothing) (hsr : 0 < sr) :
    (0 < (new attack release smoothing sr).attackGain ∧
      (new attack release smoothing sr).attackGain < 1) ∧
    (0 < (new attack release smoothing sr).releaseGain ∧
      (new attack release smoothing sr).releaseGain < 1) ∧
    (0 < (new attack release smoothing sr).smoothingGain ∧
      (new attack release smoothing sr).smoothingGain < 1) :=
  ⟨one_sub_exp_mem (sr * attack * 0.001) (by positivity),
    one_sub_exp_mem (sr * release * 0.001) (by positivity),
    one_sub_exp_mem (sr * smoothing * 0.001) (by positivity)⟩

end EnvelopeFollower

/-- C26: for an `EnvelopeFollower` with positive attack time `A` (ms) and
sample rate `sr`, whatever its release and smoothing times, starting from the
constructed state and fed the constant input 1, the stage-1 envelope after `n`
calls of `process` is exactly `1 - e^(-n / (sr * A * 0.001))`. -/
theorem EnvelopeFollower.attack_time_constant (attack release smoothing sr : ℝ) (n : ℕ)
    (hat : 0 < attack) (hsr : 0 < sr) :
    (EnvelopeFollower.feed (EnvelopeFollower.new attack release smoothing sr) 1 n).envelope
      = 1 - Real.exp (-(n : ℝ) / (sr * attack * 0.001)) := by
  have hp : 0 < sr * attack * 0.001 := by positivity
  have ha := one_sub_exp_mem (sr * attack * 0.001) hp
  have hA : (EnvelopeFollower.new attack release smoothing sr).attackGain
      = 1 - Real.exp (-1 / (sr * attack * 0.001)) := rfl
  rw [EnvelopeFollower.feed_envelope_one _ rfl (by rw [hA]; exact ha.2) n, hA]
  have e : (1 - (1 - Real.exp (-1 / (sr * attack * 0.001)))) ^ n
      = Real.exp (-(n : ℝ) / (sr * attack * 0.001)) := by
    rw [sub_sub_cancel, ← Real.exp_nat_mul]
    congr 1
    ring
  rw [e]

/-- Witness of C26: attack 1 ms at 44100 Hz (release 100 ms, smoothing 0.1 ms,
the host's values), after 100 calls. -/
theorem EnvelopeFollower.attack_time_constant_witness :
    (0 : ℝ) < 1 ∧ (0 : ℝ) < 44100 ∧
    (EnvelopeFollower.feed (EnvelopeFollower.new 1 100 0.1 44100) 1 100).envelope
      = 1 - Real.exp (-((100 : ℕ) : ℝ) / (44100 * 1 * 0.001)) :=
  ⟨by norm_num, by norm_num,
    EnvelopeFollower.attack_time_constant 1 100 0.1 44100 100 (by norm_num) (by norm_num)⟩

/-- C30: for an `EnvelopeFollower` with positive times and sample rate (all
three coefficients then lie in `(0, 1)`), after any finite input sequence from
the constructed state the stage-1 envelope and the smoothed envelope are at
least 0 and at most the largest `|input|` seen so far, and so is the value the
last call of `process` returned. -/
theorem EnvelopeFollower.envelope_range (attack release smoothing sr : ℝ) (xs : List ℝ) (x : ℝ)
    (hat : 0 < attack) (hrt : 0 < release) (hst : 0 < smoothing) (hsr : 0 < sr) :
    (0 ≤ (EnvelopeFollower.feedList (EnvelopeFollower.new attack release smoothing sr) xs).envelope ∧
     (EnvelopeFollower.feedList (EnvelopeFollower.new attack release smoothing sr) xs).envelope
       ≤ EnvelopeFollower.maxAbs 0 xs) ∧
    (0 ≤ (EnvelopeFollower.feedList (EnvelopeFollower.new attack release smoothing sr)
        xs).smoothedEnvelope ∧
     (EnvelopeFollower.feedList (EnvelopeFollower.new attack release smoothing sr)
        xs).smoothedEnvelope ≤ EnvelopeFollower.maxAbs 0 xs) ∧
    (0 ≤ (EnvelopeFollower.process
        (EnvelopeFollower.feedList (EnvelopeFollower.new attack release smoothing sr) xs) x).2 ∧
     (EnvelopeFollower.process
        (EnvelopeFollower.feedList (EnvelopeFollower.new attack release smoothing sr) xs) x).2
       ≤ EnvelopeFollower.maxAbs 0 (xs ++ [x])) := by
  obtain ⟨ha, hr, hg⟩ :=
    EnvelopeFollower.new_coefficients attack release smoothing sr hat hrt hst hsr
  have key : ∀ ys : List ℝ,
      (0 ≤ (EnvelopeFollower.feedList (EnvelopeFollower.new attack release smoothing sr)
          ys).envelope ∧
       (EnvelopeFollower.feedList (EnvelopeFollower.new attack release smoothing sr) ys).envelope
         ≤ EnvelopeFollower.maxAbs 0 ys) ∧
      (0 ≤ (EnvelopeFollower.feedList (EnvelopeFollower.new attack release smoothing sr)
          ys).smoothedEnvelope ∧
       (EnvelopeFollower.feedList (EnvelopeFollower.new attack release smoothing sr)
          ys).smoothedEnvelope ≤ EnvelopeFollower.maxAbs 0 ys) :=
    fun ys => EnvelopeFollower.feedList_range ys _ 0 ⟨ha.1.le, ha.2.le⟩ ⟨hr.1.le, hr.2.le⟩
      ⟨hg.1.le, hg.2.le⟩ ⟨le_refl _, le_refl _⟩ ⟨le_refl _, le_refl _⟩
  refine ⟨(key xs).1, (key xs).2, ?_⟩
  have hlast := (key (xs ++ [x])).2
  have e : EnvelopeFollower.feedList (EnvelopeFollower.new attack release smoothing sr) (xs ++ [x])
      = (EnvelopeFollower.process
          (EnvelopeFollower.feedList (EnvelopeFollower.new attack release smoothing sr) xs) x).1 := by
    simp only [EnvelopeFollower.feedList, List.foldl_append, List.foldl_cons, List.foldl_nil]
  rw [e] at hlast
  exact hlast

/-- Witness of C30: the host's envelope follower (1 ms, 100 ms, 0.1 ms at
44100 Hz) after the samples 0.5, -2, 1. -/
theorem EnvelopeFollower.envelope_range_witness :
    (0 : ℝ) < 1 ∧ (0 : ℝ) < 100 ∧ (0 : ℝ) < 0.1 ∧ (0 : ℝ) < 44100 ∧
    (EnvelopeFollower.feedList (EnvelopeFollower.new 1 100 0.1 44100) [0.5, -2, 1]).envelope
      ≤ EnvelopeFollower.maxAbs 0 [0.5, -2, 1] :=
  ⟨by norm_num, by norm_num, by norm_num, by norm_num,
    (EnvelopeFollower.envelope_range 1 100 0.1 44100 [0.5, -2, 1] 0
      (by norm_num) (by norm_num) (by norm_num) (by norm_num)).1.2⟩

/-! ## Compressor: positivity of the linear threshold and knee width -/

/-- The dB-to-linear conversion gives a strictly positive value. -/
theorem Compressor.dBToLinear_pos (dB : ℝ) : 0 < Compressor.dBToLinear dB :=
  Real.rpow_pos_of_pos (by norm_num) _

/-- From -900 dB upwards the power does not underflow: the stored value is the
real power, and it is positive. -/
theorem Compressor.dBToLinearStored_of_ge (dB : ℝ) (h : -900 ≤ dB) :
    Compressor.dBToLinearStored dB = Compressor.dBToLinear dB ∧
    0 < Compressor.dBToLinearStored dB := by
  have h1 : (10 : ℝ) ^ (-45 : ℝ) ≤ (10 : ℝ) ^ (dB / 20) :=
    Real.rpow_le_rpow_of_exponent_le (by norm_num) (by linarith)
  have h2 : (2 : ℝ) ^ (-150 : ℤ) < (10 : ℝ) ^ (-45 : ℝ) := by
    have e : (10 : ℝ) ^ (-45 : ℝ) = ((10 : ℝ) ^ (45 : ℕ))⁻¹ := by
      rw [Real.rpow_neg (by norm_num), ← Real.rpow_natCast]
      norm_num
    rw [e, zpow_neg]
    norm_num
  have h3 : ¬ Real.rpow 10 (dB / 20) ≤ 2 ^ (-150 : ℤ) := not_le.mpr (lt_of_lt_of_le h2 h1)
  have e : Compressor.dBToLinearStored dB = Compressor.dBToLinear dB := by
    rw [Compressor.dBToLinearStored, if_neg h3, Compressor.dBToLinear]
  exact ⟨e, e ▸ Compressor.dBToLinear_pos dB⟩

/-- At -1000 dB the power `10^(-50)` is below half the smallest positive
single-precision number, and 0 is stored. -/
theorem Compressor.dBToLinearStored_underflow : Compressor.dBToLinearStored (-1000) = 0 := by
  have h : Real.rpow 10 ((-1000 : ℝ) / 20) ≤ 2 ^ (-150 : ℤ) := by
    have e : Real.rpow 10 ((-1000 : ℝ) / 20) = ((10 : ℝ) ^ (50 : ℕ))⁻¹ := by
      show (10 : ℝ) ^ ((-1000 : ℝ) / 20) = ((10 : ℝ) ^ (50 : ℕ))⁻¹
      rw [show ((-1000 : ℝ) / 20) = -(50 : ℝ) by norm_num, Real.rpow_neg (by norm_num),
        ← Real.rpow_natCast]
      norm_num
    rw [e, zpow_neg]
    norm_num
  rw [Compressor.dBToLinearStored, if_pos h]

/-- Every compressor object reached with thresholds and knee widths of at least
-900 dB has a positive linear threshold and a positive linear knee width. -/
theorem Compressor.reachableFrom_pos (c : Compressor) (h : Compressor.ReachableFrom (-900) c) :
    0 < c.threshold_ ∧ 0 < c.kneeWidth_ := by
  induction h with
  | init threshold ratio attackTime releaseTime kneeWidth makeupGain sampleRate ht hk =>
    exact ⟨(Compressor.dBToLinearStored_of_ge _ ht).2, (Compressor.dBToLinearStored_of_ge _ hk).2⟩
  | threshold t ht _ ih => exact ⟨(Compressor.dBToLinearStored_of_ge _ ht).2, ih.2⟩
  | ratio t _ ih => exact ih
  | attack t _ ih => exact ih
  | release t _ ih => exact ih
  | knee t ht _ ih => exact ⟨ih.1, (Compressor.dBToLinearStored_of_ge _ ht).2⟩
  | makeup t _ ih => exact ih
  | step x _ ih => exact ih

/-- C29, counterexample.  In single precision `powf(10.0f, -1000 / 20.0f)` is
`10^(-50)`, below half the smallest positive number, and is stored as 0:
`setThreshold(-1000)` and `setKneeWidth(-1000)` on the host's compressor store
the linear threshold 0 and the linear knee width 0, and so does the constructor
`Compressor(-1000, 4, 0.01, 0.1, -1000, 12, 44100)`.  The first call
`process(1)` on that object moves the envelope above `threshold_ + kneeWidth_ /
2 = 0`, the branch that divides the envelope by `threshold_`. -/
theorem Compressor.threshold_knee_underflow :
    (Compressor.setThresholdStored (Compressor.newStored (-20) 4 0.01 0.1 10 12 44100)
      (-1000)).threshold_ = 0 ∧
    (Compressor.setKneeWidthStored (Compressor.newStored (-20) 4 0.01 0.1 10 12 44100)
      (-1000)).kneeWidth_ = 0 ∧
    (Compressor.newStored (-1000) 4 0.01 0.1 (-1000) 12 44100).threshold_ = 0 ∧
    (Compressor.newStored (-1000) 4 0.01 0.1 (-1000) 12 44100).kneeWidth_ = 0 ∧
    ¬ (Compressor.nextEnvelope (Compressor.newStored (-1000) 4 0.01 0.1 (-1000) 12 44100) 1
        ≤ (Compressor.newStored (-1000) 4 0.01 0.1 (-1000) 12 44100).threshold_
          - (Compressor.newStored (-1000) 4 0.01 0.1 (-1000) 12 44100).kneeWidth_ / 2) ∧
    Compressor.nextEnvelope (Compressor.newStored (-1000) 4 0.01 0.1 (-1000) 12 44100) 1
      > (Compressor.newStored (-1000) 4 0.01 0.1 (-1000) 12 44100).threshold_
        + (Compressor.newStored (-1000) 4 0.01 0.1 (-1000) 12 44100).kneeWidth_ / 2 := by
  have u := Compressor.dBToLinearStored_underflow
  have hT : (Compressor.newStored (-1000) 4 0.01 0.1 (-1000) 12 44100).threshold_ = 0 := u
  have hK : (Compressor.newStored (-1000) 4 0.01 0.1 (-1000) 12 44100).kneeWidth_ = 0 := u
  have hE : Compressor.nextEnvelope (Compressor.newStored (-1000) 4 0.01 0.1 (-1000) 12 44100) 1
      = 1 - Real.exp (-1 / (0.01 * 44100)) := by
    simp [Compressor.nextEnvelope, Compressor.newStored, Compressor.updateCoefficients]
  refine ⟨u, u, hT, hK, ?_, ?_⟩
  · rw [hT, hK, hE]
    norm_num
  · rw [hT, hK, hE]
    norm_num

/-- C29 as amended: for thresholds and knee widths of at least -900 dB, given
through the constructor or through `setThreshold` / `setKneeWidth`, the power
`10^(dB/20)` does not underflow in single precision, and in every state the
object can reach the stored linear threshold and knee width are strictly
positive; the divisors `threshold_` and `kneeWidth_` of `process` are then not
0 and the knee region `[T - K/2, T + K/2]` has positive width, also for a knee
of 0 dB (linear width 1). -/
theorem Compressor.threshold_knee_positive (c : Compressor)
    (h : Compressor.ReachableFrom (-900) c) :
    (0 < c.threshold_ ∧ 0 < c.kneeWidth_ ∧ c.threshold_ ≠ 0 ∧ c.kneeWidth_ ≠ 0 ∧
      c.threshold_ - c.kneeWidth_ / 2 < c.threshold_ + c.kneeWidth_ / 2) ∧
    (∀ dB : ℝ, -900 ≤ dB →
      Compressor.dBToLinearStored dB = Compressor.dBToLinear dB ∧
      0 < (Compressor.setThresholdStored c dB).threshold_ ∧
      0 < (Compressor.setKneeWidthStored c dB).kneeWidth_) ∧
    (Compressor.setKneeWidthStored c 0).kneeWidth_ = 1 := by
  obtain ⟨hT, hK⟩ := Compressor.reachableFrom_pos c h
  refine ⟨⟨hT, hK, hT.ne', hK.ne', by linarith⟩, ?_, ?_⟩
  · intro dB hdB
    obtain ⟨e, p⟩ := Compressor.dBToLinearStored_of_ge dB hdB
    exact ⟨e, p, p⟩
  · have e := (Compressor.dBToLinearStored_of_ge 0 (by norm_num)).1
    have z : (Compressor.setKneeWidthStored c 0).kneeWidth_ = Compressor.dBToLinearStored 0 := rfl
    rw [z, e]
    exact Compressor.dBToLinear_zero

/-- Witness of the amended C29: the host's compressor (-20 dB, ratio 4, knee
10 dB) after a `setThreshold(-60)` and one `process` call. -/
theorem Compressor.threshold_knee_positive_witness :
    Compressor.ReachableFrom (-900)
      (Compressor.process
        (Compressor.setThresholdStored (Compressor.newStored (-20) 4 0.01 0.1 10 12 44100)
          (-60)) 0.5).1 ∧
    0 < (Compressor.process
        (Compressor.setThresholdStored (Compressor.newStored (-20) 4 0.01 0.1 10 12 44100)
          (-60)) 0.5).1.threshold_ :=
  ⟨Compressor.ReachableFrom.step 0.5
      (Compressor.ReachableFrom.threshold (-60) (by norm_num)
        (Compressor.ReachableFrom.init (-20) 4 0.01 0.1 10 12 44100 (by norm_num)
          (by norm_num))),
    (Compressor.threshold_knee_positive _
      (Compressor.ReachableFrom.step 0.5
        (Compressor.ReachableFrom.threshold (-60) (by norm_num)
          (Compressor.ReachableFrom.init (-20) 4 0.01 0.1 10 12 44100 (by norm_num)
            (by norm_num))))).1.1⟩

/-! ## PitchTracker: indices read after the threshold loop -/

/-- Downsampling by 2 keeps every second sample: the length is halved, rounded
up. -/
theorem PitchTracker.downsample_length :
    ∀ (n : ℕ) (l : List ℚ), l.length ≤ n →
      (PitchTracker.downsample l 2).length = (l.length + 1) / 2 := by
  intro n
  induction n with
  | zero =>
    intro l hl
    have : l = [] := List.length_eq_zero.mp (by omega)
    subst this
    simp [PitchTracker.downsample]
  | succ n ih =>
    intro l hl
    cases l with
    | nil => simp [PitchTracker.downsample]
    | cons x xs =>
      rw [PitchTracker.downsample]
      have hd := List.length_drop (2 - 1) xs
      simp only [List.length_cons] at hl ⊢
      rw [ih (xs.drop (2 - 1)) (by omega), hd]
      omega

/-- C27, the code at the failing input.  A freshly constructed
`PitchTracker(44100, 512)`, whose capture block is silent: the downsampled
block and the array `cumMeanNormalizedDiff` have 256 entries, no lag is below
the threshold, `tauMin` keeps its initial 0, the test `tauMin < size - 1` of the
interpolation block holds, and the block reads `cumMeanNormalizedDiff` at the
indices `-1, 0, 1`: index `-1` is outside `[0, 256)`. -/
theorem PitchTracker.interpolation_reads_before_array :
    (PitchTracker.processCMND (PitchTracker.new 44100 512)).length = 256 ∧
    PitchTracker.tauMin (PitchTracker.processCMND (PitchTracker.new 44100 512)) = 0 ∧
    PitchTracker.processReadIndices (PitchTracker.new 44100 512) = [-1, 0, 1, 0] ∧
    (-1 : ℤ) ∈ PitchTracker.processReadIndices (PitchTracker.new 44100 512) ∧
    ¬ ((0 : ℤ) ≤ -1 ∧ (-1 : ℤ)
        < ((PitchTracker.processCMND (PitchTracker.new 44100 512)).length : ℤ)) := by
  have hlen : (PitchTracker.processCMND (PitchTracker.new 44100 512)).length = 256 := by
    rw [PitchTracker.processCMND, PitchTracker.cmnd_length,
      PitchTracker.downsample_length _ _ (le_refl _)]
    have hb : (PitchTracker.new 44100 512).gInputBuffer = List.replicate 512 0 := rfl
    rw [hb, List.length_replicate]
  have hz : ∀ v ∈ PitchTracker.downsample (PitchTracker.new 44100 512).gInputBuffer 2,
      v = 0 := by
    refine PitchTracker.downsample_zero 2 _ _ (le_refl _) ?_
    intro v hv
    exact List.eq_of_mem_replicate hv
  have htau : PitchTracker.tauMin (PitchTracker.processCMND (PitchTracker.new 44100 512))
      = 0 := by
    refine PitchTracker.tauMin_none _ ?_
    intro t h1 h2
    have h2' := h2
    rw [PitchTracker.processCMND, PitchTracker.cmnd_length] at h2'
    rw [PitchTracker.processCMND, PitchTracker.cmnd_getD _ t h2',
      PitchTracker.cmndAt_zero_block _ hz t h1 h2']
    rfl
  have hidx : PitchTracker.processReadIndices (PitchTracker.new 44100 512) = [-1, 0, 1, 0] := by
    simp only [PitchTracker.processReadIndices, PitchTracker.cmndReadIndices, htau, hlen]
    norm_num
  refine ⟨hlen, htau, hidx, ?_, ?_⟩
  · rw [hidx]; simp
  · intro h; exact absurd h.1 (by norm_num)

/-! ## Morph: pointers and indices under any interleaving of calls -/

namespace Morph

theorem render_capture_pointers (m : Morph) (a b : ℝ) :
    (render m a b).1.gInputBufferPointerGuitar
      = (if m.gInputBufferPointerGuitar + 1 ≥ m.gBufferSize then 0
          else m.gInputBufferPointerGuitar + 1) ∧
    (render m a b).1.gInputBufferPointerSample
      = (if m.gInputBufferPointerSample + 1 ≥ m.gBufferSize then 0
          else m.gInputBufferPointerSample + 1) := ⟨rfl, rfl⟩

theorem process_fft_capture_pointers (lib : FftLib) (m : Morph) :
    (process_fft lib m).gInputBufferPointerGuitar = m.gInputBufferPointerGuitar ∧
    (process_fft lib m).gInputBufferPointerSample = m.gInputBufferPointerSample := by
  simp only [process_fft, overlapAdd, inverse, synthesis, morphing, analysis, transform,
    windowing, and_self]

/-- All four pointers stay inside the buffer, whatever the order of the
calls. -/
theorem pointers_run (lib : FftLib) (F h B : ℤ) (hh : 1 ≤ h) (hB : h < B)
    (calls : List Call) :
    ∀ m : Morph, m.gHopSize = h → m.gBufferSize = B → m.gFftSize = F →
      InBuffer m m.gInputBufferPointerGuitar → InBuffer m m.gInputBufferPointerSample →
      InBuffer m m.gOutputBufferReadPointer → InBuffer m m.gOutputBufferWritePointer →
      (run lib m calls).gHopSize = h ∧ (run lib m calls).gBufferSize = B ∧
      (run lib m calls).gFftSize = F ∧
      InBuffer (run lib m calls) (run lib m calls).gInputBufferPointerGuitar ∧
      InBuffer (run lib m calls) (run lib m calls).gInputBufferPointerSample ∧
      InBuffer (run lib m calls) (run lib m calls).gOutputBufferReadPointer ∧
      InBuffer (run lib m calls) (run lib m calls).gOutputBufferWritePointer := by
  induction calls with
  | nil => exact fun m e1 e2 e3 g s r w => ⟨e1, e2, e3, g, s, r, w⟩
  | cons c rest ih =>
    intro m e1 e2 e3 g s r w
    simp only [InBuffer] at g s r w ih ⊢
    cases c with
    | render a b =>
      obtain ⟨p1, p2, p3, p4, p5⟩ := render_pointers m a b
      obtain ⟨q1, q2⟩ := render_capture_pointers m a b
      rw [run_render]
      refine ih (render m a b).1 (p4.trans e1) (p5.trans e2) (p3.trans e3) ?_ ?_ ?_ ?_
      · rw [q1, p5]; split_ifs <;> omega
      · rw [q2, p5]; split_ifs <;> omega
      · rw [p2, p5]; split_ifs <;> omega
      · rw [p1, p5]; exact w
    | process_fft =>
      have hp := process_fft_pointers lib m
      have p1 := hp.1
      have p2 := hp.2.1
      have p3 := hp.2.2.1
      have p4 := hp.2.2.2.1
      have p5 := hp.2.2.2.2
      obtain ⟨q1, q2⟩ := process_fft_capture_pointers lib m
      have hw := tmod_wrap m.gOutputBufferWritePointer h B w.1 (by omega) (by omega) (by omega)
      rw [run_process_fft]
      refine ih (process_fft lib m) (p4.trans e1) (p5.trans e2) (p3.trans e3) ?_ ?_ ?_ ?_
      · rw [q1, p5]; exact g
      · rw [q2, p5]; exact s
      · rw [p2, p5]; exact r
      · rw [p1, p5, e1, e2, hw]; split_ifs <;> omega

/-- The circular index of `process_fft` is inside the buffer when the pointer
is and the FFT size does not exceed the buffer size. -/
theorem circularBufferIndex_inBuffer (m : Morph) (pointer n : ℤ) (hp : InBuffer m pointer)
    (hn0 : 0 ≤ n) (hFB : m.gFftSize ≤ m.gBufferSize) :
    InBuffer m (circularBufferIndex m pointer n) := by
  simp only [InBuffer] at hp ⊢
  have hB : 0 < m.gBufferSize := by omega
  have hnn : 0 ≤ pointer + n - m.gFftSize + m.gBufferSize := by omega
  rw [circularBufferIndex, Int.tmod_eq_emod hnn hB.le]
  exact ⟨Int.emod_nonneg _ hB.ne', Int.emod_lt_of_pos _ hB⟩

end Morph

/-- C28: for every configuration with `0 ≤ fftSize ≤ bufferSize`, `1 ≤ hopSize`
and `fftSize + 2 * hopSize < bufferSize`, every state reached from the
constructed object (set up or not) by any sequence of `render` and
`process_fft` calls has its two capture write indices, its output read pointer
and its output write pointer in `[0, bufferSize)`; these are the indices
`render` uses, and every index `(pointer + n - fftSize + bufferSize) %
bufferSize`, `0 ≤ n < fftSize`, that `process_fft` computes from them lies in
`[0, bufferSize)` as well. -/
theorem Morph.pointers_in_range (lib : FftLib) (F h B : ℤ) (calls : List Morph.Call)
    (hF : 0 ≤ F) (hh : 1 ≤ h) (hFB : F ≤ B) (hB : F + 2 * h < B) :
    (Morph.InBuffer (Morph.run lib (Morph.new F h B) calls)
        (Morph.run lib (Morph.new F h B) calls).gInputBufferPointerGuitar ∧
     Morph.InBuffer (Morph.run lib (Morph.new F h B) calls)
        (Morph.run lib (Morph.new F h B) calls).gInputBufferPointerSample ∧
     Morph.InBuffer (Morph.run lib (Morph.new F h B) calls)
        (Morph.run lib (Morph.new F h B) calls).gOutputBufferReadPointer ∧
     Morph.InBuffer (Morph.run lib (Morph.new F h B) calls)
        (Morph.run lib (Morph.new F h B) calls).gOutputBufferWritePointer ∧
     ∀ n, 0 ≤ n → n < F →
       Morph.InBuffer (Morph.run lib (Morph.new F h B) calls)
          (Morph.circularBufferIndex (Morph.run lib (Morph.new F h B) calls)
            (Morph.run lib (Morph.new F h B) calls).gInputBufferPointerGuitar n) ∧
       Morph.InBuffer (Morph.run lib (Morph.new F h B) calls)
          (Morph.circularBufferIndex (Morph.run lib (Morph.new F h B) calls)
            (Morph.run lib (Morph.new F h B) calls).gInputBufferPointerSample n) ∧
       Morph.InBuffer (Morph.run lib (Morph.new F h B) calls)
          (Morph.circularBufferIndex (Morph.run lib (Morph.new F h B) calls)
            (Morph.run lib (Morph.new F h B) calls).gOutputBufferWritePointer n)) ∧
    (Morph.InBuffer (Morph.run lib (Morph.new F h B).setup calls)
        (Morph.run lib (Morph.new F h B).setup calls).gInputBufferPointerGuitar ∧
     Morph.InBuffer (Morph.run lib (Morph.new F h B).setup calls)
        (Morph.run lib (Morph.new F h B).setup calls).gInputBufferPointerSample ∧
     Morph.InBuffer (Morph.run lib (Morph.new F h B).setup calls)
        (Morph.run lib (Morph.new F h B).setup calls).gOutputBufferReadPointer ∧
     Morph.InBuffer (Morph.run lib (Morph.new F h B).setup calls)
        (Morph.run lib (Morph.new F h B).setup calls).gOutputBufferWritePointer ∧
     ∀ n, 0 ≤ n → n < F →
       Morph.InBuffer (Morph.run lib (Morph.new F h B).setup calls)
          (Morph.circularBufferIndex (Morph.run lib (Morph.new F h B).setup calls)
            (Morph.run lib (Morph.new F h B).setup calls).gInputBufferPointerGuitar n) ∧
       Morph.InBuffer (Morph.run lib (Morph.new F h B).setup calls)
          (Morph.circularBufferIndex (Morph.run lib (Morph.new F h B).setup calls)
            (Morph.run lib (Morph.new F h B).setup calls).gInputBufferPointerSample n) ∧
       Morph.InBuffer (Morph.run lib (Morph.new F h B).setup calls)
          (Morph.circularBufferIndex (Morph.run lib (Morph.new F h B).setup calls)
            (Morph.run lib (Morph.new F h B).setup calls).gOutputBufferWritePointer n)) := by
  have key : ∀ m0 : Morph, m0.gHopSize = h → m0.gBufferSize = B → m0.gFftSize = F →
      m0.gInputBufferPointerGuitar = 0 → m0.gInputBufferPointerSample = 0 →
      m0.gOutputBufferReadPointer = 0 → m0.gOutputBufferWritePointer = F + 2 * h →
      Morph.InBuffer (Morph.run lib m0 calls) (Morph.run lib m0 calls).gInputBufferPointerGuitar ∧
      Morph.InBuffer (Morph.run lib m0 calls) (Morph.run lib m0 calls).gInputBufferPointerSample ∧
      Morph.InBuffer (Morph.run lib m0 calls) (Morph.run lib m0 calls).gOutputBufferReadPointer ∧
      Morph.InBuffer (Morph.run lib m0 calls) (Morph.run lib m0 calls).gOutputBufferWritePointer ∧
      ∀ n, 0 ≤ n → n < F →
        Morph.InBuffer (Morph.run lib m0 calls)
          (Morph.circularBufferIndex (Morph.run lib m0 calls)
            (Morph.run lib m0 calls).gInputBufferPointerGuitar n) ∧
        Morph.InBuffer (Morph.run lib m0 calls)
          (Morph.circularBufferIndex (Morph.run lib m0 calls)
            (Morph.run lib m0 calls).gInputBufferPointerSample n) ∧
        Morph.InBuffer (Morph.run lib m0 calls)
          (Morph.circularBufferIndex (Morph.run lib m0 calls)
            (Morph.run lib m0 calls).gOutputBufferWritePointer n) := by
    intro m0 e1 e2 e3 g0 s0 r0 w0
    obtain ⟨f1, f2, f3, g, s, r, w⟩ := Morph.pointers_run lib F h B hh (by omega) calls m0 e1 e2 e3
      (by rw [Morph.InBuffer, g0, e2]; omega) (by rw [Morph.InBuffer, s0, e2]; omega)
      (by rw [Morph.InBuffer, r0, e2]; omega) (by rw [Morph.InBuffer, w0, e2]; omega)
    have hle : (Morph.run lib m0 calls).gFftSize ≤ (Morph.run lib m0 calls).gBufferSize := by
      rw [f3, f2]; exact hFB
    exact ⟨g, s, r, w, fun n hn0 _ =>
      ⟨Morph.circularBufferIndex_inBuffer _ _ n g hn0 hle,
        Morph.circularBufferIndex_inBuffer _ _ n s hn0 hle,
        Morph.circularBufferIndex_inBuffer _ _ n w hn0 hle⟩⟩
  exact ⟨key _ rfl rfl rfl rfl rfl rfl rfl, key _ rfl rfl rfl rfl rfl rfl rfl⟩

/-- Witness of C28: FFT size 4, hop size 2, buffer size 16 and the calls
`process_fft, render, render, render, process_fft`. -/
theorem Morph.pointers_in_range_witness :
    (0 : ℤ) ≤ 4 ∧ (1 : ℤ) ≤ 2 ∧ (4 : ℤ) ≤ 16 ∧ (4 : ℤ) + 2 * 2 < 16 ∧
    Morph.InBuffer
      (Morph.run FftLib.dft (Morph.new 4 2 16).setup
        [Morph.Call.process_fft, Morph.Call.render 1 0, Morph.Call.render 2 0,
          Morph.Call.render 3 0, Morph.Call.process_fft])
      (Morph.run FftLib.dft (Morph.new 4 2 16).setup
        [Morph.Call.process_fft, Morph.Call.render 1 0, Morph.Call.render 2 0,
          Morph.Call.render 3 0, Morph.Call.process_fft]).gOutputBufferWritePointer :=
  ⟨by norm_num, by norm_num, by norm_num, by norm_num,
    (Morph.pointers_in_range FftLib.dft 4 2 16
      [Morph.Call.process_fft, Morph.Call.render 1 0, Morph.Call.render 2 0,
        Morph.Call.render 3 0, Morph.Call.process_fft]
      (by norm_num) (by norm_num) (by norm_num) (by norm_num)).2.2.2.2.1⟩

/-! ## Morph: windows and overlap-add gain -/

/-- Entries 0 and 3 of the Hann window of size 4 computed by `setup`. -/
theorem Morph.hann_four_ends :
    (Morph.new 4 2 16).setup.gAnalysisWindowBuffer 0 = 0 ∧
    (Morph.new 4 2 16).setup.gAnalysisWindowBuffer 3 = 0 := by
  constructor
  · simp only [Morph.setup, Morph.hannWindow, Morph.new]
    norm_num
  · simp only [Morph.setup, Morph.hannWindow, Morph.new]
    norm_num

/-- Every entry of the window computed by `setup` lies in `[0, 1]`. -/
theorem Morph.hannWindow_range (m : Morph) (n : ℤ) :
    0 ≤ Morph.hannWindow m n ∧ Morph.hannWindow m n ≤ 1 := by
  unfold Morph.hannWindow
  split_ifs with h
  · have h1 := Real.neg_one_le_cos (2.0 * Real.pi * n / ((m.gFftSize - 1 : ℤ) : ℝ))
    have h2 := Real.cos_le_one (2.0 * Real.pi * n / ((m.gFftSize - 1 : ℤ) : ℝ))
    generalize Real.cos (2.0 * Real.pi * n / ((m.gFftSize - 1 : ℤ) : ℝ)) = c at h1 h2 ⊢
    constructor <;> norm_num <;> linarith
  · exact ⟨le_refl _, zero_le_one⟩

/-- C25, the code at the failing input.  `setup` builds the same window for
analysis and synthesis, `w[n] = 0.5 * (1 - cos(2π n / (fftSize - 1)))`.  For FFT
size 4 and hop size 2 the window is `[0, 3/4, 3/4, 0]` and the scaled
overlap-add gain `0.5 * (w[n]^2 + w[n + 2]^2)` is `9/32` at `n = 0` and at
`n = 1`, not 1.  For the host's FFT size 512 and hop size 256 (buffer size 8192)
`w[0] = 0` and the gain at `n = 0` is at most `1/2`. -/
theorem Morph.scale_factor_does_not_compensate :
    (∀ n, (Morph.new 4 2 16).setup.gSynthesisWindowBuffer n
      = (Morph.new 4 2 16).setup.gAnalysisWindowBuffer n) ∧
    (Morph.new 4 2 16).setup.gAnalysisWindowBuffer 0 = 0 ∧
    (Morph.new 4 2 16).setup.gAnalysisWindowBuffer 1 = 3 / 4 ∧
    (Morph.new 4 2 16).setup.gAnalysisWindowBuffer 2 = 3 / 4 ∧
    (Morph.new 4 2 16).setup.gAnalysisWindowBuffer 3 = 0 ∧
    Morph.specOverlapGain (Morph.new 4 2 16).setup 0 = 9 / 32 ∧
    Morph.specOverlapGain (Morph.new 4 2 16).setup 1 = 9 / 32 ∧
    Morph.specOverlapGain (Morph.new 512 256 8192).setup 0 ≤ 1 / 2 := by
  obtain ⟨w0, w3⟩ := Morph.hann_four_ends
  have w1 := Morph.hann_four_one
  have w2 := Morph.hann_four_two
  have hs : ∀ n, (Morph.new 4 2 16).setup.gSynthesisWindowBuffer n
      = (Morph.new 4 2 16).setup.gAnalysisWindowBuffer n := fun _ => rfl
  have hsc : (Morph.new 4 2 16).setup.gScaleFactor = 1 / 2 := by
    simp only [Morph.setup, Morph.new]; norm_num
  have hF : (Morph.new 4 2 16).setup.gFftSize.tdiv 2 = 2 := by decide
  refine ⟨hs, w0, w1, w2, w3, ?_, ?_, ?_⟩
  · simp only [Morph.specOverlapGain, hF, hs, hsc]
    norm_num
    rw [w0, w2]; norm_num
  · simp only [Morph.specOverlapGain, hF, hs, hsc]
    norm_num
    rw [w1, w3]; norm_num
  · have hsc' : (Morph.new 512 256 8192).setup.gScaleFactor = 1 / 2 := by
      simp only [Morph.setup, Morph.new]; norm_num
    have hF' : (Morph.new 512 256 8192).setup.gFftSize.tdiv 2 = 256 := by decide
    have hs' : ∀ n, (Morph.new 512 256 8192).setup.gSynthesisWindowBuffer n
        = (Morph.new 512 256 8192).setup.gAnalysisWindowBuffer n := fun _ => rfl
    have hw : ∀ n, (Morph.new 512 256 8192).setup.gAnalysisWindowBuffer n
        = Morph.hannWindow (Morph.new 512 256 8192) n := fun _ => rfl
    have h0 : Morph.hannWindow (Morph.new 512 256 8192) 0 = 0 := by
      simp only [Morph.hannWindow, Morph.new]
      norm_num
    obtain ⟨l, u⟩ := Morph.hannWindow_range (Morph.new 512 256 8192) 256
    simp only [Morph.specOverlapGain, hF', hs', hsc', hw]
    norm_num
    rw [h0]
    nlinarith

/-! ## Morph: the synthesis phase accumulator -/

namespace Morph

/-- The synthesis frequency the morphing loop computes for a bin of the loop
range: the bin number plus the guitar stream's deviation. -/
theorem morphing_synthesisFrequencies (lib : FftLib) (m : Morph) (n : ℤ) (h0 : 0 ≤ n)
    (h1 : n ≤ halfSize m) :
    (morphing (analysis lib (transform lib (windowing m)))).synthesisFrequencies n
      = (n : ℝ) + binDeviationGuitar (transform lib (windowing m)) n := by
  have hin : 0 ≤ n ∧ n ≤ halfSize (analysis lib (transform lib (windowing m))) := ⟨h0, h1⟩
  have hin' : 0 ≤ n ∧ n ≤ halfSize (transform lib (windowing m)) := ⟨h0, h1⟩
  have hG : (analysis lib (transform lib (windowing m))).analysisFrequenciesGuitar n
      = (n : ℝ) + binDeviationGuitar (transform lib (windowing m)) n := by
    simp only [analysis, if_pos hin']
  have hS : (analysis lib (transform lib (windowing m))).analysisFrequenciesSample n
      = (n : ℝ) + binDeviationGuitar (transform lib (windowing m)) n := by
    simp only [analysis, if_pos hin']
    rfl
  have hm : (morphing (analysis lib (transform lib (windowing m)))).synthesisFrequencies n
      = (1 - (analysis lib (transform lib (windowing m))).gAlpha)
          * (analysis lib (transform lib (windowing m))).analysisFrequenciesGuitar n
        + (analysis lib (transform lib (windowing m))).gAlpha
          * (analysis lib (transform lib (windowing m))).analysisFrequenciesSample n := by
    simp only [morphing]
    rw [if_pos hin]
  rw [hm, hG, hS]
  ring

/-- The synthesis frequency of a bin of the loop range after `process_fft`: the
bin number plus the guitar stream's deviation, whatever the morph amount. -/
theorem process_fft_synthesisFrequencies (lib : FftLib) (m : Morph) (n : ℤ) (h0 : 0 ≤ n)
    (h1 : n ≤ halfSize m) :
    (process_fft lib m).synthesisFrequencies n
      = (n : ℝ) + binDeviationGuitar (transform lib (windowing m)) n := by
  obtain ⟨s1, _⟩ := process_fft_morphing lib m
  rw [s1]
  exact morphing_synthesisFrequencies lib m n h0 h1

/-- The output phase stored by `process_fft` for a bin of the loop range. -/
theorem process_fft_lastOutputPhases (lib : FftLib) (m : Morph) (n : ℤ) (h0 : 0 ≤ n)
    (h1 : n ≤ halfSize m) :
    (process_fft lib m).lastOutputPhases n
      = wrapPhase (m.lastOutputPhases n
          + (binDeviationGuitar (transform lib (windowing m)) n * 2.0 * Real.pi
                * (m.gHopSize : ℝ) / (m.gFftSize : ℝ)
              + binCentreFrequency m n * (m.gHopSize : ℝ))) := by
  have e : (process_fft lib m).lastOutputPhases
      = (synthesis (morphing (analysis lib (transform lib (windowing m))))).lastOutputPhases := by
    simp only [process_fft, overlapAdd, inverse]
  have hin : 0 ≤ n ∧ n ≤ halfSize (analysis lib (transform lib (windowing m))) := ⟨h0, h1⟩
  have hin2 : 0 ≤ n ∧ n ≤ halfSize (morphing (analysis lib (transform lib (windowing m)))) :=
    ⟨h0, h1⟩
  have hin' : 0 ≤ n ∧ n ≤ halfSize (transform lib (windowing m)) := ⟨h0, h1⟩
  have hf := morphing_synthesisFrequencies lib m n h0 h1
  have hl : (morphing (analysis lib (transform lib (windowing m)))).lastOutputPhases
      = m.lastOutputPhases := rfl
  have hh : (morphing (analysis lib (transform lib (windowing m)))).gHopSize = m.gHopSize := rfl
  have hF : (morphing (analysis lib (transform lib (windowing m)))).gFftSize = m.gFftSize := rfl
  rw [e]
  simp only [synthesis, if_pos hin2, outPhase, hf, hl, hh, hF, binCentreFrequency]
  congr 2
  ring

/-- The guitar phase stored by `process_fft` for a bin of the loop range. -/
theorem process_fft_lastInputPhasesGuitar (lib : FftLib) (m : Morph) (n : ℤ) (h0 : 0 ≤ n)
    (h1 : n ≤ halfSize m) :
    (process_fft lib m).lastInputPhasesGuitar n
      = phaseGuitar (transform lib (windowing m)) n := by
  have e : (process_fft lib m).lastInputPhasesGuitar
      = (analysis lib (transform lib (windowing m))).lastInputPhasesGuitar := by
    simp only [process_fft, overlapAdd, inverse, synthesis, morphing]
  have hin' : 0 ≤ n ∧ n ≤ halfSize (transform lib (windowing m)) := ⟨h0, h1⟩
  rw [e]
  simp only [analysis, if_pos hin']

/-- One pass advances the stored output phase of a bin by the advance of the
guitar phase of that bin, up to whole turns. -/
theorem process_fft_phase_advance (lib : FftLib) (m : Morph) (n : ℤ) (h0 : 0 ≤ n)
    (h1 : n ≤ halfSize m) (hF : m.gFftSize ≠ 0) (hh : m.gHopSize ≠ 0) :
    ∃ j : ℤ, (process_fft lib m).lastOutputPhases n
      = m.lastOutputPhases n
        + (phaseGuitar (transform lib (windowing m)) n - m.lastInputPhasesGuitar n)
        + j * (2 * Real.pi) := by
  have hFr : (m.gFftSize : ℝ) ≠ 0 := by exact_mod_cast hF
  have hhr : (m.gHopSize : ℝ) ≠ 0 := by exact_mod_cast hh
  have hpi := Real.pi_pos
  rw [process_fft_lastOutputPhases lib m n h0 h1]
  obtain ⟨j1, e1, _, _⟩ := wrapPhase_shift (m.lastOutputPhases n
          + (binDeviationGuitar (transform lib (windowing m)) n * 2.0 * Real.pi
                * (m.gHopSize : ℝ) / (m.gFftSize : ℝ)
              + binCentreFrequency m n * (m.gHopSize : ℝ)))
  obtain ⟨j2, e2, _, _⟩ := wrapPhase_shift
    ((phaseGuitar (transform lib (windowing m)) n - m.lastInputPhasesGuitar n)
      - binCentreFrequency m n * (m.gHopSize : ℝ))
  have hd : binDeviationGuitar (transform lib (windowing m)) n * 2.0 * Real.pi
        * (m.gHopSize : ℝ) / (m.gFftSize : ℝ)
      = wrapPhase ((phaseGuitar (transform lib (windowing m)) n - m.lastInputPhasesGuitar n)
          - binCentreFrequency m n * (m.gHopSize : ℝ)) := by
    have hu : binDeviationGuitar (transform lib (windowing m)) n
        = wrapPhase ((phaseGuitar (transform lib (windowing m)) n - m.lastInputPhasesGuitar n)
            - binCentreFrequency m n * (m.gHopSize : ℝ))
          * (m.gFftSize : ℝ) / (m.gHopSize : ℝ) / (2.0 * Real.pi) := rfl
    have h2 : (2.0 : ℝ) = 2 := by norm_num
    rw [hu, h2]
    field_simp
    ring
  refine ⟨j1 + j2, ?_⟩
  rw [e1, hd, e2]
  push_cast
  ring

/-- Neither `render` nor `process_fft` changes the morph amount. -/
theorem alpha_run (lib : FftLib) (calls : List Call) :
    ∀ m : Morph, (run lib m calls).gAlpha = m.gAlpha := by
  induction calls with
  | nil => exact fun m => rfl
  | cons c rest ih =>
    intro m
    cases c with
    | render a b =>
      rw [run_render, ih]
      rfl
    | process_fft =>
      have hp : (process_fft lib m).gAlpha = m.gAlpha := by
        simp only [process_fft, overlapAdd, inverse, synthesis, morphing, analysis, transform,
          windowing]
      rw [run_process_fft, ih, hp]

/-- From a state whose stored output phases agree with the stored guitar phases
up to whole turns, every sequence of calls leads to such a state. -/
theorem phaseSync_run (lib : FftLib) (F h : ℤ) (hF : F ≠ 0) (hh : h ≠ 0)
    (calls : List Call) :
    ∀ m : Morph, m.gFftSize = F → m.gHopSize = h → PhaseSync m →
      (run lib m calls).gFftSize = F ∧ (run lib m calls).gHopSize = h ∧
      PhaseSync (run lib m calls) := by
  induction calls with
  | nil => exact fun m e1 e2 hs => ⟨e1, e2, hs⟩
  | cons c rest ih =>
    intro m e1 e2 hs
    cases c with
    | render a b =>
      rw [run_render]
      exact ih (render m a b).1 e1 e2 hs
    | process_fft =>
      have hp := process_fft_pointers lib m
      have p3 := hp.2.2.1
      have p4 := hp.2.2.2.1
      rw [run_process_fft]
      refine ih (process_fft lib m) (p3.trans e1) (p4.trans e2) ?_
      intro n h0 h1
      have hhalf : halfSize (process_fft lib m) = halfSize m := by
        rw [halfSize, halfSize, p3]
      rw [hhalf] at h1
      obtain ⟨j0, e0⟩ := hs n h0 h1
      obtain ⟨j, e⟩ := process_fft_phase_advance lib m n h0 h1 (e1 ▸ hF) (e2 ▸ hh)
      refine ⟨j0 + j, ?_⟩
      rw [e, e0, process_fft_lastInputPhasesGuitar lib m n h0 h1]
      push_cast
      ring

end Morph

/-! ## Morph: the sample stream without effect on the phases, and the round trip at morph amount 0 -/

namespace Morph

/-- The synthesis magnitude of a bin of the loop range after `process_fft`. -/
theorem process_fft_synthesisMagnitudes (lib : FftLib) (m : Morph) (n : ℤ) (h0 : 0 ≤ n)
    (h1 : n ≤ halfSize m) :
    (process_fft lib m).synthesisMagnitudes n
      = (1 - m.gAlpha) * (process_fft lib m).analysisMagnitudesGuitar n
        + m.gAlpha * (process_fft lib m).analysisMagnitudesSample n := by
  obtain ⟨_, _, a3, a4⟩ := process_fft_analysis lib m
  obtain ⟨_, s2⟩ := process_fft_morphing lib m
  have hin : 0 ≤ n ∧ n ≤ halfSize (analysis lib (transform lib (windowing m))) := ⟨h0, h1⟩
  have hα : (analysis lib (transform lib (windowing m))).gAlpha = m.gAlpha := rfl
  rw [s2, a3, a4]
  simp only [morphing, if_pos hin, hα]

/-- The guitar magnitude recorded by `process_fft` for a bin of the loop range:
the amplitude of that bin of the guitar transform. -/
theorem process_fft_analysisMagnitudesGuitar (lib : FftLib) (m : Morph) (n : ℤ) (h0 : 0 ≤ n)
    (h1 : n ≤ halfSize m) :
    (process_fft lib m).analysisMagnitudesGuitar n
      = lib.fda (transform lib (windowing m)).gFftGuitar_fdr
          (transform lib (windowing m)).gFftGuitar_fdi n := by
  obtain ⟨_, _, a3, _⟩ := process_fft_analysis lib m
  have hin : 0 ≤ n ∧ n ≤ halfSize (transform lib (windowing m)) := ⟨h0, h1⟩
  rw [a3]
  simp only [analysis, if_pos hin]

/-- The constructed object, set up, with the morph amount set by the host, has
its output phase memory in step with the guitar phase memory: both are zero. -/
theorem phaseSync_initial (F h B : ℤ) (a : ℝ) : PhaseSync (setAlpha (new F h B).setup a) := by
  intro n _ _
  refine ⟨0, ?_⟩
  have e1 : (setAlpha (new F h B).setup a).lastOutputPhases n = 0 := rfl
  have e2 : (setAlpha (new F h B).setup a).lastInputPhasesGuitar n = 0 := rfl
  rw [e1, e2]
  norm_num

end Morph

/-- C24: in every pass and for every bin `n` in `0 .. fftSize/2` the loop
records for both streams the bin number plus the deviation `r * fftSize /
hopSize / (2π)` of one and the same residual, the guitar stream's
`r = wrapPhase(guitar phase - previous guitar phase - 2π n hopSize / fftSize)`,
so the two analysis-frequency arrays are equal on that bin; and a pass on an
object that differs only in the morph amount and in what determines the sample
stream's current and previous phases (its capture buffer and write index, its
previous-phase memory) leaves the same synthesis frequency and the same stored
output phase for that bin. -/
theorem Morph.sample_phases_without_effect (lib : FftLib) (m : Morph) (alpha : ℝ)
    (sampleBuffer : ℤ → ℝ) (samplePointer : ℤ) (previousSamplePhases : ℤ → ℝ) (n : ℤ)
    (h0 : 0 ≤ n) (h1 : n ≤ Morph.halfSize m) :
    (Morph.process_fft lib m).analysisFrequenciesGuitar n
      = (n : ℝ) + Morph.wrapPhase
          ((atan2f ((Morph.transform lib (Morph.windowing m)).gFftGuitar_fdi n)
              ((Morph.transform lib (Morph.windowing m)).gFftGuitar_fdr n)
            - m.lastInputPhasesGuitar n)
            - 2.0 * Real.pi * (n : ℝ) / (m.gFftSize : ℝ) * (m.gHopSize : ℝ))
          * (m.gFftSize : ℝ) / (m.gHopSize : ℝ) / (2.0 * Real.pi) ∧
    (Morph.process_fft lib m).analysisFrequenciesSample n
      = (n : ℝ) + Morph.wrapPhase
          ((atan2f ((Morph.transform lib (Morph.windowing m)).gFftGuitar_fdi n)
              ((Morph.transform lib (Morph.windowing m)).gFftGuitar_fdr n)
            - m.lastInputPhasesGuitar n)
            - 2.0 * Real.pi * (n : ℝ) / (m.gFftSize : ℝ) * (m.gHopSize : ℝ))
          * (m.gFftSize : ℝ) / (m.gHopSize : ℝ) / (2.0 * Real.pi) ∧
    (Morph.process_fft lib m).analysisFrequenciesSample n
      = (Morph.process_fft lib m).analysisFrequenciesGuitar n ∧
    (Morph.process_fft lib { m with
        gAlpha := alpha
        gInputBufferSample := sampleBuffer
        gInputBufferPointerSample := samplePointer
        lastInputPhasesSample := previousSamplePhases }).synthesisFrequencies n
      = (Morph.process_fft lib m).synthesisFrequencies n ∧
    (Morph.process_fft lib { m with
        gAlpha := alpha
        gInputBufferSample := sampleBuffer
        gInputBufferPointerSample := samplePointer
        lastInputPhasesSample := previousSamplePhases }).lastOutputPhases n
      = (Morph.process_fft lib m).lastOutputPhases n := by
  obtain ⟨f1, f2⟩ := Morph.process_fft_frequencies lib m n h0 h1
  refine ⟨f1, f2, by rw [f1, f2], ?_, ?_⟩
  · have b := Morph.process_fft_synthesisFrequencies lib { m with
        gAlpha := alpha
        gInputBufferSample := sampleBuffer
        gInputBufferPointerSample := samplePointer
        lastInputPhasesSample := previousSamplePhases } n h0 h1
    rw [Morph.process_fft_synthesisFrequencies lib m n h0 h1]
    exact b
  · have b := Morph.process_fft_lastOutputPhases lib { m with
        gAlpha := alpha
        gInputBufferSample := sampleBuffer
        gInputBufferPointerSample := samplePointer
        lastInputPhasesSample := previousSamplePhases } n h0 h1
    rw [Morph.process_fft_lastOutputPhases lib m n h0 h1]
    exact b

/-- Witness of C24: bin 1 of the first pass on the object set up with FFT size
4, hop size 2 and buffer size 16, against the object with morph amount 1, a
capture buffer of ones for the sample stream written up to index 3, and
previous sample phases 1. -/
theorem Morph.sample_phases_without_effect_witness :
    (0 : ℤ) ≤ 1 ∧ (1 : ℤ) ≤ Morph.halfSize (Morph.new 4 2 16).setup ∧
    (Morph.process_fft FftLib.dft { (Morph.new 4 2 16).setup with
        gAlpha := 1
        gInputBufferSample := fun _ => 1
        gInputBufferPointerSample := 3
        lastInputPhasesSample := fun _ => 1 }).lastOutputPhases 1
      = (Morph.process_fft FftLib.dft (Morph.new 4 2 16).setup).lastOutputPhases 1 :=
  ⟨by norm_num, by simp [Morph.halfSize, Morph.setup, Morph.new]; decide,
    (Morph.sample_phases_without_effect FftLib.dft (Morph.new 4 2 16).setup 1 (fun _ => 1) 3
      (fun _ => 1) 1 (by norm_num)
      (by simp [Morph.halfSize, Morph.setup, Morph.new]; decide)).2.2.2.2⟩

/-- C23: for every FFT size and hop size other than 0, every state reached from
the constructed and set-up object with morph amount 0 by any sequence of
`render` and `process_fft` calls (any captured samples, any transform), and
every bin `n` in `0 .. fftSize/2`: after one more pass the stored output phase
of the bin differs from the guitar stream's analysed phase of that pass by a
whole multiple of `2π`, that analysed phase is what the pass stores as the
stream's previous phase, and the synthesis magnitude equals the guitar stream's
analysis magnitude, the amplitude of the bin of the guitar transform. -/
theorem Morph.synthesis_inverts_analysis (lib : FftLib) (F h B : ℤ)
    (calls : List Morph.Call) (n : ℤ) (hF : F ≠ 0) (hh : h ≠ 0) (h0 : 0 ≤ n)
    (h1 : n ≤ F.tdiv 2) :
    (∃ j : ℤ,
      (Morph.process_fft lib
          (Morph.run lib (Morph.setAlpha (Morph.new F h B).setup 0) calls)).lastOutputPhases n
        = Morph.phaseGuitar (Morph.transform lib (Morph.windowing
            (Morph.run lib (Morph.setAlpha (Morph.new F h B).setup 0) calls))) n
          + j * (2 * Real.pi)) ∧
    (Morph.process_fft lib
        (Morph.run lib (Morph.setAlpha (Morph.new F h B).setup 0) calls)).lastInputPhasesGuitar n
      = Morph.phaseGuitar (Morph.transform lib (Morph.windowing
          (Morph.run lib (Morph.setAlpha (Morph.new F h B).setup 0) calls))) n ∧
    (Morph.process_fft lib
        (Morph.run lib (Morph.setAlpha (Morph.new F h B).setup 0) calls)).synthesisMagnitudes n
      = (Morph.process_fft lib
          (Morph.run lib (Morph.setAlpha (Morph.new F h B).setup 0) calls)).analysisMagnitudesGuitar n ∧
    (Morph.process_fft lib
        (Morph.run lib (Morph.setAlpha (Morph.new F h B).setup 0) calls)).analysisMagnitudesGuitar n
      = lib.fda
          (Morph.transform lib (Morph.windowing
            (Morph.run lib (Morph.setAlpha (Morph.new F h B).setup 0) calls))).gFftGuitar_fdr
          (Morph.transform lib (Morph.windowing
            (Morph.run lib (Morph.setAlpha (Morph.new F h B).setup 0) calls))).gFftGuitar_fdi n := by
  obtain ⟨e1, e2, hs⟩ := Morph.phaseSync_run lib F h hF hh calls
    (Morph.setAlpha (Morph.new F h B).setup 0) rfl rfl (Morph.phaseSync_initial F h B 0)
  have hα : (Morph.run lib (Morph.setAlpha (Morph.new F h B).setup 0) calls).gAlpha = 0 :=
    Morph.alpha_run lib calls _
  generalize Morph.run lib (Morph.setAlpha (Morph.new F h B).setup 0) calls = m at e1 e2 hs hα ⊢
  have h1' : n ≤ Morph.halfSize m := by rw [Morph.halfSize, e1]; exact h1
  obtain ⟨j0, p0⟩ := hs n h0 h1'
  obtain ⟨j, p⟩ := Morph.process_fft_phase_advance lib m n h0 h1' (e1 ▸ hF) (e2 ▸ hh)
  refine ⟨⟨j0 + j, ?_⟩, Morph.process_fft_lastInputPhasesGuitar lib m n h0 h1', ?_,
    Morph.process_fft_analysisMagnitudesGuitar lib m n h0 h1'⟩
  · rw [p, p0]
    push_cast
    ring
  · rw [Morph.process_fft_synthesisMagnitudes lib m n h0 h1', hα]
    ring

/-- Witness of C23: FFT size 4, hop size 2, buffer size 16, bin 1, after two
`render` calls, a pass and another `render` call. -/
theorem Morph.synthesis_inverts_analysis_witness :
    (4 : ℤ) ≠ 0 ∧ (2 : ℤ) ≠ 0 ∧ (0 : ℤ) ≤ 1 ∧ (1 : ℤ) ≤ (4 : ℤ).tdiv 2 ∧
    (Morph.process_fft FftLib.dft
        (Morph.run FftLib.dft (Morph.setAlpha (Morph.new 4 2 16).setup 0)
          [Morph.Call.render 1 0, Morph.Call.render 2 1, Morph.Call.process_fft,
            Morph.Call.render 3 0])).synthesisMagnitudes 1
      = (Morph.process_fft FftLib.dft
          (Morph.run FftLib.dft (Morph.setAlpha (Morph.new 4 2 16).setup 0)
            [Morph.Call.render 1 0, Morph.Call.render 2 1, Morph.Call.process_fft,
              Morph.Call.render 3 0])).analysisMagnitudesGuitar 1 :=
  ⟨by decide, by decide, by decide, by decide,
    (Morph.synthesis_inverts_analysis FftLib.dft 4 2 16
      [Morph.Call.render 1 0, Morph.Call.render 2 1, Morph.Call.process_fft,
        Morph.Call.render 3 0] 1 (by decide) (by decide) (by decide) (by decide)).2.2.1⟩

/-! ## Morph: the spectrum rebuilt by the synthesis loop -/

namespace Morph

/-- What the synthesis loop leaves in a bin of its range, and in a bin outside
its range whose mirror bin passes the guard of the conjugate store. -/
theorem synthesis_bins (m : Morph) (k : ℤ) :
    (0 ≤ k ∧ k ≤ halfSize m →
      (synthesis m).gFftGuitar_fdr k = m.synthesisMagnitudes k * Real.cos (outPhase m k) ∧
      (synthesis m).gFftGuitar_fdi k = m.synthesisMagnitudes k * Real.sin (outPhase m k)) ∧
    (¬(0 ≤ k ∧ k ≤ halfSize m) → 0 < m.gFftSize - k ∧ m.gFftSize - k < halfSize m →
      (synthesis m).gFftGuitar_fdr k
        = m.synthesisMagnitudes (m.gFftSize - k) * Real.cos (outPhase m (m.gFftSize - k)) ∧
      (synthesis m).gFftGuitar_fdi k
        = -(m.synthesisMagnitudes (m.gFftSize - k)
            * Real.sin (outPhase m (m.gFftSize - k)))) := by
  constructor
  · intro h
    simp only [synthesis, if_pos h, and_self]
  · intro h g
    simp only [synthesis, if_neg h, if_pos g, and_self]

/-- The phase the synthesis loop uses for a bin of its range is the output
phase `process_fft` stores for the bin. -/
theorem outPhase_stage (lib : FftLib) (m : Morph) (n : ℤ) (h0 : 0 ≤ n)
    (h1 : n ≤ halfSize m) :
    outPhase (morphing (analysis lib (transform lib (windowing m)))) n
      = (process_fft lib m).lastOutputPhases n := by
  have e : (process_fft lib m).lastOutputPhases
      = (synthesis (morphing (analysis lib (transform lib (windowing m))))).lastOutputPhases := by
    simp only [process_fft, overlapAdd, inverse]
  have hin2 : 0 ≤ n ∧ n ≤ halfSize (morphing (analysis lib (transform lib (windowing m)))) :=
    ⟨h0, h1⟩
  rw [e]
  simp only [synthesis, if_pos hin2]

/-- With the phase memories in step, the output phase a pass stores for a bin
is the guitar phase of that bin up to whole turns. -/
theorem process_fft_phase_tracks (lib : FftLib) (m : Morph) (n : ℤ) (h0 : 0 ≤ n)
    (h1 : n ≤ halfSize m) (hF : m.gFftSize ≠ 0) (hh : m.gHopSize ≠ 0) (hs : PhaseSync m) :
    ∃ j : ℤ, (process_fft lib m).lastOutputPhases n
      = phaseGuitar (transform lib (windowing m)) n + j * (2 * Real.pi) := by
  obtain ⟨j0, p0⟩ := hs n h0 h1
  obtain ⟨j, p⟩ := process_fft_phase_advance lib m n h0 h1 hF hh
  refine ⟨j0 + j, ?_⟩
  rw [p, p0]
  push_cast
  ring

/-- A bin of the guitar transform with zero imaginary part has a phase whose
sine is 0. -/
theorem sin_phaseGuitar_of_real (m : Morph) (n : ℤ) (h : m.gFftGuitar_fdi n = 0) :
    Real.sin (phaseGuitar m n) = 0 := by
  rw [phaseGuitar, atan2f, h, Complex.sin_arg]
  simp

end Morph

/-- Bins 0 and `size / 2` of the reference transform of a real frame of even
size are real. -/
theorem FftLib.dft_edge_bins_real (size : ℤ) (h0 : 0 < size) (hev : size % 2 = 0)
    (td : ℤ → ℝ) :
    (FftLib.dft.fft size td).2 0 = 0 ∧ (FftLib.dft.fft size td).2 (size.tdiv 2) = 0 := by
  have hd : size.tdiv 2 = size / 2 := Int.tdiv_eq_ediv h0.le (by norm_num)
  have hs : (size : ℝ) = 2 * ((size / 2 : ℤ) : ℝ) := by
    have : size = 2 * (size / 2) := by omega
    exact_mod_cast this
  have hne : ((size / 2 : ℤ) : ℝ) ≠ 0 := by
    have : size / 2 ≠ 0 := by omega
    exact_mod_cast this
  constructor
  · simp [FftLib.dft]
  · simp only [FftLib.dft, hd, neg_eq_zero]
    refine Finset.sum_eq_zero (fun k _ => ?_)
    have e : 2 * Real.pi * (k : ℝ) * ((size / 2 : ℤ) : ℝ) / (size : ℝ) = (k : ℝ) * Real.pi := by
      rw [hs]
      field_simp
      ring
    rw [e, Real.sin_nat_mul_pi, mul_zero]

/-- C21: for every even FFT size `F > 0` and hop size other than 0, every
transform library whose forward transform of size `F` gives bins 0 and `F/2` a
zero imaginary part (every transform of a real frame does), and every state
reached from the constructed and set-up object, with any morph amount, by any
sequence of `render` and `process_fft` calls: the spectrum that the synthesis
loop of the next pass leaves for the inverse transform is conjugate-symmetric,
that is, for every `k` with `0 < k < F` bin `F - k` holds the complex conjugate
of bin `k`, and bin 0 has zero imaginary part. -/
theorem Morph.synthesis_conjugate_symmetric (lib : FftLib) (F h B : ℤ) (a : ℝ)
    (calls : List Morph.Call) (hF : 0 < F) (hev : F % 2 = 0) (hh : h ≠ 0)
    (hlib : ∀ td, (lib.fft F td).2 0 = 0 ∧ (lib.fft F td).2 (F.tdiv 2) = 0) :
    Morph.conjugateSymmetric F
      (Morph.synthesis (Morph.morphing (Morph.analysis lib (Morph.transform lib (Morph.windowing
        (Morph.run lib (Morph.setAlpha (Morph.new F h B).setup a) calls)))))).gFftGuitar_fdr
      (Morph.synthesis (Morph.morphing (Morph.analysis lib (Morph.transform lib (Morph.windowing
        (Morph.run lib (Morph.setAlpha (Morph.new F h B).setup a) calls)))))).gFftGuitar_fdi := by
  obtain ⟨e1, e2, hs⟩ := Morph.phaseSync_run lib F h hF.ne' hh calls
    (Morph.setAlpha (Morph.new F h B).setup a) rfl rfl (Morph.phaseSync_initial F h B a)
  generalize Morph.run lib (Morph.setAlpha (Morph.new F h B).setup a) calls = m at e1 e2 hs ⊢
  have hd : F.tdiv 2 = F / 2 := Int.tdiv_eq_ediv hF.le (by norm_num)
  have hH : Morph.halfSize m = F / 2 := by rw [Morph.halfSize, e1, hd]
  have hXF : (Morph.morphing (Morph.analysis lib (Morph.transform lib
      (Morph.windowing m)))).gFftSize = F := e1
  have hXH : Morph.halfSize (Morph.morphing (Morph.analysis lib (Morph.transform lib
      (Morph.windowing m)))) = F / 2 := hH
  have hedge : ∀ n, n = 0 ∨ n = F / 2 →
      Real.sin (Morph.outPhase (Morph.morphing (Morph.analysis lib (Morph.transform lib
        (Morph.windowing m)))) n) = 0 := by
    intro n hn
    have h0 : 0 ≤ n := by rcases hn with h | h <;> omega
    have h1 : n ≤ Morph.halfSize m := by rw [hH]; rcases hn with h | h <;> omega
    obtain ⟨j, p⟩ := Morph.process_fft_phase_tracks lib m n h0 h1 (e1 ▸ hF.ne') (e2 ▸ hh) hs
    have hre : (Morph.transform lib (Morph.windowing m)).gFftGuitar_fdi n = 0 := by
      have hfdi : (Morph.transform lib (Morph.windowing m)).gFftGuitar_fdi
          = (lib.fft m.gFftSize (Morph.windowing m).unwrappedBufferGuitar).2 := rfl
      rw [hfdi, e1]
      rcases hn with h | h
      · rw [h]; exact (hlib _).1
      · rw [h, ← hd]; exact (hlib _).2
    rw [Morph.outPhase_stage lib m n h0 h1, p, Real.sin_add_int_mul_two_pi]
    exact Morph.sin_phaseGuitar_of_real _ n hre
  generalize Morph.morphing (Morph.analysis lib (Morph.transform lib (Morph.windowing m))) = X
    at hXF hXH hedge ⊢
  have low : ∀ k, 0 ≤ k → k ≤ F / 2 →
      (Morph.synthesis X).gFftGuitar_fdr k
        = X.synthesisMagnitudes k * Real.cos (Morph.outPhase X k) ∧
      (Morph.synthesis X).gFftGuitar_fdi k
        = X.synthesisMagnitudes k * Real.sin (Morph.outPhase X k) := by
    intro k k0 k1
    exact (Morph.synthesis_bins X k).1 ⟨k0, by rw [hXH]; exact k1⟩
  have high : ∀ k, F / 2 < k → k < F →
      (Morph.synthesis X).gFftGuitar_fdr k
        = X.synthesisMagnitudes (F - k) * Real.cos (Morph.outPhase X (F - k)) ∧
      (Morph.synthesis X).gFftGuitar_fdi k
        = -(X.synthesisMagnitudes (F - k) * Real.sin (Morph.outPhase X (F - k))) := by
    intro k k0 k1
    have g := (Morph.synthesis_bins X k).2 (by rw [hXH]; omega) (by rw [hXF, hXH]; omega)
    rw [hXF] at g
    exact g
  constructor
  · intro k k0 k1
    rcases lt_trichotomy k (F / 2) with hk | hk | hk
    · obtain ⟨r1, i1⟩ := low k k0.le hk.le
      obtain ⟨r2, i2⟩ := high (F - k) (by omega) (by omega)
      rw [sub_sub_cancel] at r2 i2
      rw [r1, i1, r2, i2]
      exact ⟨rfl, rfl⟩
    · have hk' : F - k = k := by omega
      obtain ⟨_, i1⟩ := low k k0.le hk.le
      rw [hk', i1, hedge k (Or.inr hk)]
      norm_num
    · obtain ⟨r1, i1⟩ := low (F - k) (by omega) (by omega)
      obtain ⟨r2, i2⟩ := high k hk k1
      rw [r1, i1, r2, i2]
      exact ⟨rfl, (neg_neg _).symm⟩
  · obtain ⟨_, i1⟩ := low 0 (le_refl _) (by omega)
    rw [i1, hedge 0 (Or.inl rfl)]
    norm_num

/-- Witness of C21: FFT size 4, hop size 2, buffer size 16, morph amount 0.5,
reference transform, after two `render` calls, a pass and another `render`
call. -/
theorem Morph.synthesis_conjugate_symmetric_witness :
    (0 : ℤ) < 4 ∧ (4 : ℤ) % 2 = 0 ∧ (2 : ℤ) ≠ 0 ∧
    (∀ td, (FftLib.dft.fft 4 td).2 0 = 0 ∧ (FftLib.dft.fft 4 td).2 ((4 : ℤ).tdiv 2) = 0) ∧
    Morph.conjugateSymmetric 4
      (Morph.synthesis (Morph.morphing (Morph.analysis FftLib.dft (Morph.transform FftLib.dft
        (Morph.windowing (Morph.run FftLib.dft (Morph.setAlpha (Morph.new 4 2 16).setup 0.5)
          [Morph.Call.render 1 0, Morph.Call.render 2 1, Morph.Call.process_fft,
            Morph.Call.render 3 0])))))).gFftGuitar_fdr
      (Morph.synthesis (Morph.morphing (Morph.analysis FftLib.dft (Morph.transform FftLib.dft
        (Morph.windowing (Morph.run FftLib.dft (Morph.setAlpha (Morph.new 4 2 16).setup 0.5)
          [Morph.Call.render 1 0, Morph.Call.render 2 1, Morph.Call.process_fft,
            Morph.Call.render 3 0])))))).gFftGuitar_fdi :=
  ⟨by decide, by decide, by decide, FftLib.dft_edge_bins_real 4 (by decide) (by decide),
    Morph.synthesis_conjugate_symmetric FftLib.dft 4 2 16 0.5
      [Morph.Call.render 1 0, Morph.Call.render 2 1, Morph.Call.process_fft,
        Morph.Call.render 3 0] (by decide) (by decide) (by decide)
      (FftLib.dft_edge_bins_real 4 (by decide) (by decide))⟩
